import Mathlib

/-!
Verification of the delisp type-inference front end.

The development shallowly embeds the constraint generator of
`packages/delisp-core/src/infer.ts` together with the data model it
operates on.  Pieces of the repository that `infer.ts` imports but whose
files are not part of the source tree (the constraint/solver module, the
substitution utilities, the fresh-variable source, the syntax definitions
and the inline-primitive table) are modelled from the specification; each
such definition says so in its doc comment.  Everything else is a direct
translation of the TypeScript source.
-/

/-! ### The type algebra (types.ts) -/

/-- Monotypes, following `types.ts`: constants, saturated applications,
type variables (with the `userSpecified` flag), and the row algebra
(`REmpty` / `RExtension`). -/
inductive Ty where
  | constant (name : String)
  | app (op : Ty) (args : List Ty)
  | tvar (name : String) (userSpecified : Bool)
  | rempty
  | rext (label : String) (labelType : Ty) (ext : Ty)

/-- `tcArrow` from types.ts: the `->` type constructor. -/
def tcArrow : Ty := .constant "->"

/-- `tcVector` from types.ts. -/
def tcVector : Ty := .constant "vector"

/-- `tcRecord` from types.ts. -/
def tcRecord : Ty := .constant "record"

/-- Modelled from the spec: the `effect` type constructor (effect types are
`App(effect, row)`; the committed `types.ts` predates effect rows). -/
def tcEffect : Ty := .constant "effect"

/-- Modelled from the spec: the `variant` type constructor (variants are
`App(variant, row)`). -/
def tcVariant : Ty := .constant "variant"

/-- `tVoid` from types.ts. -/
def tVoid : Ty := .constant "void"

/-- `tBoolean` from types.ts. -/
def tBoolean : Ty := .constant "boolean"

/-- `tNumber` from types.ts. -/
def tNumber : Ty := .constant "number"

/-- `tString` from types.ts. -/
def tString : Ty := .constant "string"

/-- `tRow` from types.ts: fold a field list into nested row extensions over
the given tail. -/
def tRow (fields : List (String × Ty)) (extending : Ty) : Ty :=
  fields.foldr (fun f row => Ty.rext f.1 f.2 row) extending

/-- `tVector` from types.ts. -/
def tVector (t : Ty) : Ty := .app tcVector [t]

/-- `tRecord` from types.ts, over an explicit tail. -/
def tRecord (fields : List (String × Ty)) (extending : Ty) : Ty :=
  .app tcRecord [tRow fields extending]

/-- Modelled from the spec: function types are
`App(->, arg1 ... argn, effect, result)` (the committed `types.ts` predates
the effect slot that `infer.ts` uses). -/
def tFn (args : List Ty) (effect result : Ty) : Ty :=
  .app tcArrow (args ++ [effect, result])

/-- Modelled from the spec: effect types are `App(effect, row)`; `infer.ts`
only ever builds the empty effect `tEffect([])`. -/
def tEffect (labels : List (String × Ty)) : Ty :=
  .app tcEffect [tRow labels .rempty]

/-- Modelled from the spec: variant types are `App(variant, row)`. -/
def tVariant (variants : List (String × Ty)) : Ty :=
  .app tcVariant [tRow variants .rempty]

/-- `TypeSchema` from types.ts: a `forall tvars. mono` scheme. -/
structure TypeSchema where
  tvars : List String
  mono : Ty

mutual
/-- Structural boolean equality on monotypes (value equality; used where
the source compares type-alias nodes). -/
def tyBeq : Ty → Ty → Bool
  | .constant n, .constant m => n == m
  | .app op1 args1, .app op2 args2 => tyBeq op1 op2 && tyBeqL args1 args2
  | .tvar n1 u1, .tvar n2 u2 => n1 == n2 && u1 == u2
  | .rempty, .rempty => true
  | .rext l1 t1 e1, .rext l2 t2 e2 => l1 == l2 && tyBeq t1 t2 && tyBeq e1 e2
  | _, _ => false
/-- Pointwise `tyBeq` on lists of types. -/
def tyBeqL : List Ty → List Ty → Bool
  | [], [] => true
  | t :: ts, u :: us => tyBeq t u && tyBeqL ts us
  | _, _ => false
end

/-! ### Fresh type variables (type-generate.ts) -/

/-- Modelled from the spec: the fresh-variable source is a counter
producing pairwise distinct names; the concrete readable encoding is left
open, so we fix an injective one. -/
def genName (n : Nat) : String := String.mk (List.replicate (n + 1) 't')

/-- Modelled from the spec: `generateUniqueTVar` returns a non-user-specified
type variable named from the next counter value. -/
def generateUniqueTVar (n : Nat) : Ty := .tvar (genName n) false

/-! ### Annotations with wildcards (convert-type.ts, missing revision) -/

/-- Modelled from the spec: a user-written type annotation before
instantiation.  Named identifiers are already user-specified variables;
`_` is an anonymous wildcard and `_name` a named wildcard shared across
one annotation. -/
inductive WTy where
  | wconst (name : String)
  | wapp (op : WTy) (args : List WTy)
  | wvar (name : String) (userSpecified : Bool)
  | wempty
  | wext (label : String) (labelType : WTy) (ext : WTy)
  | wildcardAnon
  | wildcardNamed (name : String)

mutual
/-- Modelled from the spec: instantiate an annotation's wildcards.
Anonymous wildcards each take an independent fresh variable; named
wildcards share one fresh variable per name, recorded in `acc`. -/
def instW : WTy → Nat → List (String × String) →
    (Ty × Nat × List (String × String))
  | .wconst nm, n, acc => (.constant nm, n, acc)
  | .wapp op args, n, acc =>
      let (op2, n1, acc1) := instW op n acc
      let (args2, n2, acc2) := instWL args n1 acc1
      (.app op2 args2, n2, acc2)
  | .wvar nm us, n, acc => (.tvar nm us, n, acc)
  | .wempty, n, acc => (.rempty, n, acc)
  | .wext l lt ext, n, acc =>
      let (lt2, n1, acc1) := instW lt n acc
      let (ext2, n2, acc2) := instW ext n1 acc1
      (.rext l lt2 ext2, n2, acc2)
  | .wildcardAnon, n, acc => (generateUniqueTVar n, n + 1, acc)
  | .wildcardNamed nm, n, acc =>
      match acc.lookup nm with
      | some v => (.tvar v false, n, acc)
      | none => (generateUniqueTVar n, n + 1, (nm, genName n) :: acc)
/-- List version of `instW`. -/
def instWL : List WTy → Nat → List (String × String) →
    (List Ty × Nat × List (String × String))
  | [], n, acc => ([], n, acc)
  | t :: ts, n, acc =>
      let (t2, n1, acc1) := instW t n acc
      let (ts2, n2, acc2) := instWL ts n1 acc1
      (t2 :: ts2, n2, acc2)
end

/-! ### The expression language (syntax.ts, modelled) -/

/-- Modelled from the spec and the exhaustive switch of `infer` in
infer.ts: the expression forms of the source language.  `syntax.ts` is not
in the source tree; the constructor list is exactly the set of node tags
`infer` dispatches on. -/
inductive Expr where
  | unknown
  | num (value : Int)
  | str (value : String)
  | vector (values : List Expr)
  | record (fields : List (String × Expr)) (ext : Option Expr)
  | varRef (name : String)
  | conditional (cond cons alt : Expr)
  | fn (args : List String) (body : List Expr)
  | funcall (f : Expr) (args : List Expr)
  | letB (bindings : List (String × Expr)) (body : List Expr)
  | theAnn (twc : WTy) (value : Expr)
  | doBlock (body : List Expr) (returning : Expr)
  | matchE (value : Expr) (cases : List (String × String × List Expr))

/-- The `Typed` info record: every typed node carries a type and an
effect. -/
structure TInfo where
  type : Ty
  effect : Ty

/-- Typed expressions: the same tree with a `TInfo` on every node
(`Expression<Typed>` in the source). -/
inductive TExpr where
  | unknown (info : TInfo)
  | num (value : Int) (info : TInfo)
  | str (value : String) (info : TInfo)
  | vector (values : List TExpr) (info : TInfo)
  | record (fields : List (String × TExpr)) (ext : Option TExpr) (info : TInfo)
  | varRef (name : String) (info : TInfo)
  | conditional (cond cons alt : TExpr) (info : TInfo)
  | fn (args : List String) (body : List TExpr) (info : TInfo)
  | funcall (f : TExpr) (args : List TExpr) (info : TInfo)
  | letB (bindings : List (String × TExpr)) (body : List TExpr) (info : TInfo)
  | theAnn (twc : WTy) (value : TExpr) (info : TInfo)
  | doBlock (body : List TExpr) (returning : TExpr) (info : TInfo)
  | matchE (value : TExpr) (cases : List (String × String × List TExpr))
      (info : TInfo)

/-- The info record of a typed expression's root node. -/
def TExpr.infoOf : TExpr → TInfo
  | .unknown i => i
  | .num _ i => i
  | .str _ i => i
  | .vector _ i => i
  | .record _ _ i => i
  | .varRef _ i => i
  | .conditional _ _ _ i => i
  | .fn _ _ i => i
  | .funcall _ _ i => i
  | .letB _ _ i => i
  | .theAnn _ _ i => i
  | .doBlock _ _ i => i
  | .matchE _ _ i => i

/-- A `TAssumption` from infer.ts: a variable-use node for which a type and
an effect have been assumed.  Both are fresh type variables when the
assumption is created; the solver may later substitute arbitrary types. -/
structure Assumption where
  name : String
  type : Ty
  effect : Ty

/-- The typed variable-reference node an assumption stands for. -/
def Assumption.toTExpr (a : Assumption) : TExpr :=
  .varRef a.name ⟨a.type, a.effect⟩

/-- Modelled from the spec: the constraint language of infer-solver.ts
(not in the source tree): equality, effect equality, implicit-instance and
explicit-instance constraints, each carrying the node it originates
from. -/
inductive TConstraint where
  | equal (e : TExpr) (t : Ty)
  | effect (e : TExpr) (t : Ty)
  | implicitInstance (a : Assumption) (monovars : List String) (t : Ty)
  | explicitInstance (a : Assumption) (s : TypeSchema)

/-- `constEqual` of infer-solver.ts, modelled from the spec. -/
def constEqual (e : TExpr) (t : Ty) : TConstraint := .equal e t

/-- `constEffect` of infer-solver.ts, modelled from the spec. -/
def constEffect (e : TExpr) (t : Ty) : TConstraint := .effect e t

/-- `constImplicitInstance` of infer-solver.ts, modelled from the spec. -/
def constImplicitInstance (a : Assumption) (monovars : List String)
    (t : Ty) : TConstraint := .implicitInstance a monovars t

/-- `constExplicitInstance` of infer-solver.ts, modelled from the spec. -/
def constExplicitInstance (a : Assumption) (s : TypeSchema) : TConstraint :=
  .explicitInstance a s

/-! ### Module forms -/

/-- Modelled from the spec and the dispatch in `inferSyntax`: a top-level
form is an expression, a definition, an export or a type alias. -/
inductive Syn where
  | expr (e : Expr)
  | defn (name : String) (value : Expr)
  | sexport (name : String)
  | talias (name : String) (definition : Ty)

/-- Typed top-level forms (`Syntax<Typed>`). -/
inductive TSyn where
  | expr (e : TExpr)
  | defn (name : String) (value : TExpr)
  | sexport (name : String)
  | talias (name : String) (definition : Ty)

/-- A module is its list of top-level forms. -/
structure DModule where
  body : List Syn

/-- A type-alias declaration as `checkCircularTypes` sees it: the alias
name and the defined type. -/
structure STypeAlias where
  name : String
  definition : Ty

/-! ### Errors -/

/-- The error kinds the core surfaces (spec section 7), plus the fuel
markers of the bounded embeddings of the source's unbounded recursions. -/
inductive TErr where
  | recursiveAlias
  | circularAliases (path : List String)
  | visitFuelOut
  | genFailed
  | constantMismatch
  | arityMismatch
  | occursCheck
  | rowLabelMissing
  | typeMismatch
  | annTooGeneral
  | solverStuck
  | fuelOut

/-! ### Type-alias expansion (infer.ts `expandTypeAliases`) -/

/-- An internal type environment: alias name to definition, latest
declaration first (`InternalTypeEnvironment` in infer.ts). -/
abbrev ITEnv : Type := List (String × Ty)

mutual
/-- The names of all `Constant` nodes of a type (`listTypeConstants` of
type-utils.ts, modelled from the spec: it collects the constant nodes of
a monotype). -/
def tyConstNames : Ty → List String
  | .constant name => [name]
  | .app op args => tyConstNames op ++ tyConstNamesL args
  | .tvar _ _ => []
  | .rempty => []
  | .rext _ lt ext => tyConstNames lt ++ tyConstNames ext

/-- List version of `tyConstNames`. -/
def tyConstNamesL : List Ty → List String
  | [] => []
  | t :: ts => tyConstNames t ++ tyConstNamesL ts
end

mutual
/-- Structural depth of a type, weighting list positions; used to compute
a sufficient fuel for `expandF`. -/
def wdepth : Ty → Nat
  | .constant _ => 1
  | .app op args => 1 + max (wdepth op) (wdepthL args)
  | .tvar _ _ => 1
  | .rempty => 1
  | .rext _ lt ext => 1 + max (wdepth lt) (wdepth ext)

/-- List version of `wdepth`. -/
def wdepthL : List Ty → Nat
  | [] => 0
  | t :: ts => 1 + max (wdepth t) (wdepthL ts)
end

mutual
/-- Fuelled body of `expandTypeAliases` (infer.ts:832): replace every
constant declared in the environment by its recursively expanded
definition via `transformRecurType`'s traversal; other nodes are rebuilt
from their expanded children.  The source recursion is unbounded (it
diverges on a cyclic alias table); the fuel bounds the recursion depth
and is shown sufficient for acyclic tables. -/
def expandF : Nat → ITEnv → Ty → Option Ty
  | 0, _, _ => none
  | f + 1, env, t =>
    match t with
    | .constant name =>
        match List.lookup name env with
        | some d => expandF f env d
        | none => some (.constant name)
    | .app op args => do
        let op2 ← expandF f env op
        let args2 ← expandFL f env args
        some (.app op2 args2)
    | .tvar nm us => some (.tvar nm us)
    | .rempty => some .rempty
    | .rext l lt ext => do
        let lt2 ← expandF f env lt
        let ext2 ← expandF f env ext
        some (.rext l lt2 ext2)
/-- List version of `expandF`. -/
def expandFL : Nat → ITEnv → List Ty → Option (List Ty)
  | _, _, [] => some []
  | 0, _, _ :: _ => none
  | f + 1, env, t :: ts => do
      let t2 ← expandF f env t
      let ts2 ← expandFL f env ts
      some (t2 :: ts2)
end

/-- The largest depth of a definition in the alias table. -/
def maxDefDepth (env : ITEnv) : Nat :=
  env.foldr (fun p m => max (wdepth p.2) m) 0

/-- `expandTypeAliases` from infer.ts, with the fuel that suffices for
acyclic alias tables. -/
def expandTypeAliases (env : ITEnv) (t : Ty) : Option Ty :=
  expandF (wdepth t + env.length * (maxDefDepth env + 1)) env t

/-! ### Cycle detection (infer.ts `checkCircularTypes`) -/

/-- Value equality of alias declarations, standing in for the object
identity `path.indexOf` uses in the source. -/
def aliasBeq (a b : STypeAlias) : Bool :=
  a.name == b.name && tyBeq a.definition b.definition

/-- Fuelled body of `visit` inside `checkCircularTypes` (infer.ts:791):
depth-first search remembering the path; finding the current alias on the
path reports a cycle, with a dedicated message when the reported cycle
has length one.  The fuel bounds the recursion depth; since the path
grows by one alias per level and only ever holds aliases of the module,
`length + 1` fuel is never exhausted. -/
def visitF : Nat → List STypeAlias → STypeAlias → List STypeAlias →
    Except TErr Unit
  | 0, _, _, _ => .error .visitFuelOut
  | f + 1, allAliases, typeAlias, path =>
    match path.findIdx? (fun x => aliasBeq x typeAlias) with
    | none =>
        (tyConstNames typeAlias.definition).forM (fun ud =>
          match allAliases.find? (fun x => x.name == ud) with
          | none => .ok ()
          | some dep => visitF f allAliases dep (path ++ [typeAlias]))
    | some index =>
        let cycle := path.drop index ++ [typeAlias]
        if cycle.length == 1 then .error .recursiveAlias
        else .error (.circularAliases (cycle.map (fun s => s.name)))

/-- `checkCircularTypes` from infer.ts: visit every alias from an empty
path. -/
def checkCircularTypes (allAliases : List STypeAlias) : Except TErr Unit :=
  allAliases.forM (fun tAlias => visitF (allAliases.length + 1) allAliases tAlias [])

/-! ### The constraint generator (infer.ts `infer`) -/

/-- `InferResult` from infer.ts: a typed result plus the gathered
constraints and assumptions. -/
structure InferRes (α : Type) where
  result : α
  constraints : List TConstraint
  assumptions : List Assumption

/-- `flatMap` from utils.ts (modelled: not in the source tree). -/
def flatMap (f : α → List β) (l : List α) : List β := (l.map f).flatten

/-- Fresh label types for a row built while constraining a record tail or
a match subject: one fresh variable per label, generated in order. -/
def freshLabelVars (n : Nat) : List String → List (String × Ty)
  | [] => []
  | l :: ls => (l, generateUniqueTVar n) :: freshLabelVars (n + 1) ls

/-- The per-case constraints of a `match` form (infer.ts:552): each case
must return the common type, and every assumption on the case variable is
equated with the label's variant type.  A missing returning form or an
unknown label makes the generator throw in the source; here it yields
`none`. -/
def matchCasesConstraints (t : Ty) (variantTypes : List (String × Ty)) :
    List (String × String × InferRes (List TExpr)) → Option (List TConstraint)
  | [] => some []
  | (label, varName, inf) :: rest => do
      let returningForm ← inf.result.getLast?
      let varCs ← caseVarConstraints label varName variantTypes inf.assumptions
      let restCs ← matchCasesConstraints t variantTypes rest
      some (constEqual returningForm t :: varCs ++ restCs)
where
  /-- Constraints of the assumptions on one case's pattern variable. -/
  caseVarConstraints (label varName : String)
      (variantTypes : List (String × Ty)) :
      List Assumption → Option (List TConstraint)
    | [] => some []
    | a :: rest => do
        let restCs ← caseVarConstraints label varName variantTypes rest
        if a.name == varName then
          match variantTypes.find? (fun v => v.1 == label) with
          | some v => some (constEqual a.toTExpr v.2 :: restCs)
          | none => none
        else
          some restCs

mutual
/-- `infer` from infer.ts: walk an expression generating fresh types, a
constraint list and an assumption list.  The counter of the process-wide
fresh-variable source is threaded explicitly; `none` marks the places
where the source would throw (a function, let or match-case body with no
returning form) or where alias expansion runs out of fuel. -/
def infer : Expr → List String → ITEnv → Nat → Option (InferRes TExpr × Nat)
  | .unknown, _, _, n =>
      some (⟨.unknown ⟨generateUniqueTVar n, generateUniqueTVar (n + 1)⟩,
        [], []⟩, n + 2)
  | .num v, _, _, n =>
      some (⟨.num v ⟨tNumber, generateUniqueTVar n⟩, [], []⟩, n + 1)
  | .str s, _, _, n =>
      some (⟨.str s ⟨tString, generateUniqueTVar n⟩, [], []⟩, n + 1)
  | .vector values, monovars, env, n => do
      let (iv, n1) ← inferMany values monovars env n
      let t := generateUniqueTVar n1
      let eff := generateUniqueTVar (n1 + 1)
      some (⟨.vector iv.result ⟨tVector t, eff⟩,
        iv.constraints ++ iv.result.map (fun e => constEqual e t)
          ++ iv.result.map (fun e => constEffect e eff),
        iv.assumptions⟩, n1 + 2)
  | .record fields ext, monovars, env, n => do
      let (ifs, n1) ← inferFields fields monovars env n
      let (itail, n2) ← inferOpt ext monovars env n1
      let tailRowType := generateUniqueTVar n2
      let eff := generateUniqueTVar (n2 + 1)
      let (tailEqual, n3) :=
        match itail with
        | none => ([], n2 + 2)
        | some it =>
            ([constEqual it.result
                (tRecord (freshLabelVars (n2 + 2) (fields.map (fun (f : String × Expr) => f.1)))
                  tailRowType)],
              n2 + 2 + fields.length)
      some (⟨.record (ifs.result) (itail.map (fun it => it.result))
          ⟨tRecord (ifs.result.map (fun (p : String × TExpr) => (p.1, p.2.infoOf.type)))
            (match itail with | some _ => tailRowType | none => .rempty),
            eff⟩,
        ifs.constraints
          ++ (match itail with | some it => it.constraints | none => [])
          ++ tailEqual
          ++ ifs.result.map (fun (p : String × TExpr) => constEffect p.2 eff)
          ++ (match itail with
              | some it => [constEffect it.result eff]
              | none => []),
        ifs.assumptions
          ++ (match itail with | some it => it.assumptions | none => [])⟩,
        n3)
  | .varRef nm, _, _, n =>
      let a : Assumption := ⟨nm, generateUniqueTVar n, generateUniqueTVar (n + 1)⟩
      some (⟨a.toTExpr, [], [a]⟩, n + 2)
  | .conditional cond cons alt, monovars, env, n => do
      let (ic, n1) ← infer cond monovars env n
      let (it, n2) ← infer cons monovars env n1
      let (ie, n3) ← infer alt monovars env n2
      let t := generateUniqueTVar n3
      let eff := generateUniqueTVar (n3 + 1)
      some (⟨.conditional ic.result it.result ie.result ⟨t, eff⟩,
        ic.constraints ++ it.constraints ++ ie.constraints
          ++ [constEqual ic.result tBoolean,
              constEqual it.result t,
              constEqual ie.result t,
              constEffect ic.result eff,
              constEffect it.result eff,
              constEffect ie.result eff],
        ic.assumptions ++ it.assumptions ++ ie.assumptions⟩, n3 + 2)
  | .fn args body, monovars, env, n => do
      let argtypes := (List.range args.length).map (fun i => generateUniqueTVar (n + i))
      let argNames := (List.range args.length).map (fun i => genName (n + i))
      let (ib, n1) ← inferMany body (monovars ++ argNames) env (n + args.length)
      let bodyEffect := generateUniqueTVar n1
      let newConstraints :=
        (ib.assumptions.filter (fun v => args.contains v.name)).map (fun v =>
          constEqual v.toTExpr (argtypes.getD (args.indexOf v.name) tVoid))
        ++ ib.result.map (fun form => constEffect form bodyEffect)
      let lastForm ← ib.result.getLast?
      some (⟨.fn args ib.result
          ⟨tFn argtypes bodyEffect lastForm.infoOf.type,
            generateUniqueTVar (n1 + 1)⟩,
        ib.constraints ++ newConstraints,
        ib.assumptions.filter (fun v => !args.contains v.name)⟩, n1 + 2)
  | .funcall f args, monovars, env, n => do
      let (ifn, n1) ← infer f monovars env n
      let (iargs, n2) ← inferMany args monovars env n1
      let tTo := generateUniqueTVar n2
      let eff := generateUniqueTVar (n2 + 1)
      let tfn := tFn (iargs.result.map (fun a => a.infoOf.type)) eff tTo
      some (⟨.funcall ifn.result iargs.result ⟨tTo, eff⟩,
        constEqual ifn.result tfn :: ifn.constraints ++ iargs.constraints
          ++ [constEffect ifn.result eff]
          ++ iargs.result.map (fun a => constEffect a eff),
        ifn.assumptions ++ iargs.assumptions⟩, n2 + 2)
  | .letB bindings body, monovars, env, n => do
      let names := bindings.map (fun b => b.1)
      let (ib, n1) ← inferBindings bindings monovars env n
      let (ibody, n2) ← inferMany body monovars env n1
      let eff := generateUniqueTVar n2
      let lastForm ← ibody.result.getLast?
      some (⟨.letB (ib.map (fun bi => (bi.1, bi.2.result))) ibody.result
          ⟨lastForm.infoOf.type, eff⟩,
        ibody.constraints
          ++ flatMap (fun bi => bi.2.constraints) ib
          ++ (ibody.assumptions.filter (fun v => names.contains v.name)).map
              (fun v =>
                match ib.find? (fun bi => bi.1 == v.name) with
                | some bi => constImplicitInstance v monovars bi.2.result.infoOf.type
                | none => constImplicitInstance v monovars tVoid)
          ++ ib.map (fun bi => constEffect bi.2.result (tEffect []))
          ++ ibody.result.map (fun form => constEffect form eff),
        ibody.assumptions.filter (fun v => !names.contains v.name)
          ++ flatMap (fun bi => bi.2.assumptions) ib⟩, n2 + 1)
  | .theAnn twc value, monovars, env, n => do
      let (iv, n1) ← infer value monovars env n
      let r := instW twc n1 []
      let t ← expandTypeAliases env r.1
      some (⟨.theAnn twc iv.result ⟨t, iv.result.infoOf.effect⟩,
        iv.constraints ++ [constEqual iv.result t],
        iv.assumptions⟩, r.2.1)
  | .doBlock body ret, monovars, env, n => do
      let (ib, n1) ← inferMany body monovars env n
      let (ir, n2) ← infer ret monovars env n1
      let eff := generateUniqueTVar n2
      some (⟨.doBlock ib.result ir.result ⟨ir.result.infoOf.type, eff⟩,
        ib.constraints ++ ir.constraints
          ++ ib.result.map (fun form => constEffect form eff)
          ++ [constEffect ir.result eff],
        ib.assumptions ++ ir.assumptions⟩, n2 + 1)
  | .matchE value cases, monovars, env, n => do
      let (iv, n1) ← infer value monovars env n
      let (ics, n2) ← inferCases cases monovars env n1
      let t := generateUniqueTVar n2
      let eff := generateUniqueTVar (n2 + 1)
      let variantTypes := freshLabelVars (n2 + 2) (cases.map (fun c => c.1))
      let mcs ← matchCasesConstraints t variantTypes ics
      some (⟨.matchE iv.result (ics.map (fun c => (c.1, c.2.1, c.2.2.result)))
          ⟨t, eff⟩,
        iv.constraints ++ flatMap (fun c => c.2.2.constraints) ics
          ++ [constEqual iv.result (tVariant variantTypes)]
          ++ mcs,
        iv.assumptions
          ++ flatMap (fun c =>
              c.2.2.assumptions.filter (fun a => !(a.name == c.2.1))) ics⟩,
        n2 + 2 + cases.length)
/-- `inferMany` from infer.ts: infer each expression, concatenating the
constraints and assumptions in order. -/
def inferMany : List Expr → List String → ITEnv → Nat →
    Option (InferRes (List TExpr) × Nat)
  | [], _, _, n => some (⟨[], [], []⟩, n)
  | e :: es, monovars, env, n => do
      let (ie, n1) ← infer e monovars env n
      let (rest, n2) ← inferMany es monovars env n1
      some (⟨ie.result :: rest.result,
        ie.constraints ++ rest.constraints,
        ie.assumptions ++ rest.assumptions⟩, n2)
/-- Record fields of the `record` case: infer each field value in order. -/
def inferFields : List (String × Expr) → List String → ITEnv → Nat →
    Option (InferRes (List (String × TExpr)) × Nat)
  | [], _, _, n => some (⟨[], [], []⟩, n)
  | (label, v) :: fs, monovars, env, n => do
      let (iv, n1) ← infer v monovars env n
      let (rest, n2) ← inferFields fs monovars env n1
      some (⟨(label, iv.result) :: rest.result,
        iv.constraints ++ rest.constraints,
        iv.assumptions ++ rest.assumptions⟩, n2)
/-- The optional record tail: infer it when present. -/
def inferOpt : Option Expr → List String → ITEnv → Nat →
    Option (Option (InferRes TExpr) × Nat)
  | none, _, _, n => some (none, n)
  | some e, monovars, env, n => do
      let (r, n1) ← infer e monovars env n
      some (some r, n1)
/-- The bindings of a `let`: infer each bound value in order, keeping the
per-binding results separate. -/
def inferBindings : List (String × Expr) → List String → ITEnv → Nat →
    Option (List (String × InferRes TExpr) × Nat)
  | [], _, _, n => some ([], n)
  | (nm, v) :: bs, monovars, env, n => do
      let (iv, n1) ← infer v monovars env n
      let (rest, n2) ← inferBindings bs monovars env n1
      some ((nm, iv) :: rest, n2)
/-- The cases of a `match`: infer each case body with the pattern variable
added to the monomorphic set. -/
def inferCases : List (String × String × List Expr) → List String → ITEnv → Nat →
    Option (List (String × String × InferRes (List TExpr)) × Nat)
  | [], _, _, n => some ([], n)
  | (label, varName, body) :: cs, monovars, env, n => do
      let (ib, n1) ← inferMany body (monovars ++ [varName]) env n
      let (rest, n2) ← inferCases cs monovars env n1
      some ((label, varName, ib) :: rest, n2)
end

/-! ### Substitutions (type-utils.ts, modelled from the spec) -/

/-- A substitution: a finite map from variable names to monotypes. -/
abbrev Subst : Type := List (String × Ty)

mutual
/-- All variable names occurring in a type (`free_vars` of the spec). -/
def tyFreeVars : Ty → List String
  | .constant _ => []
  | .app op args => tyFreeVars op ++ tyFreeVarsL args
  | .tvar nm _ => [nm]
  | .rempty => []
  | .rext _ lt ext => tyFreeVars lt ++ tyFreeVars ext
/-- List version of `tyFreeVars`. -/
def tyFreeVarsL : List Ty → List String
  | [] => []
  | t :: ts => tyFreeVars t ++ tyFreeVarsL ts
end

mutual
/-- Modelled from the spec: substitution application rewrites variables in
the substitution's domain and keeps substituting while the result still
holds such variables.  The fuel bounds that chase (and the structural
descent); the wrapper supplies a fuel ample for the chains arising from
composed solver substitutions. -/
def applySubstF : Nat → Subst → Ty → Ty
  | 0, _, t => t
  | f + 1, s, t =>
    match t with
    | .tvar nm us =>
        match List.lookup nm s with
        | some b => applySubstF f s b
        | none => .tvar nm us
    | .constant c => .constant c
    | .app op args => .app (applySubstF f s op) (applySubstListF f s args)
    | .rempty => .rempty
    | .rext l lt ext => .rext l (applySubstF f s lt) (applySubstF f s ext)
/-- List version of `applySubstF`. -/
def applySubstListF : Nat → Subst → List Ty → List Ty
  | _, _, [] => []
  | 0, _, ts => ts
  | f + 1, s, t :: ts => applySubstF f s t :: applySubstListF f s ts
end

/-- The fuel the substitution wrapper passes to `applySubstF`. -/
def substFuel (s : Subst) (t : Ty) : Nat :=
  wdepth t + (s.foldr (fun p m => m + wdepth p.2 + 1) 0) * (s.length + 1) + 1

/-- `apply` of the substitution module (type-utils.ts, modelled from the
spec). -/
def applySubstT (s : Subst) (t : Ty) : Ty := applySubstF (substFuel s t) s t

/-- `compose` of the substitution module, modelled from the spec: apply
`s1` to the range of `s2` and union, `s1` winning on overlap. -/
def composeSubst (s1 s2 : Subst) : Subst :=
  s1 ++ s2.map (fun p => (p.1, applySubstT s1 p.2))

/-! ### Unification (infer-solver.ts, modelled from the spec) -/

/-- Modelled from the spec: bind a variable during unification, refusing a
self-referential binding (occurs check) and refusing to widen a
user-specified annotation variable. -/
def bindVar (nm : String) (us : Bool) (t : Ty) (c : Nat) :
    Except TErr (Subst × Nat) :=
  if tyBeq t (.tvar nm us) then .ok ([], c)
  else if us then
    match t with
    | .tvar nm2 false => .ok ([(nm2, .tvar nm us)], c)
    | _ => .error .annTooGeneral
  else if (tyFreeVars t).contains nm then .error .occursCheck
  else .ok ([(nm, t)], c)

mutual
/-- Modelled from the spec (4.3): unification over constants, variables,
applications and rows, with the Remy-style row rewrite that surfaces a
label on the other side using fresh variables.  The counter threads the
fresh-variable source; the fuel bounds the rewrite recursion. -/
def unifyF : Nat → Ty → Ty → Nat → Except TErr (Subst × Nat)
  | 0, _, _, _ => .error .fuelOut
  | f + 1, a, b, c =>
    match a, b with
    | .constant n1, .constant n2 =>
        if n1 == n2 then .ok ([], c) else .error .constantMismatch
    | .tvar nm us, t => bindVar nm us t c
    | t, .tvar nm us => bindVar nm us t c
    | .app op1 args1, .app op2 args2 =>
        if args1.length != args2.length then .error .arityMismatch
        else do
          let (s1, c1) ← unifyF f op1 op2 c
          let (s2, c2) ← unifyListF f (args1.map (applySubstT s1))
            (args2.map (applySubstT s1)) c1
          .ok (composeSubst s2 s1, c2)
    | .rempty, .rempty => .ok ([], c)
    | .rext l1 t1 r1, .rext l2 t2 r2 =>
        if l1 == l2 then do
          let (s1, c1) ← unifyF f t1 t2 c
          let (s2, c2) ← unifyF f (applySubstT s1 r1) (applySubstT s1 r2) c1
          .ok (composeSubst s2 s1, c2)
        else do
          let beta := generateUniqueTVar c
          let tau := generateUniqueTVar (c + 1)
          let (s1, c1) ← unifyF f r2 (.rext l1 tau beta) (c + 2)
          let (s2, c2) ← unifyF f (applySubstT s1 t1) (applySubstT s1 tau) c1
          let s12 := composeSubst s2 s1
          let (s3, c3) ← unifyF f (applySubstT s12 r1)
            (applySubstT s12 (.rext l2 t2 beta)) c2
          .ok (composeSubst s3 s12, c3)
    | .rempty, .rext _ _ _ => .error .rowLabelMissing
    | .rext _ _ _, .rempty => .error .rowLabelMissing
    | _, _ => .error .typeMismatch
/-- Element-wise unification of argument lists, composing substitutions
left to right. -/
def unifyListF : Nat → List Ty → List Ty → Nat → Except TErr (Subst × Nat)
  | _, [], [], c => .ok ([], c)
  | 0, _, _, _ => .error .fuelOut
  | f + 1, x :: xs, y :: ys, c => do
      let (s1, c1) ← unifyF f x y c
      let (s2, c2) ← unifyListF f (xs.map (applySubstT s1))
        (ys.map (applySubstT s1)) c1
      .ok (composeSubst s2 s1, c2)
  | _, _, _, _ => .error .arityMismatch
end

/-- `unify` with a fuel ample for the types the witnesses evaluate. -/
def unify (a b : Ty) (c : Nat) : Except TErr (Subst × Nat) :=
  unifyF ((wdepth a + wdepth b + 4) * (wdepth a + wdepth b + 4)) a b c

/-! ### Schemes (spec 4.4, modelled) -/

/-- `generalize`: quantify the free variables of `t` that are not
monomorphic. -/
def generalize (monovars : List String) (t : Ty) : TypeSchema :=
  ⟨((tyFreeVars t).filter (fun v => !monovars.contains v)).dedup, t⟩

/-- `instantiate`: substitute every quantified variable with a fresh
one. -/
def instantiate (sch : TypeSchema) (c : Nat) : Ty × Nat :=
  (applySubstT
      (sch.tvars.zip ((List.range sch.tvars.length).map
        (fun i => generateUniqueTVar (c + i))))
      sch.mono,
    c + sch.tvars.length)

/-! ### Substitution over typed trees (infer-subst.ts, modelled) -/

/-- Apply a substitution to an info record. -/
def applySubstInfo (s : Subst) (i : TInfo) : TInfo :=
  ⟨applySubstT s i.type, applySubstT s i.effect⟩

mutual
/-- `applySubstitutionToExpr` (infer-subst.ts, modelled from the spec):
rewrite the `info` of every node of a typed expression. -/
def applySubstE (s : Subst) : TExpr → TExpr
  | .unknown i => .unknown (applySubstInfo s i)
  | .num v i => .num v (applySubstInfo s i)
  | .str v i => .str v (applySubstInfo s i)
  | .vector vs i => .vector (applySubstEL s vs) (applySubstInfo s i)
  | .record fs ext i =>
      .record (applySubstEF s fs) (applySubstEO s ext) (applySubstInfo s i)
  | .varRef nm i => .varRef nm (applySubstInfo s i)
  | .conditional c t e i =>
      .conditional (applySubstE s c) (applySubstE s t) (applySubstE s e)
        (applySubstInfo s i)
  | .fn args body i => .fn args (applySubstEL s body) (applySubstInfo s i)
  | .funcall f args i =>
      .funcall (applySubstE s f) (applySubstEL s args) (applySubstInfo s i)
  | .letB bindings body i =>
      .letB (applySubstEF s bindings) (applySubstEL s body) (applySubstInfo s i)
  | .theAnn twc v i => .theAnn twc (applySubstE s v) (applySubstInfo s i)
  | .doBlock body ret i =>
      .doBlock (applySubstEL s body) (applySubstE s ret) (applySubstInfo s i)
  | .matchE v cases i =>
      .matchE (applySubstE s v) (applySubstEC s cases) (applySubstInfo s i)
/-- List version of `applySubstE`. -/
def applySubstEL (s : Subst) : List TExpr → List TExpr
  | [] => []
  | e :: es => applySubstE s e :: applySubstEL s es
/-- Labelled-field version of `applySubstE`. -/
def applySubstEF (s : Subst) : List (String × TExpr) → List (String × TExpr)
  | [] => []
  | (l, e) :: fs => (l, applySubstE s e) :: applySubstEF s fs
/-- Optional-tail version of `applySubstE`. -/
def applySubstEO (s : Subst) : Option TExpr → Option TExpr
  | none => none
  | some e => some (applySubstE s e)
/-- Match-case version of `applySubstE`. -/
def applySubstEC (s : Subst) :
    List (String × String × List TExpr) → List (String × String × List TExpr)
  | [] => []
  | (l, v, body) :: cs => (l, v, applySubstEL s body) :: applySubstEC s cs
end

/-- Apply a substitution to an assumption's assumed type and effect (the
source applies `applySubstitutionToExpr` to the variable-use node). -/
def applySubstA (s : Subst) (a : Assumption) : Assumption :=
  ⟨a.name, applySubstT s a.type, applySubstT s a.effect⟩

/-- Apply a substitution to a constraint, carrier node included. -/
def applySubstC (s : Subst) : TConstraint → TConstraint
  | .equal e t => .equal (applySubstE s e) (applySubstT s t)
  | .effect e t => .effect (applySubstE s e) (applySubstT s t)
  | .implicitInstance a mv t =>
      .implicitInstance (applySubstA s a) mv (applySubstT s t)
  | .explicitInstance a sch => .explicitInstance (applySubstA s a) sch

/-! ### The solver (infer-solver.ts, modelled from the spec 4.6) -/

/-- The free variables a constraint mentions. -/
def constraintFreeVars : TConstraint → List String
  | .equal e t => tyFreeVars e.infoOf.type ++ tyFreeVars t
  | .effect e t => tyFreeVars e.infoOf.effect ++ tyFreeVars t
  | .implicitInstance a mv t => tyFreeVars a.type ++ mv ++ tyFreeVars t
  | .explicitInstance a sch =>
      tyFreeVars a.type
        ++ (tyFreeVars sch.mono).filter (fun v => !sch.tvars.contains v)

/-- `active_vars` of the spec: the candidates for generalization. -/
def activeVars (mv : List String) (t : Ty) : List String :=
  (tyFreeVars t).filter (fun v => !mv.contains v)

/-- Whether the constraint at position `i` is solvable now: everything but
an implicit instance always is; an implicit instance only when its active
variables are disjoint from the free variables of every other pending
constraint. -/
def solvableAt (cs : List TConstraint) (i : Nat) : Bool :=
  match cs.get? i with
  | some (.implicitInstance _ mv t) =>
      let others := flatMap constraintFreeVars (cs.take i ++ cs.drop (i + 1))
      ((activeVars mv t).filter (fun v => others.contains v)).isEmpty
  | some _ => true
  | none => false

/-- Solve a single constraint: equalities unify, instance constraints
instantiate (generalizing first for implicit ones) and then unify. -/
def solveOne (c0 : TConstraint) (counter : Nat) : Except TErr (Subst × Nat) :=
  match c0 with
  | .equal e t => unify e.infoOf.type t counter
  | .effect e t => unify e.infoOf.effect t counter
  | .explicitInstance a sch =>
      let r := instantiate sch counter
      unify a.type r.1 r.2
  | .implicitInstance a mv t =>
      let r := instantiate (generalize mv t) counter
      unify a.type r.1 r.2

/-- The solver loop: pick the first solvable constraint, apply the running
substitution to it, solve it, compose, substitute into the remainder and
iterate; no solvable constraint is the `solver-stuck` failure.  Each
round removes one constraint, so the wrapper's `length + 1` fuel is never
exhausted. -/
def solveF : Nat → List TConstraint → Subst → Nat → Except TErr (Subst × Nat)
  | 0, _, _, _ => .error .fuelOut
  | f + 1, cs, s, counter =>
    match cs with
    | [] => .ok (s, counter)
    | _ =>
      match (List.range cs.length).find? (fun i => solvableAt cs i) with
      | none => .error .solverStuck
      | some i =>
          match cs.get? i with
          | none => .error .solverStuck
          | some c0 => do
              let (s1, c1) ← solveOne (applySubstC s c0) counter
              solveF f ((cs.eraseIdx i).map (applySubstC s1)) (composeSubst s1 s) c1

/-- `solve` of infer-solver.ts, modelled from the spec. -/
def solve (cs : List TConstraint) (s : Subst) (counter : Nat) :
    Except TErr (Subst × Nat) :=
  solveF (cs.length + 1) cs s counter

/-! ### Environments and assumption resolution (infer.ts) -/

/-- `ExternalEnvironment` from infer.ts: schemes of the primitives and
imported bindings, plus imported type aliases. -/
structure ExternalEnvironment where
  vars : List (String × TypeSchema)
  types : List (String × Ty)

/-- Modelled from the spec: the inline-primitive table of
compiler/inline-primitives.ts (not in the source tree); only membership
and the returned scheme matter to inference. -/
def inlinePrimitives : List (String × TypeSchema) :=
  [("+", ⟨["e"], tFn [tNumber, tNumber] (.tvar "e" false) tNumber⟩),
   ("print",
    ⟨["e"],
      tFn [tString] (.app tcEffect [.rext "console" tVoid (.tvar "e" false)])
        tVoid⟩)]

/-- `isInlinePrimitive`, modelled from the spec. -/
def isInlinePrimitive (nm : String) : Bool :=
  (List.lookup nm inlinePrimitives).isSome

/-- `findInlinePrimitive`, modelled from the spec. -/
def findInlinePrimitive (nm : String) : TypeSchema :=
  (List.lookup nm inlinePrimitives).getD ⟨[], tVoid⟩

/-- `lookupVariableType` from infer.ts: the external environment first,
then the inline primitives. -/
def lookupVariableType (varName : String) (env : ExternalEnvironment) :
    Option TypeSchema :=
  match List.lookup varName env.vars with
  | some t => some t
  | none =>
      if isInlinePrimitive varName then some (findInlinePrimitive varName)
      else none

/-- `assumptionsToConstraints` from infer.ts: an explicit-instance
constraint for every assumption the environment resolves; unresolvable
assumptions yield nothing (`maybeMap`). -/
def assumptionsToConstraints (assumptions : List Assumption)
    (env : ExternalEnvironment) : List TConstraint :=
  assumptions.filterMap (fun a =>
    (lookupVariableType a.name env).map (fun t => constExplicitInstance a t))

/-- Value equality of assumptions, standing in for the object identity of
the variable-use nodes (distinct uses carry distinct fresh variables). -/
def assumptionBeq (a b : Assumption) : Bool :=
  a.name == b.name && tyBeq a.type b.type && tyBeq a.effect b.effect

/-- `difference` from utils.ts (modelled: not in the source tree): the
elements of `xs` not occurring in `ys`. -/
def difference (xs ys : List Assumption) : List Assumption :=
  xs.filter (fun x => !(ys.any (fun y => assumptionBeq x y)))

/-- The three groups `groupAssumptions` returns. -/
structure GroupedAssumptions where
  internals : List Assumption
  externals : List Assumption
  unknowns : List Assumption

/-- `groupAssumptions` from infer.ts: internals are the assumptions whose
name is a module definition, externals those the external environment (or
an inline primitive) resolves, unknowns the rest. -/
def groupAssumptions (assumptions : List Assumption)
    (internalEnv : List (String × Ty)) (externalEnv : ExternalEnvironment) :
    GroupedAssumptions :=
  let internals := assumptions.filter (fun v =>
    (List.lookup v.name internalEnv).isSome)
  let externals := assumptions.filter (fun v =>
    (lookupVariableType v.name externalEnv).isSome)
  ⟨internals, externals, difference assumptions (internals ++ externals)⟩

/-! ### The drivers (infer.ts `inferSyntax`, `inferType`, `inferModule`) -/

/-- `inferSyntax` from infer.ts: expressions and definition values run the
generator with no monomorphic variables; export and type-alias forms pass
through with no constraints and no assumptions. -/
def inferSyntax : Syn → ITEnv → Nat → Option (InferRes TSyn × Nat)
  | .expr e, env, n => do
      let (r, n1) ← infer e [] env n
      some (⟨.expr r.result, r.constraints, r.assumptions⟩, n1)
  | .defn nm v, env, n => do
      let (r, n1) ← infer v [] env n
      some (⟨.defn nm r.result, r.constraints, r.assumptions⟩, n1)
  | .sexport nm, _, n => some (⟨.sexport nm, [], []⟩, n)
  | .talias nm d, _, n => some (⟨.talias nm d, [], []⟩, n)

/-- `applySubstitutionToSyntax` from infer.ts: expressions and definition
values are rewritten; export and type-alias forms are returned as they
are. -/
def applySubstitutionToSyn (s : TSyn) (sub : Subst) : TSyn :=
  match s with
  | .expr e => .expr (applySubstE sub e)
  | .defn nm v => .defn nm (applySubstE sub v)
  | .sexport nm => .sexport nm
  | .talias nm d => .talias nm d

/-- `inferType` from infer.ts: run the generator, convert the assumptions
the environment resolves into constraints, solve, and apply the solution
to the typed tree. -/
def inferType (expr : Expr) (env : ExternalEnvironment)
    (internalTypes : ITEnv) (n : Nat) : Except TErr (TExpr × Nat) :=
  match infer expr [] internalTypes n with
  | none => .error .genFailed
  | some (r, n1) => do
      let (s, n2) ← solve
        (r.constraints ++ assumptionsToConstraints r.assumptions env) [] n1
      .ok (applySubstE s r.result, n2)

/-- The module body's forms run through `inferSyntax` in order, threading
the fresh-variable counter. -/
def inferSyntaxList : List Syn → ITEnv → Nat →
    Option (List (InferRes TSyn) × Nat)
  | [], _, n => some ([], n)
  | s :: ss, env, n => do
      let (r, n1) ← inferSyntax s env n
      let (rest, n2) ← inferSyntaxList ss env n1
      some (r :: rest, n2)

/-- The module's type-alias declarations (`m.body.filter(isTypeAlias)`). -/
def moduleAliases (body : List Syn) : List STypeAlias :=
  body.filterMap (fun s =>
    match s with
    | .talias nm d => some ⟨nm, d⟩
    | _ => none)

/-- The internal type environment of a module: its alias table, later
declarations overriding earlier ones. -/
def internalTypesOf (body : List Syn) : ITEnv :=
  body.foldl (fun env s =>
    match s with
    | .talias nm d => (nm, d) :: env
    | _ => env) []

/-- The internal variable environment: each definition's name bound to the
type inferred for its value, later definitions overriding earlier ones. -/
def internalVarsOf (tbody : List TSyn) : List (String × Ty) :=
  tbody.foldl (fun env s =>
    match s with
    | .defn nm v => (nm, v.infoOf.type) :: env
    | _ => env) []

/-- What `inferModule` returns: the typed module and the unknown uses. -/
structure InferModuleResult where
  typedModule : List TSyn
  unknowns : List Assumption

/-- `inferModule` from infer.ts: check the aliases for cycles, infer every
form, partition the assumptions, turn internals into implicit-instance
constraints (no monomorphic variables at module level) and externals into
explicit instances, solve, and apply the solution both to the typed module
and to the returned unknowns. -/
def inferModule (m : DModule) (externalEnv : ExternalEnvironment) (n : Nat) :
    Except TErr (InferModuleResult × Nat) := do
  checkCircularTypes (moduleAliases m.body)
  let internalTypes := internalTypesOf m.body
  match inferSyntaxList m.body internalTypes n with
  | none => .error .genFailed
  | some (bodyInfs, n1) =>
      let body := bodyInfs.map (fun i => i.result)
      let internalVars := internalVarsOf body
      let grouped := groupAssumptions
        (flatMap (fun i => i.assumptions) bodyInfs) internalVars externalEnv
      let constraints := flatMap (fun i => i.constraints) bodyInfs
        ++ assumptionsToConstraints grouped.externals externalEnv
        ++ grouped.internals.map (fun v =>
            -- the lookup always succeeds: internals were filtered on it
            constImplicitInstance v []
              ((List.lookup v.name internalVars).getD tVoid))
      let (solution, n2) ← solve constraints [] n1
      .ok (⟨body.map (fun s => applySubstitutionToSyn s solution),
        grouped.unknowns.map (fun v => applySubstA solution v)⟩, n2)

/-! ### Predicates used by the statements -/

mutual
/-- Well-formedness of the source language: the bodies of functions, lets
and match cases are non-empty sequences (the reader guarantees this; the
generator's `last(...)!` accesses and its `Missing returning form!` check
rely on it). -/
def wf : Expr → Bool
  | .unknown => true
  | .num _ => true
  | .str _ => true
  | .vector vs => wfL vs
  | .record fields ext => wfF fields && wfO ext
  | .varRef _ => true
  | .conditional c t e => wf c && wf t && wf e
  | .fn _ body => !body.isEmpty && wfL body
  | .funcall f args => wf f && wfL args
  | .letB bindings body => wfF bindings && (!body.isEmpty && wfL body)
  | .theAnn _ v => wf v
  | .doBlock body ret => wfL body && wf ret
  | .matchE v cases => wf v && wfC cases
/-- List version of `wf`. -/
def wfL : List Expr → Bool
  | [] => true
  | e :: es => wf e && wfL es
/-- Labelled-field version of `wf`. -/
def wfF : List (String × Expr) → Bool
  | [] => true
  | (_, e) :: fs => wf e && wfF fs
/-- Optional-tail version of `wf`. -/
def wfO : Option Expr → Bool
  | none => true
  | some e => wf e
/-- Match-case version of `wf`: every case body is non-empty and
well-formed. -/
def wfC : List (String × String × List Expr) → Bool
  | [] => true
  | (_, _, body) :: cs => (!body.isEmpty && wfL body) && wfC cs
end

mutual
/-- Whether every named variable of an annotation carries the
`userSpecified` flag, as `readType` produces them (spec 4.7). -/
def wtyOk : WTy → Bool
  | .wconst _ => true
  | .wapp op args => wtyOk op && wtyOkL args
  | .wvar _ us => us
  | .wempty => true
  | .wext _ lt ext => wtyOk lt && wtyOk ext
  | .wildcardAnon => true
  | .wildcardNamed _ => true
/-- List version of `wtyOk`. -/
def wtyOkL : List WTy → Bool
  | [] => true
  | t :: ts => wtyOk t && wtyOkL ts
end

mutual
/-- Whether every annotation inside an expression satisfies `wtyOk`. -/
def annOk : Expr → Bool
  | .unknown => true
  | .num _ => true
  | .str _ => true
  | .vector vs => annOkL vs
  | .record fields ext => annOkF fields && annOkO ext
  | .varRef _ => true
  | .conditional c t e => annOk c && annOk t && annOk e
  | .fn _ body => annOkL body
  | .funcall f args => annOk f && annOkL args
  | .letB bindings body => annOkF bindings && annOkL body
  | .theAnn twc v => wtyOk twc && annOk v
  | .doBlock body ret => annOkL body && annOk ret
  | .matchE v cases => annOk v && annOkC cases
/-- List version of `annOk`. -/
def annOkL : List Expr → Bool
  | [] => true
  | e :: es => annOk e && annOkL es
/-- Labelled-field version of `annOk`. -/
def annOkF : List (String × Expr) → Bool
  | [] => true
  | (_, e) :: fs => annOk e && annOkF fs
/-- Optional-tail version of `annOk`. -/
def annOkO : Option Expr → Bool
  | none => true
  | some e => annOk e
/-- Match-case version of `annOk`. -/
def annOkC : List (String × String × List Expr) → Bool
  | [] => true
  | (_, _, body) :: cs => annOkL body && annOkC cs
end

mutual
/-- The names of the generated (non-user-specified) type variables of a
type. -/
def tyGenVars : Ty → List String
  | .constant _ => []
  | .app op args => tyGenVars op ++ tyGenVarsL args
  | .tvar nm us => if us then [] else [nm]
  | .rempty => []
  | .rext _ lt ext => tyGenVars lt ++ tyGenVars ext
/-- List version of `tyGenVars`. -/
def tyGenVarsL : List Ty → List String
  | [] => []
  | t :: ts => tyGenVars t ++ tyGenVarsL ts
end

mutual
/-- The generated type variables occurring in the info records of a typed
tree. -/
def texprGenVars : TExpr → List String
  | .unknown i => tyGenVars i.type ++ tyGenVars i.effect
  | .num _ i => tyGenVars i.type ++ tyGenVars i.effect
  | .str _ i => tyGenVars i.type ++ tyGenVars i.effect
  | .vector vs i => tyGenVars i.type ++ tyGenVars i.effect ++ texprGenVarsL vs
  | .record fs ext i =>
      tyGenVars i.type ++ tyGenVars i.effect ++ texprGenVarsF fs
        ++ texprGenVarsO ext
  | .varRef _ i => tyGenVars i.type ++ tyGenVars i.effect
  | .conditional c t e i =>
      tyGenVars i.type ++ tyGenVars i.effect ++ texprGenVars c
        ++ texprGenVars t ++ texprGenVars e
  | .fn _ body i => tyGenVars i.type ++ tyGenVars i.effect ++ texprGenVarsL body
  | .funcall f args i =>
      tyGenVars i.type ++ tyGenVars i.effect ++ texprGenVars f
        ++ texprGenVarsL args
  | .letB bindings body i =>
      tyGenVars i.type ++ tyGenVars i.effect ++ texprGenVarsF bindings
        ++ texprGenVarsL body
  | .theAnn _ v i => tyGenVars i.type ++ tyGenVars i.effect ++ texprGenVars v
  | .doBlock body ret i =>
      tyGenVars i.type ++ tyGenVars i.effect ++ texprGenVarsL body
        ++ texprGenVars ret
  | .matchE v cases i =>
      tyGenVars i.type ++ tyGenVars i.effect ++ texprGenVars v
        ++ texprGenVarsC cases
/-- List version of `texprGenVars`. -/
def texprGenVarsL : List TExpr → List String
  | [] => []
  | e :: es => texprGenVars e ++ texprGenVarsL es
/-- Labelled-field version of `texprGenVars`. -/
def texprGenVarsF : List (String × TExpr) → List String
  | [] => []
  | (_, e) :: fs => texprGenVars e ++ texprGenVarsF fs
/-- Optional-tail version of `texprGenVars`. -/
def texprGenVarsO : Option TExpr → List String
  | none => []
  | some e => texprGenVars e
/-- Match-case version of `texprGenVars`. -/
def texprGenVarsC : List (String × String × List TExpr) → List String
  | [] => []
  | (_, _, body) :: cs => texprGenVarsL body ++ texprGenVarsC cs
end

/-- The generated type variables of an assumption. -/
def aGenVars (a : Assumption) : List String :=
  tyGenVars a.type ++ tyGenVars a.effect

/-- The generated type variables mentioned anywhere in a constraint: its
payload types, its carrier node's annotations, and (for instance
constraints) the scheme. -/
def cGenVars : TConstraint → List String
  | .equal e t => texprGenVars e ++ tyGenVars t
  | .effect e t => texprGenVars e ++ tyGenVars t
  | .implicitInstance a _ t => aGenVars a ++ tyGenVars t
  | .explicitInstance a sch => aGenVars a ++ tyGenVars sch.mono

/-- All generated variables of a generator output. -/
def outGenVars (out : InferRes TExpr) : List String :=
  texprGenVars out.result ++ flatMap cGenVars out.constraints
    ++ flatMap aGenVars out.assumptions

/-- All generated variables of an `inferMany` output. -/
def outGenVarsL (out : InferRes (List TExpr)) : List String :=
  texprGenVarsL out.result ++ flatMap cGenVars out.constraints
    ++ flatMap aGenVars out.assumptions

/-- All generated variables of an `inferFields` output. -/
def outGenVarsF (out : InferRes (List (String × TExpr))) : List String :=
  texprGenVarsF out.result ++ flatMap cGenVars out.constraints
    ++ flatMap aGenVars out.assumptions

/-- All generated variables of an `inferBindings` output. -/
def outGenVarsB (l : List (String × InferRes TExpr)) : List String :=
  flatMap (fun bi => outGenVars bi.2) l

/-- All generated variables of an `inferOpt` output. -/
def outGenVarsO : Option (InferRes TExpr) → List String
  | none => []
  | some r => outGenVars r

/-- All generated variables of an `inferCases` output. -/
def outGenVarsC (l : List (String × String × InferRes (List TExpr))) :
    List String :=
  flatMap (fun c => outGenVarsL c.2.2) l

/-- Every name of the list is a generated name with index below `n`. -/
def VarsBelow (n : Nat) (l : List String) : Prop :=
  ∀ nm ∈ l, ∃ k, k < n ∧ nm = genName k

/-- The generated variables of an alias table's definitions. -/
def envGenVars (env : ITEnv) : List String :=
  flatMap (fun p => tyGenVars p.2) env

/-- An edge of the type-alias reference graph: `c`'s definition mentions
the declared alias `d`. -/
def aliasEdge (env : ITEnv) (c d : String) : Prop :=
  ∃ t, List.lookup c env = some t ∧ d ∈ tyConstNames t ∧
    (List.lookup d env).isSome = true

/-- The alias references of the environment are acyclic: no nonempty edge
path returns to its start. -/
def NoAliasCycle (env : ITEnv) : Prop :=
  ¬ ∃ (c : String) (p : List String),
      List.Chain' (aliasEdge env) (c :: p ++ [c])

/-! ## Theorems -/

/-- Generated variable names are pairwise distinct. -/
theorem genName_inj : ∀ a b : Nat, genName a = genName b → a = b := by
  intro a b h
  have h2 := congrArg (fun s => s.data.length) h
  simpa [genName] using h2

/-- `tyBeq` decides equality of monotypes. -/
theorem tyBeq_eq : ∀ a b : Ty, tyBeq a b = true ↔ a = b := by
  intro a
  induction a using Ty.rec
    (motive_2 := fun l => ∀ l2 : List Ty, tyBeqL l l2 = true ↔ l = l2) with
  | constant n => intro b; cases b <;> simp [tyBeq]
  | app op args ih1 ih2 => intro b; cases b <;> simp [tyBeq, ih1, ih2]
  | tvar nm us => intro b; cases b <;> simp [tyBeq]
  | rempty => intro b; cases b <;> simp [tyBeq]
  | rext l lt ext ih1 ih2 =>
      intro b; cases b <;> simp [tyBeq, ih1, ih2, and_assoc]
  | nil => rename_i l2; cases l2 <;> simp [tyBeqL]
  | cons h t ih1 ih2 =>
      rename_i l2; cases l2 <;> simp [tyBeqL, ih1, ih2]

/-- `assumptionBeq` decides equality of assumptions. -/
theorem assumptionBeq_eq : ∀ a b : Assumption,
    assumptionBeq a b = true ↔ a = b := by
  intro a b
  cases a; cases b
  simp [assumptionBeq, tyBeq_eq, Assumption.mk.injEq, and_assoc]

/-- C6: a literal number or string expression is assigned the constant
type `number` or `string` together with a fresh effect variable, and the
generator emits no constraints and no assumptions.  (Boolean literals are
not a node of the expression language this revision of `infer` dispatches
on — its switch is exhaustive without a boolean case, booleans reaching it
as variable references — so the boolean clause is vacuous.) -/
theorem c6_literals (v : Int) (s : String) (monovars : List String)
    (env : ITEnv) (n : Nat) :
    infer (.num v) monovars env n =
      some (⟨.num v ⟨tNumber, generateUniqueTVar n⟩, [], []⟩, n + 1) ∧
    infer (.str s) monovars env n =
      some (⟨.str s ⟨tString, generateUniqueTVar n⟩, [], []⟩, n + 1) :=
  ⟨rfl, rfl⟩

/-- C10: export and type-alias forms pass through inference unchanged:
`inferSyntax` contributes no constraints and no assumptions for them and
returns them as they are, and `applySubstitutionToSyntax` is the identity
on them. -/
theorem c10_export_alias_passthrough (nm : String) (d : Ty) (env : ITEnv)
    (n : Nat) (sub : Subst) :
    inferSyntax (.sexport nm) env n = some (⟨.sexport nm, [], []⟩, n) ∧
    inferSyntax (.talias nm d) env n = some (⟨.talias nm d, [], []⟩, n) ∧
    applySubstitutionToSyn (.sexport nm) sub = .sexport nm ∧
    applySubstitutionToSyn (.talias nm d) sub = .talias nm d :=
  ⟨rfl, rfl, rfl, rfl⟩

/-- C7: a module whose single type alias `A` references itself makes
`checkCircularTypes` throw the circular-dependency message listing the
path `A -> A`; the `recursive type aliases are not allowed` branch asks
for a reported cycle of length one, which the cycle construction
(`path.slice(index)` plus the current alias, always two or more entries)
can never produce. -/
theorem c7_selfloop_message :
    checkCircularTypes [⟨"A", Ty.constant "A"⟩] =
      .error (.circularAliases ["A", "A"]) := rfl

/-- `inferBindings` keeps the binding names, in order. -/
theorem inferBindings_names : ∀ (bs : List (String × Expr)) (monovars : List String)
    (env : ITEnv) (n : Nat) (out : List (String × InferRes TExpr)) (n' : Nat),
    inferBindings bs monovars env n = some (out, n') →
    out.map (fun bi => bi.1) = bs.map (fun b => b.1) := by
  intro bs
  induction bs with
  | nil =>
      intro monovars env n out n' h
      simp [inferBindings] at h
      simp [h.1.symm]
  | cons b rest ih =>
      intro monovars env n out n' h
      obtain ⟨nm, v⟩ := b
      cases hiv : infer v monovars env n with
      | none => simp [inferBindings, hiv] at h
      | some p =>
          obtain ⟨iv, n1⟩ := p
          cases hrest : inferBindings rest monovars env n1 with
          | none => simp [inferBindings, hiv, hrest] at h
          | some q =>
              obtain ⟨r2, n2⟩ := q
              simp [inferBindings, hiv, hrest] at h
              obtain ⟨h1, h2⟩ := h
              subst h1
              simp [ih _ _ _ _ _ hrest]

/-- C1: the constraints and assumptions of a `let` form.  Given the
inference of the binding values and of the body, the generator emits, for
every binding value, an effect-equality constraint against the empty
effect row, and, for every body assumption whose name is bound, an
implicit-instance constraint carrying the current monomorphic set and the
type of the first binding of that name; bound body assumptions do not
escape, while the binding values' own assumptions propagate outward
unchanged. -/
theorem c1_let_constraints (bindings : List (String × Expr)) (body : List Expr)
    (monovars : List String) (env : ITEnv) (n n1 n2 : Nat)
    (ib : List (String × InferRes TExpr)) (ibody : InferRes (List TExpr))
    (lastForm : TExpr)
    (hb : inferBindings bindings monovars env n = some (ib, n1))
    (hbody : inferMany body monovars env n1 = some (ibody, n2))
    (hlast : ibody.result.getLast? = some lastForm) :
    ∃ out : InferRes TExpr,
      infer (.letB bindings body) monovars env n = some (out, n2 + 1) ∧
      (∀ bi ∈ ib, constEffect bi.2.result (tEffect []) ∈ out.constraints) ∧
      (∀ a ∈ ibody.assumptions,
        (bindings.map (fun b => b.1)).contains a.name = true →
        ∃ bi, ib.find? (fun x => x.1 == a.name) = some bi ∧
          constImplicitInstance a monovars bi.2.result.infoOf.type
            ∈ out.constraints) ∧
      out.assumptions =
        ibody.assumptions.filter
            (fun a => !(bindings.map (fun b => b.1)).contains a.name)
          ++ flatMap (fun bi => bi.2.assumptions) ib := by
  have heq : infer (Expr.letB bindings body) monovars env n =
      some (⟨.letB (ib.map (fun bi => (bi.1, bi.2.result))) ibody.result
          ⟨lastForm.infoOf.type, generateUniqueTVar n2⟩,
        ibody.constraints
          ++ flatMap (fun bi => bi.2.constraints) ib
          ++ (ibody.assumptions.filter
              (fun v => (bindings.map (fun b => b.1)).contains v.name)).map
              (fun v => match ib.find? (fun bi => bi.1 == v.name) with
                | some bi =>
                    constImplicitInstance v monovars bi.2.result.infoOf.type
                | none => constImplicitInstance v monovars tVoid)
          ++ ib.map (fun bi => constEffect bi.2.result (tEffect []))
          ++ ibody.result.map (fun form => constEffect form (generateUniqueTVar n2)),
        ibody.assumptions.filter
            (fun v => !(bindings.map (fun b => b.1)).contains v.name)
          ++ flatMap (fun bi => bi.2.assumptions) ib⟩, n2 + 1) := by
    simp [infer, hb, hbody, hlast]
  refine ⟨_, heq, ?_, ?_, ?_⟩
  · intro bi hbi
    simp only [List.mem_append]
    exact Or.inl (Or.inr (List.mem_map_of_mem _ hbi))
  · intro a ha hcont
    have hnames := inferBindings_names bindings monovars env n ib n1 hb
    have hmem : a.name ∈ ib.map (fun bi => bi.1) := by
      rw [hnames]
      simpa using hcont
    have hfind : (ib.find? (fun x => x.1 == a.name)).isSome := by
      rw [List.find?_isSome]
      obtain ⟨x, hx, hx2⟩ := List.mem_map.mp hmem
      exact ⟨x, hx, by simp [hx2]⟩
    obtain ⟨bi, hbi⟩ := Option.isSome_iff_exists.mp hfind
    refine ⟨bi, hbi, ?_⟩
    simp only [List.mem_append]
    have : a ∈ ibody.assumptions.filter
        (fun v => (bindings.map (fun b => b.1)).contains v.name) :=
      List.mem_filter.mpr ⟨ha, hcont⟩
    refine Or.inl (Or.inl (Or.inr ?_))
    have := List.mem_map_of_mem
      (fun v => match ib.find? (fun bi => bi.1 == v.name) with
        | some bi => constImplicitInstance v monovars bi.2.result.infoOf.type
        | none => constImplicitInstance v monovars tVoid) this
    simpa [hbi] using this
  · rfl

/-- Witness for C1: the let form `(let {x 5} x)` evaluated concretely. -/
theorem c1_let_constraints_witness :
    ∃ out : InferRes TExpr,
      infer (.letB [("x", .num 5)] [.varRef "x"]) [] [] 0 = some (out, 4) ∧
      (∀ bi ∈ [("x",
          (⟨.num 5 ⟨tNumber, generateUniqueTVar 0⟩, [], []⟩ : InferRes TExpr))],
        constEffect bi.2.result (tEffect []) ∈ out.constraints) ∧
      (∀ a ∈ [(⟨"x", generateUniqueTVar 1, generateUniqueTVar 2⟩ : Assumption)],
        ((([("x", Expr.num 5)] : List (String × Expr)).map
          (fun b => b.1)).contains a.name) = true →
        ∃ bi, ([("x",
            (⟨.num 5 ⟨tNumber, generateUniqueTVar 0⟩, [], []⟩ : InferRes TExpr))].find?
            (fun x => x.1 == a.name)) = some bi ∧
          constImplicitInstance a [] bi.2.result.infoOf.type ∈ out.constraints) ∧
      out.assumptions =
        ([(⟨"x", generateUniqueTVar 1, generateUniqueTVar 2⟩ : Assumption)].filter
            (fun a => !(([("x", Expr.num 5)] : List (String × Expr)).map
              (fun b => b.1)).contains a.name))
          ++ flatMap (fun bi => bi.2.assumptions)
              [("x",
                (⟨.num 5 ⟨tNumber, generateUniqueTVar 0⟩, [], []⟩ : InferRes TExpr))] :=
  c1_let_constraints [("x", .num 5)] [.varRef "x"] [] [] 0 1 3 _ _ _ rfl rfl rfl

/-- Membership in `difference`: the elements of the first list not equal
to any element of the second. -/
theorem mem_difference (a : Assumption) (xs ys : List Assumption) :
    a ∈ difference xs ys ↔ a ∈ xs ∧ a ∉ ys := by
  simp only [difference, List.mem_filter, Bool.not_eq_eq_eq_not, Bool.not_true,
    List.any_eq_false]
  constructor
  · rintro ⟨hx, hall⟩
    refine ⟨hx, fun hmem => ?_⟩
    have := hall a hmem
    simp [assumptionBeq_eq] at this
  · rintro ⟨hx, hnot⟩
    refine ⟨hx, fun y hy => ?_⟩
    by_contra hbeq
    simp only [Bool.not_eq_false, assumptionBeq_eq] at hbeq
    exact hnot (hbeq ▸ hy)

/-- C3 (amended): `groupAssumptions` classifies an assumption as internal
exactly when its name is a module definition, as external exactly when the
external environment or the inline primitives resolve it, and as unknown
exactly when neither holds; when no assumption's name is both a module
definition and externally resolvable, the three lists are pairwise
disjoint and every assumption falls in exactly one of them. -/
theorem c3_group_classification (assumptions : List Assumption)
    (internalEnv : List (String × Ty)) (externalEnv : ExternalEnvironment)
    (hdisj : ∀ a ∈ assumptions,
      ¬((List.lookup a.name internalEnv).isSome = true ∧
        (lookupVariableType a.name externalEnv).isSome = true)) :
    (∀ a, a ∈ (groupAssumptions assumptions internalEnv externalEnv).internals ↔
      a ∈ assumptions ∧ (List.lookup a.name internalEnv).isSome = true) ∧
    (∀ a, a ∈ (groupAssumptions assumptions internalEnv externalEnv).externals ↔
      a ∈ assumptions ∧ (lookupVariableType a.name externalEnv).isSome = true) ∧
    (∀ a, a ∈ (groupAssumptions assumptions internalEnv externalEnv).unknowns ↔
      a ∈ assumptions ∧ ¬(List.lookup a.name internalEnv).isSome = true ∧
        ¬(lookupVariableType a.name externalEnv).isSome = true) ∧
    List.Disjoint (groupAssumptions assumptions internalEnv externalEnv).internals
      (groupAssumptions assumptions internalEnv externalEnv).externals ∧
    (∀ a ∈ assumptions,
      (a ∈ (groupAssumptions assumptions internalEnv externalEnv).internals ∧
        a ∉ (groupAssumptions assumptions internalEnv externalEnv).externals ∧
        a ∉ (groupAssumptions assumptions internalEnv externalEnv).unknowns) ∨
      (a ∉ (groupAssumptions assumptions internalEnv externalEnv).internals ∧
        a ∈ (groupAssumptions assumptions internalEnv externalEnv).externals ∧
        a ∉ (groupAssumptions assumptions internalEnv externalEnv).unknowns) ∨
      (a ∉ (groupAssumptions assumptions internalEnv externalEnv).internals ∧
        a ∉ (groupAssumptions assumptions internalEnv externalEnv).externals ∧
        a ∈ (groupAssumptions assumptions internalEnv externalEnv).unknowns)) := by
  have hint : ∀ a,
      a ∈ (groupAssumptions assumptions internalEnv externalEnv).internals ↔
      a ∈ assumptions ∧ (List.lookup a.name internalEnv).isSome = true := by
    intro a; simp [groupAssumptions, List.mem_filter]
  have hext : ∀ a,
      a ∈ (groupAssumptions assumptions internalEnv externalEnv).externals ↔
      a ∈ assumptions ∧ (lookupVariableType a.name externalEnv).isSome = true := by
    intro a; simp [groupAssumptions, List.mem_filter]
  have hunk : ∀ a,
      a ∈ (groupAssumptions assumptions internalEnv externalEnv).unknowns ↔
      a ∈ assumptions ∧ ¬(List.lookup a.name internalEnv).isSome = true ∧
        ¬(lookupVariableType a.name externalEnv).isSome = true := by
    intro a
    have : (groupAssumptions assumptions internalEnv externalEnv).unknowns =
        difference assumptions
          ((groupAssumptions assumptions internalEnv externalEnv).internals ++
            (groupAssumptions assumptions internalEnv externalEnv).externals) := rfl
    rw [this, mem_difference]
    constructor
    · rintro ⟨ha, hnot⟩
      simp only [List.mem_append] at hnot
      push_neg at hnot
      refine ⟨ha, ?_, ?_⟩
      · intro hP; exact hnot.1 ((hint a).mpr ⟨ha, hP⟩)
      · intro hQ; exact hnot.2 ((hext a).mpr ⟨ha, hQ⟩)
    · rintro ⟨ha, hP, hQ⟩
      refine ⟨ha, fun hmem => ?_⟩
      rcases List.mem_append.mp hmem with h | h
      · exact hP ((hint a).mp h).2
      · exact hQ ((hext a).mp h).2
  refine ⟨hint, hext, hunk, ?_, ?_⟩
  · intro a hI hE
    exact hdisj a ((hint a).mp hI).1 ⟨((hint a).mp hI).2, ((hext a).mp hE).2⟩
  · intro a ha
    by_cases hP : (List.lookup a.name internalEnv).isSome = true
    · refine Or.inl ⟨(hint a).mpr ⟨ha, hP⟩, ?_, ?_⟩
      · intro hE; exact hdisj a ha ⟨hP, ((hext a).mp hE).2⟩
      · intro hU; exact ((hunk a).mp hU).2.1 hP
    · by_cases hQ : (lookupVariableType a.name externalEnv).isSome = true
      · refine Or.inr (Or.inl ⟨?_, (hext a).mpr ⟨ha, hQ⟩, ?_⟩)
        · intro hI; exact hP ((hint a).mp hI).2
        · intro hU; exact ((hunk a).mp hU).2.2 hQ
      · refine Or.inr (Or.inr ⟨?_, ?_, (hunk a).mpr ⟨ha, hP, hQ⟩⟩)
        · intro hI; exact hP ((hint a).mp hI).2
        · intro hE; exact hQ ((hext a).mp hE).2

/-- Counterexample for C3 as frozen: when a name is both a module
definition and externally resolvable, the same assumption lands in both
the internals and the externals, so the three lists are not pairwise
disjoint and the assumption does not appear in exactly one of them. -/
theorem c3_counterexample :
    (groupAssumptions [⟨"f", tNumber, tNumber⟩] [("f", tNumber)]
        ⟨[("f", ⟨[], tNumber⟩)], []⟩).internals = [⟨"f", tNumber, tNumber⟩] ∧
    (groupAssumptions [⟨"f", tNumber, tNumber⟩] [("f", tNumber)]
        ⟨[("f", ⟨[], tNumber⟩)], []⟩).externals = [⟨"f", tNumber, tNumber⟩] ∧
    (groupAssumptions [⟨"f", tNumber, tNumber⟩] [("f", tNumber)]
        ⟨[("f", ⟨[], tNumber⟩)], []⟩).unknowns = [] ∧
    ¬ List.Disjoint
      (groupAssumptions [⟨"f", tNumber, tNumber⟩] [("f", tNumber)]
        ⟨[("f", ⟨[], tNumber⟩)], []⟩).internals
      (groupAssumptions [⟨"f", tNumber, tNumber⟩] [("f", tNumber)]
        ⟨[("f", ⟨[], tNumber⟩)], []⟩).externals := by
  refine ⟨rfl, rfl, rfl, fun h => ?_⟩
  have e1 : (groupAssumptions [⟨"f", tNumber, tNumber⟩] [("f", tNumber)]
      ⟨[("f", ⟨[], tNumber⟩)], []⟩).internals = [⟨"f", tNumber, tNumber⟩] := rfl
  have e2 : (groupAssumptions [⟨"f", tNumber, tNumber⟩] [("f", tNumber)]
      ⟨[("f", ⟨[], tNumber⟩)], []⟩).externals = [⟨"f", tNumber, tNumber⟩] := rfl
  exact h (e1 ▸ List.mem_cons_self _ _) (e2 ▸ List.mem_cons_self _ _)

/-- Witness for C3: a single unknown assumption, classified concretely. -/
theorem c3_group_classification_witness :
    (∀ a, a ∈ (groupAssumptions [⟨"u", tNumber, tNumber⟩] []
        ⟨[], []⟩).internals ↔
      a ∈ [(⟨"u", tNumber, tNumber⟩ : Assumption)] ∧
        (List.lookup a.name ([] : List (String × Ty))).isSome = true) ∧
    (∀ a, a ∈ (groupAssumptions [⟨"u", tNumber, tNumber⟩] []
        ⟨[], []⟩).externals ↔
      a ∈ [(⟨"u", tNumber, tNumber⟩ : Assumption)] ∧
        (lookupVariableType a.name ⟨[], []⟩).isSome = true) ∧
    (∀ a, a ∈ (groupAssumptions [⟨"u", tNumber, tNumber⟩] []
        ⟨[], []⟩).unknowns ↔
      a ∈ [(⟨"u", tNumber, tNumber⟩ : Assumption)] ∧
        ¬(List.lookup a.name ([] : List (String × Ty))).isSome = true ∧
        ¬(lookupVariableType a.name ⟨[], []⟩).isSome = true) ∧
    List.Disjoint
      (groupAssumptions [⟨"u", tNumber, tNumber⟩] [] ⟨[], []⟩).internals
      (groupAssumptions [⟨"u", tNumber, tNumber⟩] [] ⟨[], []⟩).externals ∧
    (∀ a ∈ [(⟨"u", tNumber, tNumber⟩ : Assumption)],
      (a ∈ (groupAssumptions [⟨"u", tNumber, tNumber⟩] [] ⟨[], []⟩).internals ∧
        a ∉ (groupAssumptions [⟨"u", tNumber, tNumber⟩] [] ⟨[], []⟩).externals ∧
        a ∉ (groupAssumptions [⟨"u", tNumber, tNumber⟩] [] ⟨[], []⟩).unknowns) ∨
      (a ∉ (groupAssumptions [⟨"u", tNumber, tNumber⟩] [] ⟨[], []⟩).internals ∧
        a ∈ (groupAssumptions [⟨"u", tNumber, tNumber⟩] [] ⟨[], []⟩).externals ∧
        a ∉ (groupAssumptions [⟨"u", tNumber, tNumber⟩] [] ⟨[], []⟩).unknowns) ∨
      (a ∉ (groupAssumptions [⟨"u", tNumber, tNumber⟩] [] ⟨[], []⟩).internals ∧
        a ∉ (groupAssumptions [⟨"u", tNumber, tNumber⟩] [] ⟨[], []⟩).externals ∧
        a ∈ (groupAssumptions [⟨"u", tNumber, tNumber⟩] []
          ⟨[], []⟩).unknowns)) :=
  c3_group_classification [⟨"u", tNumber, tNumber⟩] [] ⟨[], []⟩
    (by intro a ha; simp at ha; subst ha; simp [lookupVariableType])

/-- Counterexample for C9 as frozen: in `(if x 1 2)` with `x` unresolvable,
the generator's own constraints mention the unknown use (its carrier is
the use node), and after solving, the use's type in the returned tree is
the constant `boolean`, not an unconstrained fresh type variable. -/
theorem c9_counterexample :
    lookupVariableType "x" ⟨[], []⟩ = none ∧
    (∃ r n1, infer (.conditional (.varRef "x") (.num 1) (.num 2)) [] [] 0 =
        some (r, n1) ∧
      (⟨"x", generateUniqueTVar 0, generateUniqueTVar 1⟩ : Assumption)
        ∈ r.assumptions ∧
      constEqual (TExpr.varRef "x" ⟨generateUniqueTVar 0, generateUniqueTVar 1⟩)
          tBoolean
        ∈ r.constraints ++ assumptionsToConstraints r.assumptions ⟨[], []⟩) ∧
    inferType (.conditional (.varRef "x") (.num 1) (.num 2)) ⟨[], []⟩ [] 0 =
      .ok (.conditional (.varRef "x" ⟨tBoolean, .tvar (genName 5) false⟩)
        (.num 1 ⟨tNumber, .tvar (genName 5) false⟩)
        (.num 2 ⟨tNumber, .tvar (genName 5) false⟩)
        ⟨tNumber, .tvar (genName 5) false⟩, 6) ∧
    (∀ nm us, tBoolean ≠ Ty.tvar nm us) := by
  refine ⟨rfl, ⟨_, _, rfl, .head _, .head _⟩, rfl, ?_⟩
  intro nm us h
  exact absurd h (by simp [tBoolean])

/-- C9 (amended): an assumption whose name neither the external
environment nor the inline primitives resolve is silently dropped when
assumptions are converted to constraints — no instance constraint is
generated from it and no error is raised for it — while constraints
generated by the expression structure may still mention the use; for a
bare reference the returned typed expression keeps the unconstrained
fresh type variable. -/
theorem c9_unknown_dropped (assumptions : List Assumption)
    (env : ExternalEnvironment) (a : Assumption)
    (h : lookupVariableType a.name env = none) :
    (∀ sch, constExplicitInstance a sch ∉
      assumptionsToConstraints assumptions env) ∧
    (∀ internalTypes n,
      inferType (.varRef a.name) env internalTypes n =
        .ok (.varRef a.name ⟨generateUniqueTVar n, generateUniqueTVar (n + 1)⟩,
          n + 2)) := by
  constructor
  · intro sch hmem
    simp only [assumptionsToConstraints, List.mem_filterMap] at hmem
    obtain ⟨b, _, heq⟩ := hmem
    rw [Option.map_eq_some'] at heq
    obtain ⟨t, hbt, heq2⟩ := heq
    simp only [constExplicitInstance, TConstraint.explicitInstance.injEq] at heq2
    rw [heq2.1] at hbt
    rw [h] at hbt
    cases hbt
  · intro internalTypes n
    show (match infer (.varRef a.name) [] internalTypes n with
      | none => Except.error TErr.genFailed
      | some (r, n1) => do
          let (s, n2) ← solve
            (r.constraints ++ assumptionsToConstraints r.assumptions env) [] n1
          .ok (applySubstE s r.result, n2)) = _
    simp only [infer]
    simp only [assumptionsToConstraints, List.filterMap, h, Assumption.toTExpr]
    simp only [solve, solveF, applySubstE, applySubstInfo, applySubstT,
      substFuel, applySubstF, wdepth, generateUniqueTVar]
    rfl

/-- Witness for C9 (amended), at the unresolvable name `x` and the empty
environment. -/
theorem c9_unknown_dropped_witness :
    (∀ sch, constExplicitInstance ⟨"x", tNumber, tNumber⟩ sch ∉
      assumptionsToConstraints [] ⟨[], []⟩) ∧
    (∀ internalTypes n,
      inferType (.varRef (Assumption.name ⟨"x", tNumber, tNumber⟩)) ⟨[], []⟩
          internalTypes n =
        .ok (.varRef (Assumption.name ⟨"x", tNumber, tNumber⟩)
          ⟨generateUniqueTVar n, generateUniqueTVar (n + 1)⟩, n + 2)) :=
  c9_unknown_dropped [] ⟨[], []⟩ ⟨"x", tNumber, tNumber⟩ rfl

/-- `difference` against the concatenation of two filters of the same
list is the filter by neither predicate. -/
theorem difference_filter (as : List Assumption) (p q : Assumption → Bool) :
    difference as (as.filter p ++ as.filter q) =
      as.filter (fun a => !(p a) && !(q a)) := by
  unfold difference
  apply List.filter_congr
  intro x hx
  have hany : ((as.filter p ++ as.filter q).any (fun y => assumptionBeq x y)) =
      (p x || q x) := by
    rw [Bool.eq_iff_iff]
    simp only [List.any_eq_true, List.mem_append, List.mem_filter,
      assumptionBeq_eq, Bool.or_eq_true]
    constructor
    · rintro ⟨y, hy | hy, rfl⟩
      · exact Or.inl hy.2
      · exact Or.inr hy.2
    · rintro (hp | hq)
      · exact ⟨x, Or.inl ⟨hx, hp⟩, rfl⟩
      · exact ⟨x, Or.inr ⟨hx, hq⟩, rfl⟩
  rw [hany]
  simp

/-- C4: for a module that passes the cycle check, whose forms the
generator processes, and whose constraints the solver discharges with
substitution `s`, `inferModule` returns without raising; its unknowns are
exactly the gathered assumptions whose names are neither definitions of
the module nor resolvable in the external environment or the inline
primitives, and the solution substitution has been applied to each
returned use. -/
theorem c4_inferModule_unknowns (m : DModule) (env : ExternalEnvironment)
    (n n1 n2 : Nat) (binfs : List (InferRes TSyn)) (s : Subst)
    (hcirc : checkCircularTypes (moduleAliases m.body) = .ok ())
    (hgen : inferSyntaxList m.body (internalTypesOf m.body) n = some (binfs, n1))
    (hsolve : solve
      (flatMap (fun i => i.constraints) binfs
        ++ assumptionsToConstraints
            (groupAssumptions (flatMap (fun i => i.assumptions) binfs)
              (internalVarsOf (binfs.map (fun i => i.result))) env).externals env
        ++ (groupAssumptions (flatMap (fun i => i.assumptions) binfs)
              (internalVarsOf (binfs.map (fun i => i.result))) env).internals.map
            (fun v => constImplicitInstance v []
              ((List.lookup v.name
                (internalVarsOf (binfs.map (fun i => i.result)))).getD tVoid)))
      [] n1 = .ok (s, n2)) :
    inferModule m env n = .ok
      (⟨(binfs.map (fun i => i.result)).map
          (fun t => applySubstitutionToSyn t s),
        ((flatMap (fun i => i.assumptions) binfs).filter
          (fun a =>
            !(List.lookup a.name
                (internalVarsOf (binfs.map (fun i => i.result)))).isSome
            && !(lookupVariableType a.name env).isSome)).map
          (fun v => applySubstA s v)⟩, n2) := by
  have hunk : (groupAssumptions (flatMap (fun i => i.assumptions) binfs)
      (internalVarsOf (binfs.map (fun i => i.result))) env).unknowns =
      (flatMap (fun i => i.assumptions) binfs).filter
        (fun a =>
          !(List.lookup a.name
              (internalVarsOf (binfs.map (fun i => i.result)))).isSome
          && !(lookupVariableType a.name env).isSome) := by
    show difference _ _ = _
    exact difference_filter _ _ _
  rw [← hunk]
  simp only [inferModule, hcirc, hgen]
  simp only [groupAssumptions] at hsolve ⊢
  rw [hsolve]
  rfl

/-- Witness for C4: the one-expression module `42` evaluated concretely. -/
theorem c4_inferModule_unknowns_witness :
    inferModule ⟨[.expr (.num 42)]⟩ ⟨[], []⟩ 0 = .ok
      (⟨([(⟨.expr (.num 42 ⟨tNumber, generateUniqueTVar 0⟩), [], []⟩ :
            InferRes TSyn)].map (fun i => i.result)).map
          (fun t => applySubstitutionToSyn t []),
        ((flatMap (fun i => i.assumptions)
            [(⟨.expr (.num 42 ⟨tNumber, generateUniqueTVar 0⟩), [], []⟩ :
              InferRes TSyn)]).filter
          (fun a =>
            !(List.lookup a.name
                (internalVarsOf
                  ([(⟨.expr (.num 42 ⟨tNumber, generateUniqueTVar 0⟩), [], []⟩ :
                    InferRes TSyn)].map (fun i => i.result)))).isSome
            && !(lookupVariableType a.name ⟨[], []⟩).isSome)).map
          (fun v => applySubstA [] v)⟩, 1) :=
  c4_inferModule_unknowns ⟨[.expr (.num 42)]⟩ ⟨[], []⟩ 0 1 1 _ [] rfl rfl rfl

/-- Unfolding equation of `expandF` at a constant. -/
theorem expandF_constant (f : Nat) (env : ITEnv) (name : String) :
    expandF (f + 1) env (.constant name) =
      match List.lookup name env with
      | some d => expandF f env d
      | none => some (.constant name) := rfl

/-- Unfolding equation of `expandF` at an application. -/
theorem expandF_app (f : Nat) (env : ITEnv) (op : Ty) (args : List Ty) :
    expandF (f + 1) env (.app op args) =
      (expandF f env op).bind (fun op2 =>
        (expandFL f env args).bind (fun args2 => some (.app op2 args2))) := rfl

/-- Unfolding equation of `expandF` at a variable. -/
theorem expandF_tvar (f : Nat) (env : ITEnv) (nm : String) (us : Bool) :
    expandF (f + 1) env (.tvar nm us) = some (.tvar nm us) := rfl

/-- Unfolding equation of `expandF` at the empty row. -/
theorem expandF_rempty (f : Nat) (env : ITEnv) :
    expandF (f + 1) env .rempty = some .rempty := rfl

/-- Unfolding equation of `expandF` at a row extension. -/
theorem expandF_rext (f : Nat) (env : ITEnv) (l : String) (lt ext : Ty) :
    expandF (f + 1) env (.rext l lt ext) =
      (expandF f env lt).bind (fun lt2 =>
        (expandF f env ext).bind (fun ext2 => some (.rext l lt2 ext2))) := rfl

/-- Unfolding equation of `expandFL` at a cons cell. -/
theorem expandFL_cons (f : Nat) (env : ITEnv) (t : Ty) (ts : List Ty) :
    expandFL (f + 1) env (t :: ts) =
      (expandF f env t).bind (fun t2 =>
        (expandFL f env ts).bind (fun ts2 => some (t2 :: ts2))) := rfl

/-- Fuel monotonicity of alias expansion, one step. -/
theorem expandF_mono : ∀ (f : Nat) (env : ITEnv),
    (∀ t r, expandF f env t = some r → expandF (f + 1) env t = some r) ∧
    (∀ ts rs, expandFL f env ts = some rs → expandFL (f + 1) env ts = some rs) := by
  intro f
  induction f with
  | zero =>
      intro env
      refine ⟨fun t r h => by simp [expandF] at h, fun ts rs h => ?_⟩
      cases ts with
      | nil => simpa [expandFL] using h
      | cons a as => simp [expandFL] at h
  | succ f ih =>
      intro env
      constructor
      · intro t r h
        cases t with
        | constant name =>
            rw [expandF_constant] at h
            rw [expandF_constant]
            cases hl : List.lookup name env with
            | none => rw [hl] at h; exact h
            | some d => rw [hl] at h; exact (ih env).1 d r h
        | app op args =>
            rw [expandF_app] at h
            rw [expandF_app]
            simp only [Option.bind_eq_some] at h ⊢
            obtain ⟨op2, hop, args2, hargs, heq⟩ := h
            exact ⟨op2, (ih env).1 _ _ hop, args2, (ih env).2 _ _ hargs, heq⟩
        | tvar nm us => rw [expandF_tvar] at h; rw [expandF_tvar]; exact h
        | rempty => rw [expandF_rempty] at h; rw [expandF_rempty]; exact h
        | rext l lt ext =>
            rw [expandF_rext] at h
            rw [expandF_rext]
            simp only [Option.bind_eq_some] at h ⊢
            obtain ⟨lt2, hlt, ext2, hext, heq⟩ := h
            exact ⟨lt2, (ih env).1 _ _ hlt, ext2, (ih env).1 _ _ hext, heq⟩
      · intro ts rs h
        cases ts with
        | nil => simpa [expandFL] using h
        | cons a as =>
            rw [expandFL_cons] at h
            rw [expandFL_cons]
            simp only [Option.bind_eq_some] at h ⊢
            obtain ⟨a2, ha, as2, has, heq⟩ := h
            exact ⟨a2, (ih env).1 _ _ ha, as2, (ih env).2 _ _ has, heq⟩

/-- Fuel monotonicity of alias expansion. -/
theorem expandF_mono_le (f f' : Nat) (env : ITEnv) (t : Ty) (r : Ty)
    (hle : f ≤ f') (h : expandF f env t = some r) : expandF f' env t = some r := by
  induction f' with
  | zero => cases Nat.le_zero.mp hle; exact h
  | succ f' ih =>
      rcases Nat.lt_or_ge f (f' + 1) with hlt | hge
      · exact (expandF_mono f' env).1 t r (ih (Nat.lt_succ_iff.mp hlt))
      · have : f = f' + 1 := Nat.le_antisymm hle hge
        exact this ▸ h

/-- A definition looked up in the alias table is no deeper than
`maxDefDepth`. -/
theorem maxDefDepth_le : ∀ (env : ITEnv) (c : String) (d : Ty),
    List.lookup c env = some d → wdepth d ≤ maxDefDepth env := by
  intro env
  induction env with
  | nil => intro c d h; simp [List.lookup] at h
  | cons p rest ih =>
      intro c d h
      obtain ⟨k, v⟩ := p
      by_cases hc : c = k
      · subst hc
        simp [List.lookup] at h
        subst h
        simp [maxDefDepth]
      · have hbeq : (c == k) = false := by simpa using hc
        simp only [List.lookup, hbeq] at h
        calc wdepth d ≤ maxDefDepth rest := ih c d h
          _ ≤ maxDefDepth ((k, v) :: rest) := by simp [maxDefDepth]

/-- A successful lookup means the key is among the table's names. -/
theorem lookup_mem_keys : ∀ (env : ITEnv) (c : String),
    (List.lookup c env).isSome = true → c ∈ env.map Prod.fst := by
  intro env
  induction env with
  | nil => intro c h; simp [List.lookup] at h
  | cons p rest ih =>
      intro c h
      obtain ⟨k, v⟩ := p
      by_cases hc : c = k
      · simp [hc]
      · have hbeq : (c == k) = false := by simpa using hc
        simp only [List.lookup, hbeq] at h
        simp [ih c h]

/-- Along an alias chain, every later node is a declared alias. -/
theorem chain_in_dom (env : ITEnv) : ∀ (p : List String) (c : String),
    List.Chain' (aliasEdge env) (c :: p) →
    ∀ d ∈ p, (List.lookup d env).isSome = true := by
  intro p
  induction p with
  | nil => intro c _ d hd; simp at hd
  | cons e p' ih =>
      intro c hch d hd
      rw [List.chain'_cons] at hch
      cases hd with
      | head =>
          obtain ⟨t, _, _, hsome⟩ := hch.1
          exact hsome
      | tail _ hd => exact ih e hch.2 d hd

/-- A list that is not nodup splits around a repeated element. -/
theorem not_nodup_split : ∀ (l : List String), ¬ l.Nodup →
    ∃ x l1 l2 l3, l = l1 ++ x :: l2 ++ x :: l3 := by
  intro l
  induction l with
  | nil => intro h; exact absurd List.nodup_nil h
  | cons a t ih =>
      intro h
      by_cases ha : a ∈ t
      · obtain ⟨s, u, rfl⟩ := List.append_of_mem ha
        exact ⟨a, [], s, u, by simp⟩
      · have : ¬ t.Nodup := fun hn => h (List.nodup_cons.mpr ⟨ha, hn⟩)
        obtain ⟨x, l1, l2, l3, rfl⟩ := ih this
        exact ⟨x, a :: l1, l2, l3, by simp⟩

/-- Under acyclicity, every alias chain starting at a declared alias has
at most as many nodes as the table has entries. -/
theorem chain_len_bound (env : ITEnv) (h : NoAliasCycle env) :
    ∀ (c : String) (p : List String), (List.lookup c env).isSome = true →
    List.Chain' (aliasEdge env) (c :: p) → (c :: p).length ≤ env.length := by
  intro c p hsome hch
  have hnodup : (c :: p).Nodup := by
    by_contra hnd
    obtain ⟨x, l1, l2, l3, hsplit⟩ := not_nodup_split _ hnd
    have hinfix : (x :: l2 ++ [x]) <:+: (c :: p) := by
      refine ⟨l1, l3, ?_⟩
      rw [hsplit]
      simp
    exact h ⟨x, l2, hch.infix hinfix⟩
  have hsub : ∀ d ∈ c :: p, d ∈ env.map Prod.fst := by
    intro d hd
    rcases hd with _ | hd
    · exact lookup_mem_keys env c hsome
    · exact lookup_mem_keys env d (chain_in_dom env p c hch d (by assumption))
  calc (c :: p).length = (c :: p).toFinset.card :=
        (List.toFinset_card_of_nodup hnodup).symm
    _ ≤ (env.map Prod.fst).toFinset.card := by
        apply Finset.card_le_card
        intro x hx
        rw [List.mem_toFinset] at hx ⊢
        exact hsub x hx
    _ ≤ (env.map Prod.fst).length := List.toFinset_card_le _
    _ = env.length := List.length_map _ _

/-- Depth is positive. -/
theorem wdepth_pos : ∀ t : Ty, 1 ≤ wdepth t := by
  intro t; cases t <;> simp [wdepth]

/-- Adequacy of the expansion fuel: when every alias chain reachable from
the type's declared constants has at most `k` nodes, fuel
`wdepth t + k * (maxDefDepth env + 1)` suffices. -/
theorem expand_adequate (env : ITEnv) : ∀ (f : Nat),
    (∀ (k : Nat) (t : Ty),
      (∀ c ∈ tyConstNames t, (List.lookup c env).isSome = true →
        ∀ p, List.Chain' (aliasEdge env) (c :: p) → (c :: p).length ≤ k) →
      wdepth t + k * (maxDefDepth env + 1) ≤ f →
      (expandF f env t).isSome = true) ∧
    (∀ (k : Nat) (ts : List Ty),
      (∀ c ∈ tyConstNamesL ts, (List.lookup c env).isSome = true →
        ∀ p, List.Chain' (aliasEdge env) (c :: p) → (c :: p).length ≤ k) →
      wdepthL ts + k * (maxDefDepth env + 1) ≤ f →
      (expandFL f env ts).isSome = true) := by
  intro f
  induction f using Nat.strong_induction_on with
  | _ f ih =>
    constructor
    · intro k t hch hfuel
      cases f with
      | zero =>
          exfalso
          have := wdepth_pos t
          omega
      | succ f' =>
          have ihf := ih f' (Nat.lt_succ_self f')
          cases t with
          | constant name =>
              rw [expandF_constant]
              cases hl : List.lookup name env with
              | none => simp
              | some d =>
                  have hmem : name ∈ tyConstNames (Ty.constant name) := by
                    simp [tyConstNames]
                  have hisSome : (List.lookup name env).isSome = true := by
                    simp [hl]
                  have hk1 : 1 ≤ k := by
                    have := hch name hmem hisSome [] (List.chain'_singleton name)
                    simpa using this
                  apply ihf.1 (k - 1) d
                  · intro c hc hcsome p hp
                    have hedge : aliasEdge env name c := ⟨d, hl, hc, hcsome⟩
                    have hch2 : List.Chain' (aliasEdge env) (name :: c :: p) :=
                      List.chain'_cons.mpr ⟨hedge, hp⟩
                    have hlen := hch name hmem hisSome (c :: p) hch2
                    simp only [List.length_cons] at hlen ⊢
                    omega
                  · have hdM := maxDefDepth_le env name d hl
                    have e1 : (k - 1) * (maxDefDepth env + 1) +
                        (maxDefDepth env + 1) = k * (maxDefDepth env + 1) := by
                      rw [← Nat.succ_mul, Nat.succ_eq_add_one,
                        Nat.sub_add_cancel hk1]
                    have e2 : wdepth (Ty.constant name) = 1 := by simp [wdepth]
                    rw [e2] at hfuel
                    omega
          | app op args =>
              rw [expandF_app]
              have e2 : wdepth (Ty.app op args) =
                  1 + max (wdepth op) (wdepthL args) := by simp [wdepth]
              rw [e2] at hfuel
              have hmax1 := Nat.le_max_left (wdepth op) (wdepthL args)
              have hmax2 := Nat.le_max_right (wdepth op) (wdepthL args)
              have h1 : (expandF f' env op).isSome = true := by
                apply ihf.1 k op
                · intro c hc
                  exact hch c (by simp [tyConstNames, hc])
                · omega
              have h2 : (expandFL f' env args).isSome = true := by
                apply ihf.2 k args
                · intro c hc
                  exact hch c (by simp [tyConstNames, hc])
                · omega
              obtain ⟨x, hx⟩ := Option.isSome_iff_exists.mp h1
              obtain ⟨y, hy⟩ := Option.isSome_iff_exists.mp h2
              rw [hx, hy]
              simp
          | tvar nm us => rw [expandF_tvar]; simp
          | rempty => rw [expandF_rempty]; simp
          | rext l lt ext =>
              rw [expandF_rext]
              have e2 : wdepth (Ty.rext l lt ext) =
                  1 + max (wdepth lt) (wdepth ext) := by simp [wdepth]
              rw [e2] at hfuel
              have hmax1 := Nat.le_max_left (wdepth lt) (wdepth ext)
              have hmax2 := Nat.le_max_right (wdepth lt) (wdepth ext)
              have h1 : (expandF f' env lt).isSome = true := by
                apply ihf.1 k lt
                · intro c hc
                  exact hch c (by simp [tyConstNames, hc])
                · omega
              have h2 : (expandF f' env ext).isSome = true := by
                apply ihf.1 k ext
                · intro c hc
                  exact hch c (by simp [tyConstNames, hc])
                · omega
              obtain ⟨x, hx⟩ := Option.isSome_iff_exists.mp h1
              obtain ⟨y, hy⟩ := Option.isSome_iff_exists.mp h2
              rw [hx, hy]
              simp
    · intro k ts hch hfuel
      cases ts with
      | nil => cases f <;> simp [expandFL]
      | cons t ts' =>
          cases f with
          | zero =>
              exfalso
              have : wdepthL (t :: ts') = 1 + max (wdepth t) (wdepthL ts') := by
                simp [wdepthL]
              omega
          | succ f' =>
              have ihf := ih f' (Nat.lt_succ_self f')
              rw [expandFL_cons]
              have e2 : wdepthL (t :: ts') =
                  1 + max (wdepth t) (wdepthL ts') := by simp [wdepthL]
              rw [e2] at hfuel
              have hmax1 := Nat.le_max_left (wdepth t) (wdepthL ts')
              have hmax2 := Nat.le_max_right (wdepth t) (wdepthL ts')
              have h1 : (expandF f' env t).isSome = true := by
                apply ihf.1 k t
                · intro c hc
                  exact hch c (by simp [tyConstNamesL, hc])
                · omega
              have h2 : (expandFL f' env ts').isSome = true := by
                apply ihf.2 k ts'
                · intro c hc
                  exact hch c (by simp [tyConstNamesL, hc])
                · omega
              obtain ⟨x, hx⟩ := Option.isSome_iff_exists.mp h1
              obtain ⟨y, hy⟩ := Option.isSome_iff_exists.mp h2
              rw [hx, hy]
              simp

/-- The expansion result mentions no declared alias: every constant left
in it is outside the environment. -/
theorem expand_out_constants : ∀ (f : Nat) (env : ITEnv),
    (∀ t r, expandF f env t = some r →
      ∀ c ∈ tyConstNames r, List.lookup c env = none) ∧
    (∀ ts rs, expandFL f env ts = some rs →
      ∀ c ∈ tyConstNamesL rs, List.lookup c env = none) := by
  intro f
  induction f with
  | zero =>
      intro env
      constructor
      · intro t r h; simp [expandF] at h
      · intro ts rs h
        cases ts with
        | nil =>
            simp [expandFL] at h
            subst h
            intro c hc
            simp [tyConstNamesL] at hc
        | cons a as => simp [expandFL] at h
  | succ f ih =>
      intro env
      constructor
      · intro t r h c hc
        cases t with
        | constant name =>
            rw [expandF_constant] at h
            cases hl : List.lookup name env with
            | none =>
                rw [hl] at h
                simp at h
                subst h
                simp [tyConstNames] at hc
                subst hc
                exact hl
            | some d =>
                rw [hl] at h
                exact (ih env).1 d r h c hc
        | app op args =>
            rw [expandF_app] at h
            simp only [Option.bind_eq_some] at h
            obtain ⟨op2, hop, args2, hargs, heq⟩ := h
            simp only [Option.some.injEq] at heq
            subst heq
            simp only [tyConstNames, List.mem_append] at hc
            rcases hc with hc | hc
            · exact (ih env).1 op op2 hop c hc
            · exact (ih env).2 args args2 hargs c hc
        | tvar nm us =>
            rw [expandF_tvar] at h
            simp at h
            subst h
            simp [tyConstNames] at hc
        | rempty =>
            rw [expandF_rempty] at h
            simp at h
            subst h
            simp [tyConstNames] at hc
        | rext l lt ext =>
            rw [expandF_rext] at h
            simp only [Option.bind_eq_some] at h
            obtain ⟨lt2, hlt, ext2, hext, heq⟩ := h
            simp only [Option.some.injEq] at heq
            subst heq
            simp only [tyConstNames, List.mem_append] at hc
            rcases hc with hc | hc
            · exact (ih env).1 lt lt2 hlt c hc
            · exact (ih env).1 ext ext2 hext c hc
      · intro ts rs h c hc
        cases ts with
        | nil =>
            simp [expandFL] at h
            subst h
            simp [tyConstNamesL] at hc
        | cons a as =>
            rw [expandFL_cons] at h
            simp only [Option.bind_eq_some] at h
            obtain ⟨a2, ha, as2, has, heq⟩ := h
            simp only [Option.some.injEq] at heq
            subst heq
            simp only [tyConstNamesL, List.mem_append] at hc
            rcases hc with hc | hc
            · exact (ih env).1 a a2 ha c hc
            · exact (ih env).2 as as2 has c hc

/-- C8: on an acyclic alias table, `expandTypeAliases` terminates on every
type (any fuel at least the wrapper's suffices and yields the same
result); the result contains no constant declared in the environment, a
declared constant expands to the expansion of its definition, and a
constant outside the environment is left unchanged. -/
theorem c8_expandTypeAliases (env : ITEnv) (h : NoAliasCycle env) (t : Ty) :
    ∃ r : Ty,
      expandTypeAliases env t = some r ∧
      (∀ f, wdepth t + env.length * (maxDefDepth env + 1) ≤ f →
        expandF f env t = some r) ∧
      (∀ c ∈ tyConstNames r, List.lookup c env = none) ∧
      (∀ nm, List.lookup nm env = none →
        expandTypeAliases env (.constant nm) = some (.constant nm)) ∧
      (∀ nm d, List.lookup nm env = some d →
        expandTypeAliases env (.constant nm) = expandTypeAliases env d) := by
  have hch : ∀ (t' : Ty), ∀ c ∈ tyConstNames t',
      (List.lookup c env).isSome = true →
      ∀ p, List.Chain' (aliasEdge env) (c :: p) → (c :: p).length ≤ env.length :=
    fun t' c _ hsome p hp => chain_len_bound env h c p hsome hp
  have hsome_t :
      (expandF (wdepth t + env.length * (maxDefDepth env + 1)) env t).isSome =
        true :=
    (expand_adequate env _).1 env.length t (hch t) (le_refl _)
  obtain ⟨r, hr⟩ := Option.isSome_iff_exists.mp hsome_t
  refine ⟨r, hr, ?_, ?_, ?_, ?_⟩
  · intro f hf
    exact expandF_mono_le _ f env t r hf hr
  · exact (expand_out_constants _ env).1 t r hr
  · intro nm hnone
    show expandF (wdepth (Ty.constant nm) +
      env.length * (maxDefDepth env + 1)) env (Ty.constant nm) = _
    have e2 : wdepth (Ty.constant nm) = 1 := by simp [wdepth]
    rw [e2, Nat.add_comm, expandF_constant, hnone]
  · intro nm d hd
    have hE1 : 1 ≤ env.length := by
      have hmem : nm ∈ env.map Prod.fst := lookup_mem_keys env nm (by simp [hd])
      have hpos : 0 < (env.map Prod.fst).length :=
        List.length_pos.mpr (List.ne_nil_of_mem hmem)
      simpa using hpos
    have hchd : ∀ c ∈ tyConstNames d, (List.lookup c env).isSome = true →
        ∀ p, List.Chain' (aliasEdge env) (c :: p) →
        (c :: p).length ≤ env.length - 1 := by
      intro c hc hcsome p hp
      have hedge : aliasEdge env nm c := ⟨d, hd, hc, hcsome⟩
      have hch2 : List.Chain' (aliasEdge env) (nm :: c :: p) :=
        List.chain'_cons.mpr ⟨hedge, hp⟩
      have hlen := chain_len_bound env h nm (c :: p) (by simp [hd]) hch2
      simp only [List.length_cons] at hlen ⊢
      omega
    have hfueld : wdepth d + (env.length - 1) * (maxDefDepth env + 1) ≤
        env.length * (maxDefDepth env + 1) := by
      have hdM := maxDefDepth_le env nm d hd
      have e1 : (env.length - 1) * (maxDefDepth env + 1) +
          (maxDefDepth env + 1) = env.length * (maxDefDepth env + 1) := by
        rw [← Nat.succ_mul, Nat.succ_eq_add_one, Nat.sub_add_cancel hE1]
      omega
    have hsomed :
        (expandF (env.length * (maxDefDepth env + 1)) env d).isSome = true :=
      (expand_adequate env _).1 (env.length - 1) d hchd hfueld
    obtain ⟨rd, hrd⟩ := Option.isSome_iff_exists.mp hsomed
    have hlhs : expandTypeAliases env (Ty.constant nm) = some rd := by
      show expandF (wdepth (Ty.constant nm) +
        env.length * (maxDefDepth env + 1)) env (Ty.constant nm) = _
      have e2 : wdepth (Ty.constant nm) = 1 := by simp [wdepth]
      rw [e2, Nat.add_comm, expandF_constant, hd]
      exact hrd
    have hrhs : expandTypeAliases env d = some rd := by
      show expandF (wdepth d + env.length * (maxDefDepth env + 1)) env d = _
      exact expandF_mono_le _ _ env d rd (by omega) hrd
    rw [hlhs, hrhs]

/-- The one-alias table `ID := number` has no alias cycle. -/
theorem noAliasCycle_ID : NoAliasCycle [("ID", tNumber)] := by
  have hne : ∀ a b, ¬ aliasEdge [("ID", tNumber)] a b := by
    rintro a b ⟨ty, hl, hmem, hsome⟩
    by_cases hA : a = "ID"
    · subst hA
      simp [List.lookup] at hl
      subst hl
      simp [tNumber, tyConstNames] at hmem
      subst hmem
      simp [List.lookup] at hsome
    · have hbeq : (a == "ID") = false := by simpa using hA
      simp [List.lookup, hbeq] at hl
  rintro ⟨c, p, hch⟩
  cases p with
  | nil =>
      simp only [List.cons_append, List.nil_append] at hch
      rw [List.chain'_cons] at hch
      exact hne c c hch.1
  | cons d p' =>
      simp only [List.cons_append] at hch
      rw [List.chain'_cons] at hch
      exact hne c d hch.1

/-- Witness for C8: the alias table `ID := number` and the type `ID`. -/
theorem c8_expandTypeAliases_witness :
    ∃ r : Ty,
      expandTypeAliases [("ID", tNumber)] (.constant "ID") = some r ∧
      (∀ f, wdepth (.constant "ID") +
          ([("ID", tNumber)] : ITEnv).length *
            (maxDefDepth [("ID", tNumber)] + 1) ≤ f →
        expandF f [("ID", tNumber)] (.constant "ID") = some r) ∧
      (∀ c ∈ tyConstNames r, List.lookup c ([("ID", tNumber)] : ITEnv) = none) ∧
      (∀ nm, List.lookup nm ([("ID", tNumber)] : ITEnv) = none →
        expandTypeAliases [("ID", tNumber)] (.constant nm) =
          some (.constant nm)) ∧
      (∀ nm d, List.lookup nm ([("ID", tNumber)] : ITEnv) = some d →
        expandTypeAliases [("ID", tNumber)] (.constant nm) =
          expandTypeAliases [("ID", tNumber)] d) :=
  c8_expandTypeAliases [("ID", tNumber)] noAliasCycle_ID (.constant "ID")

/-- On an acyclic alias table, expansion with the wrapper fuel succeeds
for every type. -/
theorem expandTypeAliases_isSome (env : ITEnv) (h : NoAliasCycle env)
    (t : Ty) : (expandTypeAliases env t).isSome = true :=
  (expand_adequate env _).1 env.length t
    (fun c _ hsome p hp => chain_len_bound env h c p hsome hp) (le_refl _)

/-- The empty alias table has no alias cycle. -/
theorem noAliasCycle_nil : NoAliasCycle ([] : ITEnv) := by
  rintro ⟨c, p, hch⟩
  have hne : ∀ a b, ¬ aliasEdge ([] : ITEnv) a b := by
    rintro a b ⟨ty, hl, _, _⟩
    simp [List.lookup] at hl
  cases p with
  | nil =>
      simp only [List.cons_append, List.nil_append] at hch
      rw [List.chain'_cons] at hch
      exact hne c c hch.1
  | cons d p' =>
      simp only [List.cons_append] at hch
      rw [List.chain'_cons] at hch
      exact hne c d hch.1

/-- `inferMany` produces one typed form per input form. -/
theorem inferMany_length : ∀ (es : List Expr) (monovars : List String)
    (env : ITEnv) (n : Nat) (out : InferRes (List TExpr)) (n' : Nat),
    inferMany es monovars env n = some (out, n') →
    out.result.length = es.length := by
  intro es
  induction es with
  | nil =>
      intro monovars env n out n' h
      simp [inferMany] at h
      simp [h.1.symm]
  | cons e rest ih =>
      intro monovars env n out n' h
      cases hie : infer e monovars env n with
      | none => simp [inferMany, hie] at h
      | some p =>
          obtain ⟨ie, n1⟩ := p
          cases hrest : inferMany rest monovars env n1 with
          | none => simp [inferMany, hie, hrest] at h
          | some q =>
              obtain ⟨r2, n2⟩ := q
              simp [inferMany, hie, hrest] at h
              obtain ⟨h1, h2⟩ := h
              subst h1
              simp [ih _ _ _ _ _ hrest]

/-- The labels of `freshLabelVars` are the given labels. -/
theorem freshLabelVars_fst : ∀ (ls : List String) (n : Nat),
    (freshLabelVars n ls).map Prod.fst = ls := by
  intro ls
  induction ls with
  | nil => intro n; simp [freshLabelVars]
  | cons l rest ih => intro n; simp [freshLabelVars, ih]

/-- Each case that `inferCases` returns has a non-empty typed body (for
well-formed input) and a label of the input case list. -/
theorem inferCases_parts : ∀ (cs : List (String × String × List Expr))
    (monovars : List String) (env : ITEnv) (n : Nat)
    (ics : List (String × String × InferRes (List TExpr))) (n' : Nat),
    wfC cs = true → inferCases cs monovars env n = some (ics, n') →
    ∀ i ∈ ics, i.2.2.result ≠ [] ∧ i.1 ∈ cs.map (fun c => c.1) := by
  intro cs
  induction cs with
  | nil =>
      intro monovars env n ics n' _ h
      simp [inferCases] at h
      obtain ⟨h1, _⟩ := h
      subst h1
      intro i hi
      simp at hi
  | cons c rest ih =>
      intro monovars env n ics n' hwf h
      obtain ⟨l, v, body⟩ := c
      simp only [wfC, Bool.and_eq_true] at hwf
      cases hib : inferMany body (monovars ++ [v]) env n with
      | none => simp [inferCases, hib] at h
      | some p =>
          obtain ⟨ib, n1⟩ := p
          cases hrest : inferCases rest monovars env n1 with
          | none => simp [inferCases, hib, hrest] at h
          | some q =>
              obtain ⟨r2, n2⟩ := q
              simp [inferCases, hib, hrest] at h
              obtain ⟨h1, h2⟩ := h
              subst h1
              intro i hi
              cases hi with
              | head =>
                  constructor
                  · have hlen := inferMany_length _ _ _ _ _ _ hib
                    have hne : body ≠ [] := by
                      have := hwf.1.1
                      simpa [List.isEmpty_iff] using this
                    intro hcon
                    apply hne
                    have hcon2 : ib.result = [] := hcon
                    have hz : ib.result.length = 0 := by rw [hcon2]; rfl
                    rw [hlen] at hz
                    exact List.length_eq_zero.mp hz
                  · simp
              | tail _ hi =>
                  have hpart := ih _ _ _ _ _ hwf.2 hrest i hi
                  refine ⟨hpart.1, ?_⟩
                  simp only [List.map_cons]
                  exact List.mem_cons_of_mem _ hpart.2

/-- `caseVarConstraints` succeeds whenever the case label is found among
the variant types. -/
theorem caseVarConstraints_isSome :
    ∀ (as : List Assumption) (l v : String) (vts : List (String × Ty)),
    (vts.find? (fun x => x.1 == l)).isSome = true →
    (matchCasesConstraints.caseVarConstraints l v vts as).isSome = true := by
  intro as l v vts hfind
  induction as with
  | nil => simp [matchCasesConstraints.caseVarConstraints]
  | cons a rest ih =>
      obtain ⟨r, hr⟩ := Option.isSome_iff_exists.mp ih
      obtain ⟨x, hx⟩ := Option.isSome_iff_exists.mp hfind
      by_cases hn : (a.name == v) = true
      · simp [matchCasesConstraints.caseVarConstraints, hr, hn, hx]
      · simp only [Bool.not_eq_true] at hn
        simp [matchCasesConstraints.caseVarConstraints, hr, hn]

/-- `matchCasesConstraints` succeeds when every case has a returning form
and a label among the variant types. -/
theorem matchCasesConstraints_isSome :
    ∀ (ics : List (String × String × InferRes (List TExpr))) (t : Ty)
      (vts : List (String × Ty)),
    (∀ i ∈ ics, i.2.2.result ≠ [] ∧
      (vts.find? (fun x => x.1 == i.1)).isSome = true) →
    (matchCasesConstraints t vts ics).isSome = true := by
  intro ics
  induction ics with
  | nil => intro t vts _; simp [matchCasesConstraints]
  | cons i rest ih =>
      intro t vts hp
      obtain ⟨l, v, inf⟩ := i
      have hhead := hp (l, v, inf) (by simp)
      have hlast : inf.result.getLast?.isSome = true :=
        List.getLast?_isSome.mpr hhead.1
      obtain ⟨lastF, hlastF⟩ := Option.isSome_iff_exists.mp hlast
      have hvar := caseVarConstraints_isSome inf.assumptions l v vts hhead.2
      obtain ⟨vcs, hvcs⟩ := Option.isSome_iff_exists.mp hvar
      have hrest := ih t vts (fun j hj => hp j (by simp [hj]))
      obtain ⟨rcs, hrcs⟩ := Option.isSome_iff_exists.mp hrest
      simp [matchCasesConstraints, hlastF, hvcs, hrcs]

/-- Totality of the generator on well-formed input over an acyclic alias
table (the induction behind C2, stated for all the mutual walkers). -/
theorem infer_total_aux : ∀ e : Expr, ∀ (monovars : List String) (env : ITEnv)
    (n : Nat), wf e = true → NoAliasCycle env →
    (infer e monovars env n).isSome = true := by
  intro e
  induction e using Expr.rec
    (motive_2 := fun es => ∀ monovars env n, wfL es = true → NoAliasCycle env →
      (inferMany es monovars env n).isSome = true)
    (motive_3 := fun l => ∀ monovars env n, wfF l = true → NoAliasCycle env →
      (inferFields l monovars env n).isSome = true ∧
      (inferBindings l monovars env n).isSome = true)
    (motive_4 := fun o => ∀ monovars env n, wfO o = true → NoAliasCycle env →
      (inferOpt o monovars env n).isSome = true)
    (motive_5 := fun cs => ∀ monovars env n, wfC cs = true → NoAliasCycle env →
      (inferCases cs monovars env n).isSome = true)
    (motive_6 := fun p => ∀ monovars env n, wf p.2 = true → NoAliasCycle env →
      (infer p.2 monovars env n).isSome = true)
    (motive_7 := fun c => ∀ monovars env n, wfL c.2.2 = true → NoAliasCycle env →
      (inferMany c.2.2 monovars env n).isSome = true)
    (motive_8 := fun sl => ∀ monovars env n, wfL sl.2 = true → NoAliasCycle env →
      (inferMany sl.2 monovars env n).isSome = true)
  case unknown => intro monovars env n _ _; simp [infer]
  case num v => intro monovars env n _ _; simp [infer]
  case str s => intro monovars env n _ _; simp [infer]
  case vector values ih =>
    intro monovars env n hwf hnc
    have h1 := ih monovars env n (by simpa [wf] using hwf) hnc
    obtain ⟨⟨iv, n1⟩, hiv⟩ := Option.isSome_iff_exists.mp h1
    simp [infer, hiv]
  case record fields ext ihf iho =>
    intro monovars env n hwf hnc
    simp only [wf, Bool.and_eq_true] at hwf
    obtain ⟨⟨ifs, n1⟩, hifs⟩ :=
      Option.isSome_iff_exists.mp (ihf monovars env n hwf.1 hnc).1
    obtain ⟨⟨itail, n2⟩, hit⟩ :=
      Option.isSome_iff_exists.mp (iho monovars env n1 hwf.2 hnc)
    cases itail with
    | none => simp [infer, hifs, hit]
    | some it => simp [infer, hifs, hit]
  case varRef nm => intro monovars env n _ _; simp [infer]
  case conditional c t e ihc iht ihe =>
    intro monovars env n hwf hnc
    simp only [wf, Bool.and_eq_true] at hwf
    obtain ⟨⟨ic, n1⟩, hic⟩ :=
      Option.isSome_iff_exists.mp (ihc monovars env n hwf.1.1 hnc)
    obtain ⟨⟨it, n2⟩, hit⟩ :=
      Option.isSome_iff_exists.mp (iht monovars env n1 hwf.1.2 hnc)
    obtain ⟨⟨ie, n3⟩, hie⟩ :=
      Option.isSome_iff_exists.mp (ihe monovars env n2 hwf.2 hnc)
    simp [infer, hic, hit, hie]
  case fn args body ihb =>
    intro monovars env n hwf hnc
    simp only [wf, Bool.and_eq_true] at hwf
    obtain ⟨⟨ib, n1⟩, hib⟩ := Option.isSome_iff_exists.mp
      (ihb (monovars ++ (List.range args.length).map (fun i => genName (n + i)))
        env (n + args.length) hwf.2 hnc)
    have hne : ib.result ≠ [] := by
      have hlen := inferMany_length _ _ _ _ _ _ hib
      have hbne : body ≠ [] := by simpa [List.isEmpty_iff] using hwf.1
      intro hcon
      apply hbne
      rw [← List.length_eq_zero, ← hlen, hcon]
      rfl
    obtain ⟨lastF, hlastF⟩ :=
      Option.isSome_iff_exists.mp (List.getLast?_isSome.mpr hne)
    simp [infer, hib, hlastF]
  case funcall f args ihf iha =>
    intro monovars env n hwf hnc
    simp only [wf, Bool.and_eq_true] at hwf
    obtain ⟨⟨ifn, n1⟩, hifn⟩ :=
      Option.isSome_iff_exists.mp (ihf monovars env n hwf.1 hnc)
    obtain ⟨⟨iargs, n2⟩, hiargs⟩ :=
      Option.isSome_iff_exists.mp (iha monovars env n1 hwf.2 hnc)
    simp [infer, hifn, hiargs]
  case letB bindings body ihb ihbody =>
    intro monovars env n hwf hnc
    simp only [wf, Bool.and_eq_true] at hwf
    obtain ⟨⟨ib, n1⟩, hib⟩ :=
      Option.isSome_iff_exists.mp (ihb monovars env n hwf.1 hnc).2
    obtain ⟨⟨ibody, n2⟩, hibody⟩ :=
      Option.isSome_iff_exists.mp (ihbody monovars env n1 hwf.2.2 hnc)
    have hne : ibody.result ≠ [] := by
      have hlen := inferMany_length _ _ _ _ _ _ hibody
      have hbne : body ≠ [] := by simpa [List.isEmpty_iff] using hwf.2.1
      intro hcon
      apply hbne
      rw [← List.length_eq_zero, ← hlen, hcon]
      rfl
    obtain ⟨lastF, hlastF⟩ :=
      Option.isSome_iff_exists.mp (List.getLast?_isSome.mpr hne)
    simp [infer, hib, hibody, hlastF]
  case theAnn twc value ihv =>
    intro monovars env n hwf hnc
    have hwf2 : wf value = true := by simpa [wf] using hwf
    obtain ⟨⟨iv, n1⟩, hiv⟩ :=
      Option.isSome_iff_exists.mp (ihv monovars env n hwf2 hnc)
    obtain ⟨t, ht⟩ := Option.isSome_iff_exists.mp
      (expandTypeAliases_isSome env hnc (instW twc n1 []).1)
    simp [infer, hiv, ht]
  case doBlock body ret ihb ihr =>
    intro monovars env n hwf hnc
    simp only [wf, Bool.and_eq_true] at hwf
    obtain ⟨⟨ib, n1⟩, hib⟩ :=
      Option.isSome_iff_exists.mp (ihb monovars env n hwf.1 hnc)
    obtain ⟨⟨ir, n2⟩, hir⟩ :=
      Option.isSome_iff_exists.mp (ihr monovars env n1 hwf.2 hnc)
    simp [infer, hib, hir]
  case matchE value cases2 ihv ihcs =>
    intro monovars env n hwf hnc
    simp only [wf, Bool.and_eq_true] at hwf
    obtain ⟨⟨iv, n1⟩, hiv⟩ :=
      Option.isSome_iff_exists.mp (ihv monovars env n hwf.1 hnc)
    obtain ⟨⟨ics, n2⟩, hics⟩ :=
      Option.isSome_iff_exists.mp (ihcs monovars env n1 hwf.2 hnc)
    have hparts := inferCases_parts cases2 monovars env n1 ics n2 hwf.2 hics
    have hcond : ∀ i ∈ ics, i.2.2.result ≠ [] ∧
        ((freshLabelVars (n2 + 2) (cases2.map (fun c => c.1))).find?
          (fun x => x.1 == i.1)).isSome = true := by
      intro i hi
      refine ⟨(hparts i hi).1, ?_⟩
      rw [List.find?_isSome]
      have hmem : i.1 ∈ (freshLabelVars (n2 + 2)
          (cases2.map (fun c => c.1))).map Prod.fst := by
        rw [freshLabelVars_fst]
        exact (hparts i hi).2
      obtain ⟨x, hx, hx2⟩ := List.mem_map.mp hmem
      exact ⟨x, hx, by simp [hx2]⟩
    obtain ⟨mcs, hmcs⟩ := Option.isSome_iff_exists.mp
      (matchCasesConstraints_isSome ics (generateUniqueTVar n2)
        (freshLabelVars (n2 + 2) (cases2.map (fun c => c.1))) hcond)
    simp [infer, hiv, hics, hmcs]
  case nil => simp [inferMany]
  case cons e es ih1 ih2 monovars env n hwf hnc =>
    simp only [wfL, Bool.and_eq_true] at hwf
    obtain ⟨⟨ie, n1⟩, hie⟩ :=
      Option.isSome_iff_exists.mp (ih1 monovars env n hwf.1 hnc)
    obtain ⟨⟨rest, n2⟩, hrest⟩ :=
      Option.isSome_iff_exists.mp (ih2 monovars env n1 hwf.2 hnc)
    simp [inferMany, hie, hrest]
  case nil => constructor <;> simp [inferFields, inferBindings]
  case cons p fs ihp ihfs monovars env n hwf hnc =>
    obtain ⟨l, e⟩ := p
    simp only [wfF, Bool.and_eq_true] at hwf
    obtain ⟨⟨ie, n1⟩, hie⟩ :=
      Option.isSome_iff_exists.mp (ihp monovars env n hwf.1 hnc)
    obtain ⟨hf, hb⟩ := ihfs monovars env n1 hwf.2 hnc
    obtain ⟨⟨rf, n2⟩, hrf⟩ := Option.isSome_iff_exists.mp hf
    obtain ⟨⟨rb, n3⟩, hrb⟩ := Option.isSome_iff_exists.mp hb
    constructor
    · simp [inferFields, hie, hrf]
    · simp [inferBindings, hie, hrb]
  case none => simp [inferOpt]
  case some e ihe monovars env n hwf hnc =>
    obtain ⟨⟨ie, n1⟩, hie⟩ := Option.isSome_iff_exists.mp
      (ihe monovars env n (by simpa [wfO] using hwf) hnc)
    simp [inferOpt, hie]
  case nil => simp [inferCases]
  case cons c cs ihc ihcs monovars env n hwf hnc =>
    obtain ⟨l, v, body⟩ := c
    simp only [wfC, Bool.and_eq_true] at hwf
    obtain ⟨⟨ib, n1⟩, hib⟩ :=
      Option.isSome_iff_exists.mp (ihc (monovars ++ [v]) env n hwf.1.2 hnc)
    obtain ⟨⟨rest, n2⟩, hrest⟩ :=
      Option.isSome_iff_exists.mp (ihcs monovars env n1 hwf.2 hnc)
    simp [inferCases, hib, hrest]
  case mk l e ihe monovars env n hwf hnc =>
    exact ihe monovars env n hwf hnc
  case mk l sl ihsl monovars env n hwf hnc =>
    exact ihsl monovars env n hwf hnc
  case mk l body ihb monovars env n hwf hnc =>
    exact ihb monovars env n hwf hnc

/-- C2: the constraint generator never fails.  For every well-formed
expression of the source language — ill-typed code and `unknown` nodes
included — over an acyclic alias table, `infer` returns a typed tree, a
constraint list and an assumption list; the failure sources are the
solver and the alias cycle detector, which run elsewhere. -/
theorem c2_generator_total (e : Expr) (monovars : List String) (env : ITEnv)
    (n : Nat) (hwf : wf e = true) (hnc : NoAliasCycle env) :
    (infer e monovars env n).isSome = true :=
  infer_total_aux e monovars env n hwf hnc

/-- Witness for C2: an ill-typed conditional (its condition is a number)
containing an `unknown` node still infers. -/
theorem c2_generator_total_witness :
    wf (.conditional (.num 1) .unknown (.str "a")) = true ∧
    (infer (.conditional (.num 1) .unknown (.str "a")) [] [] 0).isSome = true :=
  ⟨rfl, c2_generator_total (.conditional (.num 1) .unknown (.str "a")) [] [] 0
    rfl noAliasCycle_nil⟩

/-- `VarsBelow` of an empty list. -/
theorem varsBelow_nil (n : Nat) : VarsBelow n [] := by
  intro nm hnm; simp at hnm

/-- `VarsBelow` distributes over append. -/
theorem varsBelow_append (n : Nat) (l1 l2 : List String) :
    VarsBelow n (l1 ++ l2) ↔ VarsBelow n l1 ∧ VarsBelow n l2 := by
  constructor
  · intro h
    exact ⟨fun nm hnm => h nm (List.mem_append_left _ hnm),
      fun nm hnm => h nm (List.mem_append_right _ hnm)⟩
  · rintro ⟨h1, h2⟩ nm hnm
    rcases List.mem_append.mp hnm with h | h
    · exact h1 nm h
    · exact h2 nm h

/-- `VarsBelow` is monotone in the bound. -/
theorem varsBelow_mono {n m : Nat} (hle : n ≤ m) {l : List String}
    (h : VarsBelow n l) : VarsBelow m l := by
  intro nm hnm
  obtain ⟨k, hk, hk2⟩ := h nm hnm
  exact ⟨k, Nat.lt_of_lt_of_le hk hle, hk2⟩

/-- The generated variable of a fresh type variable is below any larger
bound. -/
theorem varsBelow_gen {k n : Nat} (hk : k < n) :
    VarsBelow n (tyGenVars (generateUniqueTVar k)) := by
  intro nm hnm
  simp [generateUniqueTVar, tyGenVars] at hnm
  exact ⟨k, hk, hnm⟩

/-- `VarsBelow` over a `flatMap`. -/
theorem varsBelow_flatMap (n : Nat) (f : α → List String) (l : List α) :
    VarsBelow n (flatMap f l) ↔ ∀ x ∈ l, VarsBelow n (f x) := by
  constructor
  · intro h x hx nm hnm
    refine h nm ?_
    simp only [flatMap, List.mem_flatten]
    exact ⟨f x, List.mem_map_of_mem f hx, hnm⟩
  · intro h nm hnm
    simp only [flatMap, List.mem_flatten] at hnm
    obtain ⟨fx, hfx, hnm2⟩ := hnm
    obtain ⟨x, hx, rfl⟩ := List.mem_map.mp hfx
    exact h x hx nm hnm2

/-- `tyGenVarsL` over an append. -/
theorem tyGenVarsL_append : ∀ (l1 l2 : List Ty),
    tyGenVarsL (l1 ++ l2) = tyGenVarsL l1 ++ tyGenVarsL l2 := by
  intro l1
  induction l1 with
  | nil => intro l2; simp [tyGenVarsL]
  | cons t ts ih => intro l2; simp [tyGenVarsL, ih]

/-- The generated variables of a folded row. -/
theorem tyGenVars_tRow : ∀ (fields : List (String × Ty)) (ext : Ty),
    tyGenVars (tRow fields ext) =
      flatMap (fun p => tyGenVars p.2) fields ++ tyGenVars ext := by
  intro fields
  induction fields with
  | nil => intro ext; simp [tRow, flatMap]
  | cons f fs ih =>
      intro ext
      obtain ⟨l, t⟩ := f
      simp [tRow, tyGenVars, flatMap] at ih ⊢
      simp [ih]

/-- The label types of `freshLabelVars` are generated variables in
`[n, n + length)`. -/
theorem freshLabelVars_bound : ∀ (ls : List String) (n m : Nat),
    n + ls.length ≤ m →
    VarsBelow m (flatMap (fun p => tyGenVars p.2) (freshLabelVars n ls)) := by
  intro ls
  induction ls with
  | nil => intro n m _; simp [freshLabelVars, flatMap]; exact varsBelow_nil m
  | cons l rest ih =>
      intro n m hle
      simp only [freshLabelVars, flatMap, List.map_cons, List.flatten_cons]
      rw [show (tyGenVars (l, generateUniqueTVar n).2 ++
          (List.map (fun p => tyGenVars p.2) (freshLabelVars (n + 1) rest)).flatten) =
          (tyGenVars (generateUniqueTVar n) ++
            flatMap (fun p => tyGenVars p.2) (freshLabelVars (n + 1) rest)) from rfl]
      rw [varsBelow_append]
      constructor
      · exact varsBelow_gen (by simp at hle; omega)
      · exact ih (n + 1) m (by simp at hle; omega)

/-- A successful lookup is a member of the association list. -/
theorem lookup_mem : ∀ (env : List (String × α)) (c : String) (d : α),
    List.lookup c env = some d → (c, d) ∈ env := by
  intro env
  induction env with
  | nil => intro c d h; simp [List.lookup] at h
  | cons p rest ih =>
      intro c d h
      obtain ⟨k, v⟩ := p
      by_cases hc : c = k
      · subst hc
        simp [List.lookup] at h
        simp [h]
      · have hbeq : (c == k) = false := by simpa using hc
        simp only [List.lookup, hbeq] at h
        exact List.mem_cons_of_mem _ (ih c d h)

/-- A sublist of names inherits `VarsBelow` from the larger list. -/
theorem varsBelow_sub {n : Nat} {l1 l2 : List String}
    (hsub : ∀ nm ∈ l1, nm ∈ l2) (h : VarsBelow n l2) : VarsBelow n l1 :=
  fun nm hnm => h nm (hsub nm hnm)

/-- `flatMap` over an append. -/
theorem flatMap_append (f : α → List β) (l1 l2 : List α) :
    flatMap f (l1 ++ l2) = flatMap f l1 ++ flatMap f l2 := by
  simp [flatMap]

/-- `flatMap` over a cons. -/
theorem flatMap_cons (f : α → List β) (x : α) (l : List α) :
    flatMap f (x :: l) = f x ++ flatMap f l := by
  simp [flatMap]

/-- `tyGenVarsL` is the `flatMap` of `tyGenVars`. -/
theorem tyGenVarsL_flatMap : ∀ l : List Ty,
    tyGenVarsL l = flatMap tyGenVars l := by
  intro l
  induction l with
  | nil => simp [tyGenVarsL, flatMap]
  | cons t ts ih => simp [tyGenVarsL, flatMap, ih]

/-- A member's generated variables lie in the list collector. -/
theorem texprGenVarsL_mem : ∀ (es : List TExpr) (e : TExpr), e ∈ es →
    ∀ nm ∈ texprGenVars e, nm ∈ texprGenVarsL es := by
  intro es
  induction es with
  | nil => intro e he; simp at he
  | cons x xs ih =>
      intro e he nm hnm
      simp only [texprGenVarsL]
      cases he with
      | head => exact List.mem_append_left _ hnm
      | tail _ he => exact List.mem_append_right _ (ih e he nm hnm)

/-- A field member's generated variables lie in the field collector. -/
theorem texprGenVarsF_mem : ∀ (fs : List (String × TExpr))
    (p : String × TExpr), p ∈ fs →
    ∀ nm ∈ texprGenVars p.2, nm ∈ texprGenVarsF fs := by
  intro fs
  induction fs with
  | nil => intro p hp; simp at hp
  | cons q qs ih =>
      intro p hp nm hnm
      obtain ⟨l, e⟩ := q
      simp only [texprGenVarsF]
      cases hp with
      | head => exact List.mem_append_left _ hnm
      | tail _ hp => exact List.mem_append_right _ (ih p hp nm hnm)

/-- The root info's generated variables lie in the tree collector. -/
theorem infoOf_genVars : ∀ (e : TExpr) (nm : String),
    nm ∈ tyGenVars e.infoOf.type ∨ nm ∈ tyGenVars e.infoOf.effect →
    nm ∈ texprGenVars e := by
  intro e nm h
  cases e <;>
    (simp only [TExpr.infoOf] at h
     rcases h with h | h <;> simp [texprGenVars, h])

/-- `getD` returns a member of the list or the default. -/
theorem getD_mem_or : ∀ (l : List α) (j : Nat) (d : α),
    l.getD j d ∈ l ∨ l.getD j d = d := by
  intro l
  induction l with
  | nil => intro j d; right; simp [List.getD]
  | cons x xs ih =>
      intro j d
      cases j with
      | zero => left; rw [List.getD_cons_zero]; exact List.mem_cons_self x xs
      | succ j' =>
          rw [List.getD_cons_succ]
          rcases ih j' d with h | h
          · exact Or.inl (List.mem_cons_of_mem _ h)
          · exact Or.inr h

/-- The fresh argument types of a lambda are generated variables below
`n + len`. -/
theorem argtypes_bound (n len m : Nat) (hle : n + len ≤ m) :
    VarsBelow m (tyGenVarsL
      ((List.range len).map (fun i => generateUniqueTVar (n + i)))) := by
  rw [tyGenVarsL_flatMap]
  intro nm hnm
  simp only [flatMap, List.mem_flatten] at hnm
  obtain ⟨fx, hfx, hnm2⟩ := hnm
  obtain ⟨t, ht, rfl⟩ := List.mem_map.mp hfx
  obtain ⟨i, hi, rfl⟩ := List.mem_map.mp ht
  simp only [List.mem_range] at hi
  simp [generateUniqueTVar, tyGenVars] at hnm2
  exact ⟨n + i, by omega, hnm2⟩

/-- The last element of a list is a member. -/
theorem getLast?_mem_list : ∀ (l : List α) (a : α), l.getLast? = some a → a ∈ l := by
  intro l
  induction l with
  | nil => intro a h; simp at h
  | cons x xs ih =>
      intro a h
      cases xs with
      | nil => simp [List.getLast?_singleton] at h; simp [h]
      | cons y ys =>
          rw [List.getLast?_cons_cons] at h
          exact List.mem_cons_of_mem _ (ih a h)

/-- Instantiating an annotation moves the counter forward only, returns a
type whose generated variables are below the output counter, and keeps the
wildcard table's values below the output counter. -/
theorem instW_bound : ∀ (w : WTy) (n : Nat) (acc : List (String × String)),
    wtyOk w = true → VarsBelow n (acc.map Prod.snd) →
    n ≤ (instW w n acc).2.1 ∧
    VarsBelow (instW w n acc).2.1 (tyGenVars (instW w n acc).1) ∧
    VarsBelow (instW w n acc).2.1 ((instW w n acc).2.2.map Prod.snd) := by
  intro w
  induction w using WTy.rec
    (motive_2 := fun ws => ∀ (n : Nat) (acc : List (String × String)),
      wtyOkL ws = true → VarsBelow n (acc.map Prod.snd) →
      n ≤ (instWL ws n acc).2.1 ∧
      VarsBelow (instWL ws n acc).2.1 (tyGenVarsL (instWL ws n acc).1) ∧
      VarsBelow (instWL ws n acc).2.1 ((instWL ws n acc).2.2.map Prod.snd))
  case wconst nm =>
    intro n acc _ hacc
    exact ⟨Nat.le_refl n, by simp only [instW, tyGenVars]; exact varsBelow_nil n,
      by simpa only [instW] using hacc⟩
  case wapp op args ihop ihargs =>
    intro n acc hok hacc
    simp only [wtyOk, Bool.and_eq_true] at hok
    rcases hr1 : instW op n acc with ⟨op2, n1, acc1⟩
    rcases hr2 : instWL args n1 acc1 with ⟨args2, n2, acc2⟩
    have h1 := ihop n acc hok.1 hacc
    rw [hr1] at h1
    have h2 := ihargs n1 acc1 hok.2 h1.2.2
    rw [hr2] at h2
    simp only [instW, hr1, hr2]
    refine ⟨Nat.le_trans h1.1 h2.1, ?_, h2.2.2⟩
    simp only [tyGenVars]
    rw [varsBelow_append]
    exact ⟨varsBelow_mono h2.1 h1.2.1, h2.2.1⟩
  case wvar nm us =>
    intro n acc hok hacc
    simp only [wtyOk] at hok
    subst hok
    exact ⟨Nat.le_refl n, by simp only [instW, tyGenVars]; intro x hx; simp at hx,
      by simpa only [instW] using hacc⟩
  case wempty =>
    intro n acc _ hacc
    exact ⟨Nat.le_refl n, by simp only [instW, tyGenVars]; exact varsBelow_nil n,
      by simpa only [instW] using hacc⟩
  case wext l lt ext ihlt ihext =>
    intro n acc hok hacc
    simp only [wtyOk, Bool.and_eq_true] at hok
    rcases hr1 : instW lt n acc with ⟨lt2, n1, acc1⟩
    rcases hr2 : instW ext n1 acc1 with ⟨ext2, n2, acc2⟩
    have h1 := ihlt n acc hok.1 hacc
    rw [hr1] at h1
    have h2 := ihext n1 acc1 hok.2 h1.2.2
    rw [hr2] at h2
    simp only [instW, hr1, hr2]
    refine ⟨Nat.le_trans h1.1 h2.1, ?_, h2.2.2⟩
    simp only [tyGenVars]
    rw [varsBelow_append]
    exact ⟨varsBelow_mono h2.1 h1.2.1, h2.2.1⟩
  case wildcardAnon =>
    intro n acc _ hacc
    refine ⟨Nat.le_succ n, ?_, ?_⟩
    · simp only [instW]
      exact varsBelow_gen (Nat.lt_succ_self n)
    · simpa only [instW] using varsBelow_mono (Nat.le_succ n) hacc
  case wildcardNamed nm =>
    intro n acc _ hacc
    cases hl : List.lookup nm acc with
    | some v =>
        have hmem := lookup_mem acc nm v hl
        have hv : v ∈ acc.map Prod.snd := List.mem_map.mpr ⟨(nm, v), hmem, rfl⟩
        refine ⟨by simp [instW, hl], ?_, by simpa only [instW, hl] using hacc⟩
        simp only [instW, hl]
        intro x hx
        simp [tyGenVars] at hx
        subst hx
        exact hacc _ hv
    | none =>
        refine ⟨by simp [instW, hl], ?_, ?_⟩
        · simp only [instW, hl]
          exact varsBelow_gen (Nat.lt_succ_self n)
        · simp only [instW, hl, List.map_cons]
          intro x hx
          cases hx with
          | head => exact ⟨n, Nat.lt_succ_self n, rfl⟩
          | tail _ hx => exact varsBelow_mono (Nat.le_succ n) hacc x hx
  case nil n acc hok hacc =>
    exact ⟨Nat.le_refl n, by simp only [instWL, tyGenVarsL]; exact varsBelow_nil n,
      by simpa only [instWL] using hacc⟩
  case cons t ts ih1 ih2 n acc hok hacc =>
    simp only [wtyOkL, Bool.and_eq_true] at hok
    rcases hr1 : instW t n acc with ⟨t2, n1, acc1⟩
    rcases hr2 : instWL ts n1 acc1 with ⟨ts2, n2, acc2⟩
    have h1 := ih1 n acc hok.1 hacc
    rw [hr1] at h1
    have h2 := ih2 n1 acc1 hok.2 h1.2.2
    rw [hr2] at h2
    simp only [instWL, hr1, hr2]
    refine ⟨Nat.le_trans h1.1 h2.1, ?_, h2.2.2⟩
    simp only [tyGenVarsL]
    rw [varsBelow_append]
    exact ⟨varsBelow_mono h2.1 h1.2.1, h2.2.1⟩

/-- Alias expansion introduces no generated variables beyond those of the
input type and those of the alias table's definitions. -/
theorem expandF_genVars : ∀ (f : Nat),
    (∀ (env : ITEnv) (t r : Ty), expandF f env t = some r →
      ∀ nm ∈ tyGenVars r, nm ∈ tyGenVars t ∨ nm ∈ envGenVars env) ∧
    (∀ (env : ITEnv) (ts rs : List Ty), expandFL f env ts = some rs →
      ∀ nm ∈ tyGenVarsL rs, nm ∈ tyGenVarsL ts ∨ nm ∈ envGenVars env) := by
  intro f
  induction f with
  | zero =>
      constructor
      · intro env t r h
        simp [expandF] at h
      · intro env ts rs h
        cases ts with
        | nil =>
            simp [expandFL] at h
            subst h
            intro nm hnm
            simp [tyGenVarsL] at hnm
        | cons t ts' => simp [expandFL] at h
  | succ f ih =>
      constructor
      · intro env t r h
        cases t with
        | constant name =>
            cases hl : List.lookup name env with
            | some d =>
                rw [expandF_constant, hl] at h
                intro nm hnm
                rcases (ih.1 env d r h) nm hnm with h2 | h2
                · right
                  have hmem := lookup_mem env name d hl
                  simp only [envGenVars, flatMap, List.mem_flatten]
                  exact ⟨tyGenVars d,
                    List.mem_map.mpr ⟨(name, d), hmem, rfl⟩, h2⟩
                · exact Or.inr h2
            | none =>
                rw [expandF_constant, hl] at h
                simp at h
                subst h
                intro nm hnm
                simp [tyGenVars] at hnm
        | app op args =>
            rw [expandF_app] at h
            cases hop : expandF f env op with
            | none => rw [hop] at h; simp at h
            | some op2 =>
                cases hargs : expandFL f env args with
                | none => rw [hop, hargs] at h; simp at h
                | some args2 =>
                    rw [hop, hargs] at h
                    simp at h
                    subst h
                    intro nm hnm
                    simp only [tyGenVars, List.mem_append] at hnm ⊢
                    rcases hnm with hnm | hnm
                    · rcases (ih.1 env op op2 hop) nm hnm with h2 | h2
                      · exact Or.inl (Or.inl h2)
                      · exact Or.inr h2
                    · rcases (ih.2 env args args2 hargs) nm hnm with h2 | h2
                      · exact Or.inl (Or.inr h2)
                      · exact Or.inr h2
        | tvar nm2 us =>
            rw [expandF_tvar] at h
            simp at h
            subst h
            intro nm hnm
            exact Or.inl hnm
        | rempty =>
            rw [expandF_rempty] at h
            simp at h
            subst h
            intro nm hnm
            simp [tyGenVars] at hnm
        | rext l lt ext =>
            rw [expandF_rext] at h
            cases hlt : expandF f env lt with
            | none => rw [hlt] at h; simp at h
            | some lt2 =>
                cases hext : expandF f env ext with
                | none => rw [hlt, hext] at h; simp at h
                | some ext2 =>
                    rw [hlt, hext] at h
                    simp at h
                    subst h
                    intro nm hnm
                    simp only [tyGenVars, List.mem_append] at hnm ⊢
                    rcases hnm with hnm | hnm
                    · rcases (ih.1 env lt lt2 hlt) nm hnm with h2 | h2
                      · exact Or.inl (Or.inl h2)
                      · exact Or.inr h2
                    · rcases (ih.1 env ext ext2 hext) nm hnm with h2 | h2
                      · exact Or.inl (Or.inr h2)
                      · exact Or.inr h2
      · intro env ts rs h
        cases ts with
        | nil =>
            simp [expandFL] at h
            subst h
            intro nm hnm
            simp [tyGenVarsL] at hnm
        | cons t ts' =>
            rw [expandFL_cons] at h
            cases ht : expandF f env t with
            | none => rw [ht] at h; simp at h
            | some t2 =>
                cases hts : expandFL f env ts' with
                | none => rw [ht, hts] at h; simp at h
                | some ts2 =>
                    rw [ht, hts] at h
                    simp at h
                    subst h
                    intro nm hnm
                    simp only [tyGenVarsL, List.mem_append] at hnm ⊢
                    rcases hnm with hnm | hnm
                    · rcases (ih.1 env t t2 ht) nm hnm with h2 | h2
                      · exact Or.inl (Or.inl h2)
                      · exact Or.inr h2
                    · rcases (ih.2 env ts' ts2 hts) nm hnm with h2 | h2
                      · exact Or.inl (Or.inr h2)
                      · exact Or.inr h2

/-- `expandTypeAliases` introduces no generated variables beyond those of
the input type and of the alias table. -/
theorem expandTypeAliases_genVars (env : ITEnv) (t r : Ty)
    (h : expandTypeAliases env t = some r) :
    ∀ nm ∈ tyGenVars r, nm ∈ tyGenVars t ∨ nm ∈ envGenVars env :=
  (expandF_genVars _).1 env t r h

/-- The tree an assumption stands for carries exactly the assumption's
generated variables. -/
theorem toTExpr_genVars (a : Assumption) :
    texprGenVars a.toTExpr = aGenVars a := rfl

/-- The constraints produced for one case's pattern variable only mention
generated variables of the case's assumptions and of the variant types. -/
theorem caseVarConstraints_bound : ∀ (as : List Assumption) (l v : String)
    (vts : List (String × Ty)) (cs : List TConstraint) (m : Nat),
    matchCasesConstraints.caseVarConstraints l v vts as = some cs →
    VarsBelow m (flatMap aGenVars as) →
    VarsBelow m (flatMap (fun p => tyGenVars p.2) vts) →
    VarsBelow m (flatMap cGenVars cs) := by
  intro as
  induction as with
  | nil =>
      intro l v vts cs m h _ _
      simp [matchCasesConstraints.caseVarConstraints] at h
      subst h
      intro nm hnm
      simp [flatMap] at hnm
  | cons a rest ih =>
      intro l v vts cs m h ha hv
      rw [flatMap_cons] at ha
      obtain ⟨hahead, hatail⟩ := (varsBelow_append m _ _).mp ha
      cases hrest : matchCasesConstraints.caseVarConstraints l v vts rest with
      | none => simp [matchCasesConstraints.caseVarConstraints, hrest] at h
      | some restCs =>
          by_cases hn : (a.name == v) = true
          · cases hf : vts.find? (fun x => x.1 == l) with
            | none =>
                simp [matchCasesConstraints.caseVarConstraints, hrest, hn, hf] at h
            | some vt =>
                simp [matchCasesConstraints.caseVarConstraints, hrest, hn, hf] at h
                subst h
                rw [flatMap_cons, varsBelow_append]
                constructor
                · simp only [constEqual, cGenVars, toTExpr_genVars]
                  rw [varsBelow_append]
                  refine ⟨hahead, ?_⟩
                  exact (varsBelow_flatMap m _ vts).mp hv vt
                    (List.mem_of_find?_eq_some hf)
                · exact ih l v vts restCs m hrest hatail hv
          · simp only [Bool.not_eq_true] at hn
            simp [matchCasesConstraints.caseVarConstraints, hrest, hn] at h
            subst h
            exact ih l v vts restCs m hrest hatail hv

/-- The per-case `match` constraints only mention generated variables of
the common type, the variant types and the case outputs. -/
theorem matchCasesConstraints_bound :
    ∀ (ics : List (String × String × InferRes (List TExpr)))
    (t : Ty) (vts : List (String × Ty)) (mcs : List TConstraint) (m : Nat),
    matchCasesConstraints t vts ics = some mcs →
    VarsBelow m (tyGenVars t) →
    VarsBelow m (flatMap (fun p => tyGenVars p.2) vts) →
    VarsBelow m (outGenVarsC ics) →
    VarsBelow m (flatMap cGenVars mcs) := by
  intro ics
  induction ics with
  | nil =>
      intro t vts mcs m h _ _ _
      simp [matchCasesConstraints] at h
      subst h
      intro nm hnm
      simp [flatMap] at hnm
  | cons c rest ih =>
      intro t vts mcs m h ht hv hics
      obtain ⟨l, v, inf⟩ := c
      cases hlast : inf.result.getLast? with
      | none => simp [matchCasesConstraints, hlast] at h
      | some rf =>
          cases hvar : matchCasesConstraints.caseVarConstraints l v vts
              inf.assumptions with
          | none => simp [matchCasesConstraints, hlast, hvar] at h
          | some varCs =>
              cases hrest : matchCasesConstraints t vts rest with
              | none => simp [matchCasesConstraints, hlast, hvar, hrest] at h
              | some restCs =>
                  simp [matchCasesConstraints, hlast, hvar, hrest] at h
                  subst h
                  rw [show outGenVarsC ((l, v, inf) :: rest) =
                    outGenVarsL inf ++ outGenVarsC rest from rfl] at hics
                  obtain ⟨hinf, hrest2⟩ := (varsBelow_append m _ _).mp hics
                  simp only [outGenVarsL] at hinf
                  obtain ⟨hinf1, hinfa⟩ := (varsBelow_append m _ _).mp hinf
                  obtain ⟨hinfr, hinfc⟩ := (varsBelow_append m _ _).mp hinf1
                  rw [flatMap_cons, varsBelow_append]
                  constructor
                  · simp only [constEqual, cGenVars]
                    rw [varsBelow_append]
                    refine ⟨?_, ht⟩
                    exact varsBelow_sub
                      (texprGenVarsL_mem inf.result rf
                        (getLast?_mem_list inf.result rf hlast)) hinfr
                  · rw [flatMap_append, varsBelow_append]
                    exact ⟨caseVarConstraints_bound inf.assumptions l v vts
                        varCs m hvar hinfa hv,
                      ih t vts restCs m hrest ht hv hrest2⟩

/-- `flatMap` over the empty list. -/
theorem flatMap_nil (f : α → List β) : flatMap f [] = [] := rfl

/-- `flatMap` after `map` fuses. -/
theorem flatMap_map (f : β → List γ) (g : α → β) (l : List α) :
    flatMap f (l.map g) = flatMap (fun x => f (g x)) l := by
  simp [flatMap, List.map_map]
  rfl

/-- `flatMap` over a `flatMap` fuses. -/
theorem flatMap_flatMap (f : β → List γ) (g : α → List β) : ∀ (l : List α),
    flatMap f (flatMap g l) = flatMap (fun x => flatMap f (g x)) l := by
  intro l
  induction l with
  | nil => rfl
  | cons x xs ih =>
      rw [flatMap_cons, flatMap_append, ih, flatMap_cons]

/-- Converse decomposition of the list collector. -/
theorem texprGenVarsL_mem_inv : ∀ (es : List TExpr) (nm : String),
    nm ∈ texprGenVarsL es → ∃ e ∈ es, nm ∈ texprGenVars e := by
  intro es
  induction es with
  | nil => intro nm hnm; simp [texprGenVarsL] at hnm
  | cons x xs ih =>
      intro nm hnm
      simp only [texprGenVarsL, List.mem_append] at hnm
      rcases hnm with h | h
      · exact ⟨x, List.mem_cons_self x xs, h⟩
      · obtain ⟨e, he, h2⟩ := ih nm h
        exact ⟨e, List.mem_cons_of_mem _ he, h2⟩

/-- Converse decomposition of the field collector. -/
theorem texprGenVarsF_mem_inv : ∀ (fs : List (String × TExpr)) (nm : String),
    nm ∈ texprGenVarsF fs → ∃ p ∈ fs, nm ∈ texprGenVars p.2 := by
  intro fs
  induction fs with
  | nil => intro nm hnm; simp [texprGenVarsF] at hnm
  | cons q qs ih =>
      intro nm hnm
      obtain ⟨l, e⟩ := q
      simp only [texprGenVarsF, List.mem_append] at hnm
      rcases hnm with h | h
      · exact ⟨(l, e), List.mem_cons_self _ _, h⟩
      · obtain ⟨p, hp, h2⟩ := ih nm h
        exact ⟨p, List.mem_cons_of_mem _ hp, h2⟩

/-- Equality constraints over a list of forms stay inside the forms'
variables plus the shared type's. -/
theorem varsBelow_equalMap {m : Nat} {es : List TExpr} {t : Ty}
    (hr : VarsBelow m (texprGenVarsL es)) (ht : VarsBelow m (tyGenVars t)) :
    VarsBelow m (flatMap cGenVars (es.map (fun e => constEqual e t))) := by
  rw [varsBelow_flatMap]
  intro x hx
  obtain ⟨e, he, rfl⟩ := List.mem_map.mp hx
  simp only [constEqual, cGenVars]
  rw [varsBelow_append]
  exact ⟨varsBelow_sub (texprGenVarsL_mem es e he) hr, ht⟩

/-- Effect constraints over a list of forms stay inside the forms'
variables plus the shared effect's. -/
theorem varsBelow_effectMap {m : Nat} {es : List TExpr} {t : Ty}
    (hr : VarsBelow m (texprGenVarsL es)) (ht : VarsBelow m (tyGenVars t)) :
    VarsBelow m (flatMap cGenVars (es.map (fun e => constEffect e t))) := by
  rw [varsBelow_flatMap]
  intro x hx
  obtain ⟨e, he, rfl⟩ := List.mem_map.mp hx
  simp only [constEffect, cGenVars]
  rw [varsBelow_append]
  exact ⟨varsBelow_sub (texprGenVarsL_mem es e he) hr, ht⟩

/-- Effect constraints over a field list stay inside the fields' variables
plus the shared effect's. -/
theorem varsBelow_effectMapF {m : Nat} {fs : List (String × TExpr)} {t : Ty}
    (hr : VarsBelow m (texprGenVarsF fs)) (ht : VarsBelow m (tyGenVars t)) :
    VarsBelow m (flatMap cGenVars (fs.map (fun p => constEffect p.2 t))) := by
  rw [varsBelow_flatMap]
  intro x hx
  obtain ⟨p, hp, rfl⟩ := List.mem_map.mp hx
  simp only [constEffect, cGenVars]
  rw [varsBelow_append]
  exact ⟨varsBelow_sub (texprGenVarsF_mem fs p hp) hr, ht⟩

/-- The field types read off a typed field list stay inside the fields'
variables. -/
theorem varsBelow_fieldTypes {m : Nat} {fs : List (String × TExpr)}
    (hr : VarsBelow m (texprGenVarsF fs)) :
    VarsBelow m (flatMap (fun p => tyGenVars p.2)
      (fs.map (fun p => (p.1, p.2.infoOf.type)))) := by
  rw [flatMap_map, varsBelow_flatMap]
  intro p hp
  exact varsBelow_sub
    (fun nm hnm => texprGenVarsF_mem fs p hp nm (infoOf_genVars p.2 nm (Or.inl hnm)))
    hr

/-- The argument types read off a typed argument list stay inside the
arguments' variables. -/
theorem varsBelow_argTypes {m : Nat} {es : List TExpr}
    (hr : VarsBelow m (texprGenVarsL es)) :
    VarsBelow m (tyGenVarsL (es.map (fun a => a.infoOf.type))) := by
  rw [tyGenVarsL_flatMap, flatMap_map, varsBelow_flatMap]
  intro e he
  exact varsBelow_sub
    (fun nm hnm => texprGenVarsL_mem es e he nm (infoOf_genVars e nm (Or.inl hnm)))
    hr

/-- The typed binding results stay inside the binding outputs'
variables. -/
theorem varsBelow_bindingResults : ∀ (ib : List (String × InferRes TExpr))
    (m : Nat), VarsBelow m (outGenVarsB ib) →
    VarsBelow m (texprGenVarsF (ib.map (fun bi => (bi.1, bi.2.result)))) := by
  intro ib
  induction ib with
  | nil => intro m _ nm hnm; simp [texprGenVarsF] at hnm
  | cons bi rest ih =>
      intro m hb
      rw [show outGenVarsB (bi :: rest) =
        outGenVars bi.2 ++ outGenVarsB rest from rfl] at hb
      obtain ⟨hc, hrest⟩ := (varsBelow_append _ _ _).mp hb
      simp only [List.map_cons, texprGenVarsF]
      rw [varsBelow_append]
      refine ⟨?_, ih m hrest⟩
      simp only [outGenVars] at hc
      exact varsBelow_sub (fun nm hnm => by
        exact List.mem_append_left _ (List.mem_append_left _ hnm)) hc

/-- The typed case results stay inside the case outputs' variables. -/
theorem varsBelow_casesResults :
    ∀ (ics : List (String × String × InferRes (List TExpr))) (m : Nat),
    VarsBelow m (outGenVarsC ics) →
    VarsBelow m (texprGenVarsC
      (ics.map (fun c => (c.1, c.2.1, c.2.2.result)))) := by
  intro ics
  induction ics with
  | nil => intro m _ nm hnm; simp [texprGenVarsC] at hnm
  | cons c rest ih =>
      intro m hb
      rw [show outGenVarsC (c :: rest) =
        outGenVarsL c.2.2 ++ outGenVarsC rest from rfl] at hb
      obtain ⟨hc, hrest⟩ := (varsBelow_append _ _ _).mp hb
      simp only [List.map_cons, texprGenVarsC]
      rw [varsBelow_append]
      refine ⟨?_, ih m hrest⟩
      simp only [outGenVarsL] at hc
      exact varsBelow_sub (fun nm hnm => by
        exact List.mem_append_left _ (List.mem_append_left _ hnm)) hc

/-- Filtering assumptions by frontier keeps the variables inside the
original list's. -/
theorem varsBelow_aFilter {m : Nat} {as : List Assumption}
    {p : Assumption → Bool} (h : VarsBelow m (flatMap aGenVars as)) :
    VarsBelow m (flatMap aGenVars (as.filter p)) := by
  rw [varsBelow_flatMap] at h ⊢
  intro a ha
  exact h a (List.mem_of_mem_filter ha)

/-- The empty effect has no generated variables. -/
theorem tyGenVars_tEffectNil : tyGenVars (tEffect []) = [] := rfl

/-- The generated variables of a variant type are its labels' types'. -/
theorem tyGenVars_tVariant (vts : List (String × Ty)) :
    tyGenVars (tVariant vts) = flatMap (fun p => tyGenVars p.2) vts := by
  simp [tVariant, tcVariant, tyGenVars, tyGenVarsL, tyGenVars_tRow]

/-- The generated variables of a record type are its fields' types' plus
the tail's. -/
theorem tyGenVars_tRecord (fs : List (String × Ty)) (tail : Ty) :
    tyGenVars (tRecord fs tail) =
      flatMap (fun p => tyGenVars p.2) fs ++ tyGenVars tail := by
  simp [tRecord, tcRecord, tyGenVars, tyGenVarsL, tyGenVars_tRow]

/-- The generated variables of a vector type are the element type's. -/
theorem tyGenVars_tVector (t : Ty) : tyGenVars (tVector t) = tyGenVars t := by
  simp [tVector, tcVector, tyGenVars, tyGenVarsL]

/-- The generated variables of an arrow type. -/
theorem tyGenVars_tFn (args : List Ty) (eff ret : Ty) :
    tyGenVars (tFn args eff ret) =
      tyGenVarsL args ++ tyGenVars eff ++ tyGenVars ret := by
  simp [tFn, tcArrow, tyGenVars, tyGenVarsL_append, tyGenVarsL]

/-- Split an `outGenVars` bound into its three components. -/
theorem outGenVars_split {m : Nat} {iv : InferRes TExpr}
    (h : VarsBelow m (outGenVars iv)) :
    VarsBelow m (texprGenVars iv.result) ∧
    VarsBelow m (flatMap cGenVars iv.constraints) ∧
    VarsBelow m (flatMap aGenVars iv.assumptions) := by
  simp only [outGenVars] at h
  obtain ⟨h1, ha⟩ := (varsBelow_append _ _ _).mp h
  obtain ⟨hr, hc⟩ := (varsBelow_append _ _ _).mp h1
  exact ⟨hr, hc, ha⟩

/-- Split an `outGenVarsL` bound into its three components. -/
theorem outGenVarsL_split {m : Nat} {iv : InferRes (List TExpr)}
    (h : VarsBelow m (outGenVarsL iv)) :
    VarsBelow m (texprGenVarsL iv.result) ∧
    VarsBelow m (flatMap cGenVars iv.constraints) ∧
    VarsBelow m (flatMap aGenVars iv.assumptions) := by
  simp only [outGenVarsL] at h
  obtain ⟨h1, ha⟩ := (varsBelow_append _ _ _).mp h
  obtain ⟨hr, hc⟩ := (varsBelow_append _ _ _).mp h1
  exact ⟨hr, hc, ha⟩

/-- Split an `outGenVarsF` bound into its three components. -/
theorem outGenVarsF_split {m : Nat} {iv : InferRes (List (String × TExpr))}
    (h : VarsBelow m (outGenVarsF iv)) :
    VarsBelow m (texprGenVarsF iv.result) ∧
    VarsBelow m (flatMap cGenVars iv.constraints) ∧
    VarsBelow m (flatMap aGenVars iv.assumptions) := by
  simp only [outGenVarsF] at h
  obtain ⟨h1, ha⟩ := (varsBelow_append _ _ _).mp h
  obtain ⟨hr, hc⟩ := (varsBelow_append _ _ _).mp h1
  exact ⟨hr, hc, ha⟩

/-- `cGenVars` at an equality constraint. -/
theorem cGenVars_equal (e : TExpr) (t : Ty) :
    cGenVars (constEqual e t) = texprGenVars e ++ tyGenVars t := rfl

/-- `cGenVars` at an effect constraint. -/
theorem cGenVars_effect (e : TExpr) (t : Ty) :
    cGenVars (constEffect e t) = texprGenVars e ++ tyGenVars t := rfl

/-- `cGenVars` at an implicit-instance constraint. -/
theorem cGenVars_implicit (a : Assumption) (monovars : List String) (t : Ty) :
    cGenVars (constImplicitInstance a monovars t) =
      aGenVars a ++ tyGenVars t := rfl

/-- Counter monotonicity and freshness of the generator: the counter never
moves backwards, and every generated variable anywhere in the output has
an index below the output counter (the induction behind C5, stated for
all the mutual walkers). -/
theorem infer_fresh_aux : ∀ e : Expr, ∀ (monovars : List String) (env : ITEnv)
    (n : Nat) (out : InferRes TExpr) (n' : Nat),
    annOk e = true → VarsBelow n (envGenVars env) →
    infer e monovars env n = some (out, n') →
    n ≤ n' ∧ VarsBelow n' (outGenVars out) := by
  intro e
  induction e using Expr.rec
    (motive_2 := fun es => ∀ monovars env n out n',
      annOkL es = true → VarsBelow n (envGenVars env) →
      inferMany es monovars env n = some (out, n') →
      n ≤ n' ∧ VarsBelow n' (outGenVarsL out))
    (motive_3 := fun l => ∀ monovars env n outF nF bs nB,
      annOkF l = true → VarsBelow n (envGenVars env) →
      (inferFields l monovars env n = some (outF, nF) →
        n ≤ nF ∧ VarsBelow nF (outGenVarsF outF)) ∧
      (inferBindings l monovars env n = some (bs, nB) →
        n ≤ nB ∧ VarsBelow nB (outGenVarsB bs)))
    (motive_4 := fun o => ∀ monovars env n out n',
      annOkO o = true → VarsBelow n (envGenVars env) →
      inferOpt o monovars env n = some (out, n') →
      n ≤ n' ∧ VarsBelow n' (outGenVarsO out))
    (motive_5 := fun cs => ∀ monovars env n out n',
      annOkC cs = true → VarsBelow n (envGenVars env) →
      inferCases cs monovars env n = some (out, n') →
      n ≤ n' ∧ VarsBelow n' (outGenVarsC out))
    (motive_6 := fun p => ∀ monovars env n out n',
      annOk p.2 = true → VarsBelow n (envGenVars env) →
      infer p.2 monovars env n = some (out, n') →
      n ≤ n' ∧ VarsBelow n' (outGenVars out))
    (motive_7 := fun c => ∀ monovars env n out n',
      annOkL c.2.2 = true → VarsBelow n (envGenVars env) →
      inferMany c.2.2 monovars env n = some (out, n') →
      n ≤ n' ∧ VarsBelow n' (outGenVarsL out))
    (motive_8 := fun sl => ∀ monovars env n out n',
      annOkL sl.2 = true → VarsBelow n (envGenVars env) →
      inferMany sl.2 monovars env n = some (out, n') →
      n ≤ n' ∧ VarsBelow n' (outGenVarsL out))
  case unknown =>
    intro monovars env n out n' _ _ h
    simp [infer] at h
    obtain ⟨h1, h2⟩ := h
    subst h1; subst h2
    refine ⟨by omega, ?_⟩
    simp only [outGenVars, texprGenVars, flatMap_nil, List.append_assoc,
      List.append_nil, List.nil_append, tyGenVars_tRow, tyGenVarsL_append, tyGenVarsL, tcVector, tcRecord, tcArrow, tcVariant, tcEffect, varsBelow_append]
    exact ⟨varsBelow_gen (by omega), varsBelow_gen (by omega)⟩
  case num v =>
    intro monovars env n out n' _ _ h
    simp [infer] at h
    obtain ⟨h1, h2⟩ := h
    subst h1; subst h2
    refine ⟨by omega, ?_⟩
    simp only [outGenVars, texprGenVars, tNumber, tyGenVars, flatMap_nil,
      List.append_assoc, List.append_nil, List.nil_append, tyGenVars_tRow, tyGenVarsL_append, tyGenVarsL, tcVector, tcRecord, tcArrow, tcVariant, tcEffect, varsBelow_append]
    exact varsBelow_gen (by omega)
  case str s =>
    intro monovars env n out n' _ _ h
    simp [infer] at h
    obtain ⟨h1, h2⟩ := h
    subst h1; subst h2
    refine ⟨by omega, ?_⟩
    simp only [outGenVars, texprGenVars, tString, tyGenVars, flatMap_nil,
      List.append_assoc, List.append_nil, List.nil_append, tyGenVars_tRow, tyGenVarsL_append, tyGenVarsL, tcVector, tcRecord, tcArrow, tcVariant, tcEffect, varsBelow_append]
    exact varsBelow_gen (by omega)
  case varRef nm2 =>
    intro monovars env n out n' _ _ h
    simp [infer] at h
    obtain ⟨h1, h2⟩ := h
    subst h1; subst h2
    refine ⟨by omega, ?_⟩
    simp only [outGenVars, toTExpr_genVars, aGenVars, flatMap_nil,
      flatMap_cons, List.append_assoc, List.append_nil, List.nil_append,
      tyGenVars_tRow, tyGenVarsL_append, tyGenVarsL, tcVector, tcRecord, tcArrow, tcVariant, tcEffect, varsBelow_append]
    repeat' apply And.intro
    all_goals exact varsBelow_gen (by omega)
  case vector values ih =>
    intro monovars env n out n' hann henv h
    simp only [annOk] at hann
    cases hiv : inferMany values monovars env n with
    | none => simp [infer, hiv] at h
    | some p =>
    obtain ⟨iv, n1⟩ := p
    simp [infer, hiv] at h
    obtain ⟨h1, h2⟩ := h
    subst h1; subst h2
    obtain ⟨hle1, hb1⟩ := ih monovars env n iv n1 hann henv hiv
    obtain ⟨hbr, hbc, hba⟩ := outGenVarsL_split hb1
    refine ⟨by omega, ?_⟩
    simp only [outGenVars, texprGenVars, tyGenVars_tVector, flatMap_append,
      flatMap_cons, flatMap_nil, List.append_assoc, List.append_nil,
      List.nil_append, tyGenVars_tRow, tyGenVarsL_append, tyGenVarsL, tcVector, tcRecord, tcArrow, tcVariant, tcEffect, varsBelow_append]
    repeat' apply And.intro
    all_goals first
      | exact varsBelow_nil _
      | (refine varsBelow_gen ?_; omega)
      | (refine varsBelow_mono ?_ hbr; omega)
      | (refine varsBelow_mono ?_ hbc; omega)
      | (refine varsBelow_mono ?_ hba; omega)
      | (refine varsBelow_equalMap (varsBelow_mono ?_ hbr) (varsBelow_gen ?_) <;> omega)
      | (refine varsBelow_effectMap (varsBelow_mono ?_ hbr) (varsBelow_gen ?_) <;> omega)
  case record fields ext ihf iho =>
    intro monovars env n out n' hann henv h
    simp only [annOk, Bool.and_eq_true] at hann
    cases hifs : inferFields fields monovars env n with
    | none => simp [infer, hifs] at h
    | some p =>
    obtain ⟨ifs, n1⟩ := p
    cases hit : inferOpt ext monovars env n1 with
    | none => simp [infer, hifs, hit] at h
    | some q =>
    obtain ⟨itail, n2⟩ := q
    obtain ⟨hle1, hbF⟩ := (ihf monovars env n ifs n1 [] 0 hann.1 henv).1 hifs
    obtain ⟨hbFr, hbFc, hbFa⟩ := outGenVarsF_split hbF
    obtain ⟨hle2, hbO⟩ := iho monovars env n1 itail n2 hann.2
      (varsBelow_mono hle1 henv) hit
    cases itail with
    | none =>
        simp [infer, hifs, hit] at h
        obtain ⟨h1, h2⟩ := h
        subst h1; subst h2
        refine ⟨by omega, ?_⟩
        simp only [outGenVars, texprGenVars, texprGenVarsO, tyGenVars_tRecord,
          tyGenVars, flatMap_append, flatMap_cons, flatMap_nil,
          List.append_assoc, List.append_nil, List.nil_append,
          tyGenVars_tRow, tyGenVarsL_append, tyGenVarsL, tcVector, tcRecord, tcArrow, tcVariant, tcEffect, varsBelow_append]
        repeat' apply And.intro
        all_goals first
          | exact varsBelow_nil _
          | (refine varsBelow_gen ?_; omega)
          | (refine varsBelow_fieldTypes (varsBelow_mono ?_ hbFr); omega)
          | (refine varsBelow_mono ?_ hbFr; omega)
          | (refine varsBelow_mono ?_ hbFc; omega)
          | (refine varsBelow_mono ?_ hbFa; omega)
          | (refine varsBelow_effectMapF (varsBelow_mono ?_ hbFr) (varsBelow_gen ?_) <;> omega)
    | some it =>
        simp only [outGenVarsO] at hbO
        obtain ⟨hbTr, hbTc, hbTa⟩ := outGenVars_split hbO
        simp [infer, hifs, hit] at h
        obtain ⟨h1, h2⟩ := h
        subst h1; subst h2
        have hflv : VarsBelow (n2 + 2 + fields.length)
            (flatMap (fun p => tyGenVars p.2)
              (freshLabelVars (n2 + 2) (List.map (fun f => f.1) fields))) :=
          freshLabelVars_bound _ _ _ (by simp [List.length_map])
        refine ⟨by omega, ?_⟩
        simp only [outGenVars, texprGenVars, texprGenVarsO, tyGenVars_tRecord,
          tyGenVars, cGenVars_equal, cGenVars_effect, flatMap_append,
          flatMap_cons, flatMap_nil, List.append_assoc, List.append_nil,
          List.nil_append, tyGenVars_tRow, tyGenVarsL_append, tyGenVarsL, tcVector, tcRecord, tcArrow, tcVariant, tcEffect, varsBelow_append]
        repeat' apply And.intro
        all_goals first
          | exact varsBelow_nil _
          | (refine varsBelow_gen ?_; omega)
          | (refine varsBelow_fieldTypes (varsBelow_mono ?_ hbFr); omega)
          | exact hflv
          | (refine varsBelow_mono ?_ hbFr; omega)
          | (refine varsBelow_mono ?_ hbFc; omega)
          | (refine varsBelow_mono ?_ hbFa; omega)
          | (refine varsBelow_mono ?_ hbTr; omega)
          | (refine varsBelow_mono ?_ hbTc; omega)
          | (refine varsBelow_mono ?_ hbTa; omega)
          | (refine varsBelow_effectMapF (varsBelow_mono ?_ hbFr) (varsBelow_gen ?_) <;> omega)
  case conditional c t e ihc iht ihe =>
    intro monovars env n out n' hann henv h
    simp only [annOk, Bool.and_eq_true] at hann
    cases hic : infer c monovars env n with
    | none => simp [infer, hic] at h
    | some p =>
    obtain ⟨ic, n1⟩ := p
    cases hit : infer t monovars env n1 with
    | none => simp [infer, hic, hit] at h
    | some q =>
    obtain ⟨it, n2⟩ := q
    cases hie : infer e monovars env n2 with
    | none => simp [infer, hic, hit, hie] at h
    | some r =>
    obtain ⟨ie, n3⟩ := r
    simp [infer, hic, hit, hie] at h
    obtain ⟨h1, h2⟩ := h
    subst h1; subst h2
    obtain ⟨hle1, hb1⟩ := ihc monovars env n ic n1 hann.1.1 henv hic
    obtain ⟨hle2, hb2⟩ := iht monovars env n1 it n2 hann.1.2
      (varsBelow_mono hle1 henv) hit
    obtain ⟨hle3, hb3⟩ := ihe monovars env n2 ie n3 hann.2
      (varsBelow_mono (Nat.le_trans hle1 hle2) henv) hie
    obtain ⟨hb1r, hb1c, hb1a⟩ := outGenVars_split hb1
    obtain ⟨hb2r, hb2c, hb2a⟩ := outGenVars_split hb2
    obtain ⟨hb3r, hb3c, hb3a⟩ := outGenVars_split hb3
    refine ⟨by omega, ?_⟩
    simp only [outGenVars, texprGenVars, tBoolean, tyGenVars, cGenVars_equal,
      cGenVars_effect, flatMap_append, flatMap_cons, flatMap_nil,
      List.append_assoc, List.append_nil, List.nil_append, tyGenVars_tRow, tyGenVarsL_append, tyGenVarsL, tcVector, tcRecord, tcArrow, tcVariant, tcEffect, varsBelow_append]
    repeat' apply And.intro
    all_goals first
      | exact varsBelow_nil _
      | (refine varsBelow_gen ?_; omega)
      | (refine varsBelow_mono ?_ hb1r; omega)
      | (refine varsBelow_mono ?_ hb1c; omega)
      | (refine varsBelow_mono ?_ hb1a; omega)
      | (refine varsBelow_mono ?_ hb2r; omega)
      | (refine varsBelow_mono ?_ hb2c; omega)
      | (refine varsBelow_mono ?_ hb2a; omega)
      | (refine varsBelow_mono ?_ hb3r; omega)
      | (refine varsBelow_mono ?_ hb3c; omega)
      | (refine varsBelow_mono ?_ hb3a; omega)
  case fn args body ihb =>
    intro monovars env n out n' hann henv h
    simp only [annOk] at hann
    cases hib : inferMany body
        (monovars ++ (List.range args.length).map (fun i => genName (n + i)))
        env (n + args.length) with
    | none => simp [infer, hib] at h
    | some p =>
    obtain ⟨ib, n1⟩ := p
    cases hlastF : ib.result.getLast? with
    | none => simp [infer, hib, hlastF] at h
    | some lastF =>
    simp [infer, hib, hlastF] at h
    obtain ⟨h1, h2⟩ := h
    subst h1; subst h2
    obtain ⟨hle1, hb1⟩ := ihb
      (monovars ++ (List.range args.length).map (fun i => genName (n + i)))
      env (n + args.length) ib n1 hann
      (varsBelow_mono (Nat.le_add_right n args.length) henv) hib
    obtain ⟨hbr, hbc, hba⟩ := outGenVarsL_split hb1
    refine ⟨by omega, ?_⟩
    simp only [outGenVars, texprGenVars, tyGenVars_tFn, cGenVars_equal,
      cGenVars_effect, toTExpr_genVars, flatMap_append, flatMap_cons,
      flatMap_nil, List.append_assoc, List.append_nil, List.nil_append,
      tyGenVars_tRow, tyGenVarsL_append, tyGenVarsL, tcVector, tcRecord, tcArrow, tcVariant, tcEffect, varsBelow_append]
    repeat' apply And.intro
    any_goals first
      | exact varsBelow_nil _
      | (refine varsBelow_gen ?_; omega)
      | (refine argtypes_bound n args.length _ ?_; omega)
      | (refine varsBelow_mono ?_ hbr; omega)
      | (refine varsBelow_mono ?_ hbc; omega)
      | (refine varsBelow_mono ?_ hba; omega)
      | (refine varsBelow_aFilter (varsBelow_mono ?_ hba); omega)
      | (refine varsBelow_effectMap (varsBelow_mono ?_ hbr) (varsBelow_gen ?_) <;> omega)
      | (show VarsBelow (n1 + 2) (tyGenVars lastF.infoOf.type)
         refine varsBelow_sub (fun nm hnm => texprGenVarsL_mem _ lastF
           (getLast?_mem_list _ _ hlastF) nm
           (infoOf_genVars lastF nm (Or.inl hnm)))
           (varsBelow_mono ?_ hbr)
         omega)
      | skip
    · rw [varsBelow_flatMap]
      intro x hx
      obtain ⟨v, hv, rfl⟩ := List.mem_map.mp hx
      simp only [cGenVars_equal, toTExpr_genVars]
      rw [varsBelow_append]
      constructor
      · exact (varsBelow_flatMap _ _ _).mp (varsBelow_mono (by omega) hba) v
          (List.mem_of_mem_filter hv)
      · cases hidx : (List.range args.length)[List.indexOf v.name args]? with
        | none =>
            simp only [hidx, Option.map_none', Option.getD_none]
            intro nm hnm
            simp [tVoid, tyGenVars] at hnm
        | some i =>
            have hi : i < args.length := by
              have hmem := List.getElem?_mem hidx
              simpa using hmem
            simp only [hidx, Option.map_some', Option.getD_some]
            exact varsBelow_gen (by omega)
  case funcall f args ihf iha =>
    intro monovars env n out n' hann henv h
    simp only [annOk, Bool.and_eq_true] at hann
    cases hifn : infer f monovars env n with
    | none => simp [infer, hifn] at h
    | some p =>
    obtain ⟨ifn, n1⟩ := p
    cases hiargs : inferMany args monovars env n1 with
    | none => simp [infer, hifn, hiargs] at h
    | some q =>
    obtain ⟨iargs, n2⟩ := q
    simp [infer, hifn, hiargs] at h
    obtain ⟨h1, h2⟩ := h
    subst h1; subst h2
    obtain ⟨hle1, hb1⟩ := ihf monovars env n ifn n1 hann.1 henv hifn
    obtain ⟨hle2, hb2⟩ := iha monovars env n1 iargs n2 hann.2
      (varsBelow_mono hle1 henv) hiargs
    obtain ⟨hb1r, hb1c, hb1a⟩ := outGenVars_split hb1
    obtain ⟨hb2r, hb2c, hb2a⟩ := outGenVarsL_split hb2
    refine ⟨by omega, ?_⟩
    simp only [outGenVars, texprGenVars, tyGenVars_tFn, cGenVars_equal,
      cGenVars_effect, flatMap_append, flatMap_cons, flatMap_nil,
      List.append_assoc, List.append_nil, List.nil_append, tyGenVars_tRow, tyGenVarsL_append, tyGenVarsL, tcVector, tcRecord, tcArrow, tcVariant, tcEffect, varsBelow_append]
    repeat' apply And.intro
    all_goals first
      | exact varsBelow_nil _
      | (refine varsBelow_gen ?_; omega)
      | (refine varsBelow_argTypes (varsBelow_mono ?_ hb2r); omega)
      | (refine varsBelow_mono ?_ hb1r; omega)
      | (refine varsBelow_mono ?_ hb1c; omega)
      | (refine varsBelow_mono ?_ hb1a; omega)
      | (refine varsBelow_mono ?_ hb2r; omega)
      | (refine varsBelow_mono ?_ hb2c; omega)
      | (refine varsBelow_mono ?_ hb2a; omega)
      | (refine varsBelow_effectMap (varsBelow_mono ?_ hb2r) (varsBelow_gen ?_) <;> omega)
  case letB bindings body ihb ihbody =>
    intro monovars env n out n' hann henv h
    simp only [annOk, Bool.and_eq_true] at hann
    cases hib : inferBindings bindings monovars env n with
    | none => simp [infer, hib] at h
    | some p =>
    obtain ⟨ib, n1⟩ := p
    cases hibody : inferMany body monovars env n1 with
    | none => simp [infer, hib, hibody] at h
    | some q =>
    obtain ⟨ibody, n2⟩ := q
    cases hlastF : ibody.result.getLast? with
    | none => simp [infer, hib, hibody, hlastF] at h
    | some lastF =>
    simp [infer, hib, hibody, hlastF] at h
    obtain ⟨h1, h2⟩ := h
    subst h1; subst h2
    obtain ⟨hle1, hbB⟩ := (ihb monovars env n ⟨[], [], []⟩ 0 ib n1 hann.1 henv).2 hib
    obtain ⟨hle2, hbL⟩ := ihbody monovars env n1 ibody n2 hann.2
      (varsBelow_mono hle1 henv) hibody
    obtain ⟨hbLr, hbLc, hbLa⟩ := outGenVarsL_split hbL
    have hbind : ∀ bi ∈ ib, VarsBelow n1 (outGenVars bi.2) := by
      intro bi hbi
      exact (varsBelow_flatMap _ _ _).mp
        (by simpa only [outGenVarsB] using hbB) bi hbi
    refine ⟨by omega, ?_⟩
    simp only [outGenVars, texprGenVars, cGenVars_equal, cGenVars_effect,
      cGenVars_implicit, tyGenVars_tEffectNil, flatMap_append, flatMap_cons,
      flatMap_nil, List.append_assoc, List.append_nil, List.nil_append,
      tyGenVars_tRow, tyGenVarsL_append, tyGenVarsL, tcVector, tcRecord, tcArrow, tcVariant, tcEffect, varsBelow_append]
    repeat' apply And.intro
    any_goals first
      | exact varsBelow_nil _
      | (refine varsBelow_gen ?_; omega)
      | (refine varsBelow_mono ?_ hbLr; omega)
      | (refine varsBelow_mono ?_ hbLc; omega)
      | (refine varsBelow_mono ?_ hbLa; omega)
      | (refine varsBelow_aFilter (varsBelow_mono ?_ hbLa); omega)
      | (refine varsBelow_effectMap (varsBelow_mono ?_ hbLr) (varsBelow_gen ?_) <;> omega)
      | (refine varsBelow_bindingResults ib _ (varsBelow_mono ?_ hbB); omega)
      | (show VarsBelow (n2 + 1) (tyGenVars lastF.infoOf.type)
         refine varsBelow_sub (fun nm hnm => texprGenVarsL_mem _ lastF
           (getLast?_mem_list _ _ hlastF) nm
           (infoOf_genVars lastF nm (Or.inl hnm)))
           (varsBelow_mono ?_ hbLr)
         omega)
      | skip
    · rw [flatMap_flatMap, varsBelow_flatMap]
      intro bi hbi
      exact varsBelow_mono (by omega) (outGenVars_split (hbind bi hbi)).2.1
    · rw [varsBelow_flatMap]
      intro x hx
      obtain ⟨v, hv, rfl⟩ := List.mem_map.mp hx
      cases hfind : List.find? (fun bi => bi.1 == v.name) ib with
      | some bi =>
          simp only [cGenVars_implicit]
          rw [varsBelow_append]
          constructor
          · exact (varsBelow_flatMap _ _ _).mp (varsBelow_mono (by omega) hbLa)
              v (List.mem_of_mem_filter hv)
          · have hbi := List.mem_of_find?_eq_some hfind
            refine varsBelow_sub (fun nm hnm => ?_)
              (varsBelow_mono (by omega) (outGenVars_split (hbind bi hbi)).1)
            exact infoOf_genVars bi.2.result nm (Or.inl hnm)
      | none =>
          simp only [cGenVars_implicit]
          rw [varsBelow_append]
          refine ⟨(varsBelow_flatMap _ _ _).mp (varsBelow_mono (by omega) hbLa)
            v (List.mem_of_mem_filter hv), ?_⟩
          intro nm hnm
          simp [tVoid, tyGenVars] at hnm
    · rw [varsBelow_flatMap]
      intro x hx
      obtain ⟨bi, hbi, rfl⟩ := List.mem_map.mp hx
      simp only [cGenVars_effect, tyGenVars_tEffectNil]
      rw [varsBelow_append]
      exact ⟨varsBelow_mono (by omega) (outGenVars_split (hbind bi hbi)).1,
        varsBelow_nil _⟩
    · rw [flatMap_flatMap, varsBelow_flatMap]
      intro bi hbi
      exact varsBelow_mono (by omega) (outGenVars_split (hbind bi hbi)).2.2
  case theAnn twc value ihv =>
    intro monovars env n out n' hann henv h
    simp only [annOk, Bool.and_eq_true] at hann
    cases hiv : infer value monovars env n with
    | none => simp [infer, hiv] at h
    | some p =>
    obtain ⟨iv, n1⟩ := p
    cases ht : expandTypeAliases env (instW twc n1 []).1 with
    | none => simp [infer, hiv, ht] at h
    | some t =>
    simp [infer, hiv, ht] at h
    obtain ⟨h1, h2⟩ := h
    subst h1; subst h2
    obtain ⟨hle1, hb1⟩ := ihv monovars env n iv n1 hann.2 henv hiv
    obtain ⟨hbr, hbc, hba⟩ := outGenVars_split hb1
    have hiw := instW_bound twc n1 [] hann.1 (by intro x hx; simp at hx)
    have hleN : n1 ≤ (instW twc n1 []).2.1 := hiw.1
    have htb : VarsBelow (instW twc n1 []).2.1 (tyGenVars t) := by
      intro nm hnm
      rcases expandTypeAliases_genVars env (instW twc n1 []).1 t ht nm hnm with
        h2 | h2
      · exact hiw.2.1 nm h2
      · exact varsBelow_mono (Nat.le_trans hle1 hleN) henv nm h2
    refine ⟨Nat.le_trans hle1 hleN, ?_⟩
    simp only [outGenVars, texprGenVars, cGenVars_equal, flatMap_append,
      flatMap_cons, flatMap_nil, List.append_assoc, List.append_nil,
      List.nil_append, tyGenVars_tRow, tyGenVarsL_append, tyGenVarsL, tcVector, tcRecord, tcArrow, tcVariant, tcEffect, varsBelow_append]
    repeat' apply And.intro
    all_goals first
      | exact varsBelow_nil _
      | exact htb
      | exact varsBelow_mono hleN hbr
      | exact varsBelow_mono hleN hbc
      | exact varsBelow_mono hleN hba
      | (show VarsBelow ((instW twc n1 []).2.1)
            (tyGenVars iv.result.infoOf.effect)
         exact varsBelow_sub (fun nm hnm =>
           infoOf_genVars iv.result nm (Or.inr hnm)) (varsBelow_mono hleN hbr))
  case doBlock body ret ihb ihr =>
    intro monovars env n out n' hann henv h
    simp only [annOk, Bool.and_eq_true] at hann
    cases hib : inferMany body monovars env n with
    | none => simp [infer, hib] at h
    | some p =>
    obtain ⟨ib, n1⟩ := p
    cases hir : infer ret monovars env n1 with
    | none => simp [infer, hib, hir] at h
    | some q =>
    obtain ⟨ir, n2⟩ := q
    simp [infer, hib, hir] at h
    obtain ⟨h1, h2⟩ := h
    subst h1; subst h2
    obtain ⟨hle1, hb1⟩ := ihb monovars env n ib n1 hann.1 henv hib
    obtain ⟨hle2, hb2⟩ := ihr monovars env n1 ir n2 hann.2
      (varsBelow_mono hle1 henv) hir
    obtain ⟨hb1r, hb1c, hb1a⟩ := outGenVarsL_split hb1
    obtain ⟨hb2r, hb2c, hb2a⟩ := outGenVars_split hb2
    refine ⟨by omega, ?_⟩
    simp only [outGenVars, texprGenVars, cGenVars_effect, flatMap_append,
      flatMap_cons, flatMap_nil, List.append_assoc, List.append_nil,
      List.nil_append, tyGenVars_tRow, tyGenVarsL_append, tyGenVarsL, tcVector, tcRecord, tcArrow, tcVariant, tcEffect, varsBelow_append]
    repeat' apply And.intro
    all_goals first
      | exact varsBelow_nil _
      | (refine varsBelow_gen ?_; omega)
      | (refine varsBelow_mono ?_ hb1r; omega)
      | (refine varsBelow_mono ?_ hb1c; omega)
      | (refine varsBelow_mono ?_ hb1a; omega)
      | (refine varsBelow_mono ?_ hb2r; omega)
      | (refine varsBelow_mono ?_ hb2c; omega)
      | (refine varsBelow_mono ?_ hb2a; omega)
      | (show VarsBelow (n2 + 1) (tyGenVars ir.result.infoOf.type)
         refine varsBelow_sub (fun nm hnm =>
           infoOf_genVars ir.result nm (Or.inl hnm))
           (varsBelow_mono ?_ hb2r)
         omega)
      | (refine varsBelow_effectMap (varsBelow_mono ?_ hb1r) (varsBelow_gen ?_) <;> omega)
  case matchE value cases2 ihv ihcs =>
    intro monovars env n out n' hann henv h
    simp only [annOk, Bool.and_eq_true] at hann
    cases hiv : infer value monovars env n with
    | none => simp [infer, hiv] at h
    | some p =>
    obtain ⟨iv, n1⟩ := p
    cases hics : inferCases cases2 monovars env n1 with
    | none => simp [infer, hiv, hics] at h
    | some q =>
    obtain ⟨ics, n2⟩ := q
    cases hmcs : matchCasesConstraints (generateUniqueTVar n2)
        (freshLabelVars (n2 + 2) (List.map (fun c => c.1) cases2)) ics with
    | none => simp [infer, hiv, hics, hmcs] at h
    | some mcs =>
    simp [infer, hiv, hics, hmcs] at h
    obtain ⟨h1, h2⟩ := h
    subst h1; subst h2
    obtain ⟨hle1, hb1⟩ := ihv monovars env n iv n1 hann.1 henv hiv
    obtain ⟨hle2, hb2⟩ := ihcs monovars env n1 ics n2 hann.2
      (varsBelow_mono hle1 henv) hics
    obtain ⟨hb1r, hb1c, hb1a⟩ := outGenVars_split hb1
    have hvts : VarsBelow (n2 + 2 + cases2.length)
        (flatMap (fun p => tyGenVars p.2)
          (freshLabelVars (n2 + 2) (List.map (fun c => c.1) cases2))) :=
      freshLabelVars_bound _ _ _ (by simp [List.length_map])
    have hmb : VarsBelow (n2 + 2 + cases2.length) (flatMap cGenVars mcs) :=
      matchCasesConstraints_bound ics (generateUniqueTVar n2) _ mcs _ hmcs
        (varsBelow_gen (by omega)) hvts (varsBelow_mono (by omega) hb2)
    have hcs : ∀ c ∈ ics, VarsBelow n2 (outGenVarsL c.2.2) := by
      intro c hc
      exact (varsBelow_flatMap _ _ _).mp
        (by simpa only [outGenVarsC] using hb2) c hc
    refine ⟨by omega, ?_⟩
    simp only [outGenVars, texprGenVars, tyGenVars_tVariant, cGenVars_equal,
      flatMap_append, flatMap_cons, flatMap_nil, List.append_assoc,
      List.append_nil, List.nil_append, tyGenVars_tRow, tyGenVarsL_append, tyGenVarsL, tcVector, tcRecord, tcArrow, tcVariant, tcEffect, varsBelow_append]
    repeat' apply And.intro
    any_goals first
      | exact varsBelow_nil _
      | (refine varsBelow_gen ?_; omega)
      | exact hvts
      | exact hmb
      | (refine varsBelow_casesResults _ _ (varsBelow_mono ?_ hb2); omega)
      | (refine varsBelow_mono ?_ hb1r; omega)
      | (refine varsBelow_mono ?_ hb1c; omega)
      | (refine varsBelow_mono ?_ hb1a; omega)
      | skip
    · rw [flatMap_flatMap, varsBelow_flatMap]
      intro c hc
      exact varsBelow_mono (by omega) (outGenVarsL_split (hcs c hc)).2.1
    · rw [flatMap_flatMap, varsBelow_flatMap]
      intro c hc
      exact varsBelow_aFilter
        (varsBelow_mono (by omega) (outGenVarsL_split (hcs c hc)).2.2)
  case nil monovars env n out n' hann henv h =>
    simp [inferMany] at h
    obtain ⟨h1, h2⟩ := h
    subst h1; subst h2
    refine ⟨Nat.le_refl n, ?_⟩
    intro nm hnm
    simp [outGenVarsL, texprGenVarsL, flatMap] at hnm
  case cons e es ih1 ih2 monovars env n out n' hann henv h =>
    simp only [annOkL, Bool.and_eq_true] at hann
    cases hie : infer e monovars env n with
    | none => simp [inferMany, hie] at h
    | some p =>
    obtain ⟨ie, n1⟩ := p
    cases hrest : inferMany es monovars env n1 with
    | none => simp [inferMany, hie, hrest] at h
    | some q =>
    obtain ⟨rest, n2⟩ := q
    simp [inferMany, hie, hrest] at h
    obtain ⟨h1, h2⟩ := h
    subst h1; subst h2
    obtain ⟨hle1, hb1⟩ := ih1 monovars env n ie n1 hann.1 henv hie
    obtain ⟨hle2, hb2⟩ := ih2 monovars env n1 rest n2 hann.2
      (varsBelow_mono hle1 henv) hrest
    obtain ⟨hb1r, hb1c, hb1a⟩ := outGenVars_split hb1
    obtain ⟨hb2r, hb2c, hb2a⟩ := outGenVarsL_split hb2
    refine ⟨Nat.le_trans hle1 hle2, ?_⟩
    simp only [outGenVarsL, texprGenVarsL, flatMap_append, List.append_assoc,
      varsBelow_append]
    repeat' apply And.intro
    all_goals first
      | exact varsBelow_mono hle2 hb1r
      | exact varsBelow_mono hle2 hb1c
      | exact varsBelow_mono hle2 hb1a
      | exact hb2r
      | exact hb2c
      | exact hb2a
  case nil monovars env n outF nF bs nB hann =>
    intro henv
    constructor
    · intro h
      simp [inferFields] at h
      obtain ⟨h1, h2⟩ := h
      subst h1; subst h2
      refine ⟨Nat.le_refl n, ?_⟩
      intro nm hnm
      simp [outGenVarsF, texprGenVarsF, flatMap] at hnm
    · intro h
      simp [inferBindings] at h
      obtain ⟨h1, h2⟩ := h
      subst h1; subst h2
      refine ⟨Nat.le_refl n, ?_⟩
      intro nm hnm
      simp [outGenVarsB, flatMap] at hnm
  case cons p fs ihp ihfs monovars env n outF nF bs nB hann =>
    intro henv
    obtain ⟨l, e⟩ := p
    simp only [annOkF, Bool.and_eq_true] at hann
    cases hie : infer e monovars env n with
    | none =>
        constructor
        · intro h
          simp [inferFields, hie] at h
        · intro h
          simp [inferBindings, hie] at h
    | some p2 =>
    obtain ⟨ie, n1⟩ := p2
    obtain ⟨hle1, hb1⟩ := ihp monovars env n ie n1 hann.1 henv hie
    obtain ⟨hb1r, hb1c, hb1a⟩ := outGenVars_split hb1
    constructor
    · intro h
      cases hrest : inferFields fs monovars env n1 with
      | none => simp [inferFields, hie, hrest] at h
      | some q =>
      obtain ⟨rest, n2⟩ := q
      obtain ⟨hle2, hb2⟩ := (ihfs monovars env n1 rest n2 [] 0 hann.2
        (varsBelow_mono hle1 henv)).1 hrest
      obtain ⟨hb2r, hb2c, hb2a⟩ := outGenVarsF_split hb2
      simp [inferFields, hie, hrest] at h
      obtain ⟨h1, h2⟩ := h
      subst h1; subst h2
      refine ⟨Nat.le_trans hle1 hle2, ?_⟩
      simp only [outGenVarsF, texprGenVarsF, flatMap_append,
        List.append_assoc, varsBelow_append]
      repeat' apply And.intro
      all_goals first
        | exact varsBelow_mono hle2 hb1r
        | exact varsBelow_mono hle2 hb1c
        | exact varsBelow_mono hle2 hb1a
        | exact hb2r
        | exact hb2c
        | exact hb2a
    · intro h
      cases hrest : inferBindings fs monovars env n1 with
      | none => simp [inferBindings, hie, hrest] at h
      | some q =>
      obtain ⟨rest, n2⟩ := q
      obtain ⟨hle2, hb2⟩ := (ihfs monovars env n1 ⟨[], [], []⟩ 0 rest n2 hann.2
        (varsBelow_mono hle1 henv)).2 hrest
      simp [inferBindings, hie, hrest] at h
      obtain ⟨h1, h2⟩ := h
      subst h1; subst h2
      refine ⟨Nat.le_trans hle1 hle2, ?_⟩
      rw [show outGenVarsB ((l, ie) :: rest) =
        outGenVars ie ++ outGenVarsB rest from rfl]
      rw [varsBelow_append]
      exact ⟨varsBelow_mono hle2 hb1, hb2⟩
  case none monovars env n out n' hann henv h =>
    simp [inferOpt] at h
    obtain ⟨h1, h2⟩ := h
    subst h1; subst h2
    refine ⟨Nat.le_refl n, ?_⟩
    intro nm hnm
    simp [outGenVarsO] at hnm
  case some e ihe monovars env n out n' hann henv h =>
    cases hie : infer e monovars env n with
    | none => simp [inferOpt, hie] at h
    | some p =>
    obtain ⟨ie, n1⟩ := p
    simp [inferOpt, hie] at h
    obtain ⟨h1, h2⟩ := h
    subst h1; subst h2
    obtain ⟨hle1, hb1⟩ := ihe monovars env n ie n1 (by simpa [annOkO] using hann)
      henv hie
    exact ⟨hle1, by simpa only [outGenVarsO] using hb1⟩
  case nil monovars env n out n' hann henv h =>
    simp [inferCases] at h
    obtain ⟨h1, h2⟩ := h
    subst h1; subst h2
    refine ⟨Nat.le_refl n, ?_⟩
    intro nm hnm
    simp [outGenVarsC, flatMap] at hnm
  case cons c cs ihc ihcs monovars env n out n' hann henv h =>
    obtain ⟨l, v, body⟩ := c
    simp only [annOkC, Bool.and_eq_true] at hann
    cases hib : inferMany body (monovars ++ [v]) env n with
    | none => simp [inferCases, hib] at h
    | some p =>
    obtain ⟨ib, n1⟩ := p
    cases hrest : inferCases cs monovars env n1 with
    | none => simp [inferCases, hib, hrest] at h
    | some q =>
    obtain ⟨rest, n2⟩ := q
    simp [inferCases, hib, hrest] at h
    obtain ⟨h1, h2⟩ := h
    subst h1; subst h2
    obtain ⟨hle1, hb1⟩ := ihc (monovars ++ [v]) env n ib n1 hann.1 henv hib
    obtain ⟨hle2, hb2⟩ := ihcs monovars env n1 rest n2 hann.2
      (varsBelow_mono hle1 henv) hrest
    refine ⟨Nat.le_trans hle1 hle2, ?_⟩
    rw [show outGenVarsC ((l, v, ib) :: rest) =
      outGenVarsL ib ++ outGenVarsC rest from rfl]
    rw [varsBelow_append]
    exact ⟨varsBelow_mono hle2 hb1, hb2⟩
  case mk l e ihe monovars env n out n' hann henv h =>
    exact ihe monovars env n out n' hann henv h
  case mk l sl ihsl monovars env n out n' hann henv h =>
    exact ihsl monovars env n out n' hann henv h
  case mk l body ihb monovars env n out n' hann henv h =>
    exact ihb monovars env n out n' hann henv h

/-- Freshness of `inferMany`, unrolled from the generator induction: the
counter moves forward and every generated variable of the output is below
the output counter. -/
theorem inferMany_fresh : ∀ (es : List Expr) (monovars : List String)
    (env : ITEnv) (n : Nat) (out : InferRes (List TExpr)) (n' : Nat),
    annOkL es = true → VarsBelow n (envGenVars env) →
    inferMany es monovars env n = some (out, n') →
    n ≤ n' ∧ VarsBelow n' (outGenVarsL out) := by
  intro es
  induction es with
  | nil =>
      intro monovars env n out n' _ _ h
      simp [inferMany] at h
      obtain ⟨h1, h2⟩ := h
      subst h1; subst h2
      refine ⟨Nat.le_refl n, ?_⟩
      intro nm hnm
      simp [outGenVarsL, texprGenVarsL, flatMap] at hnm
  | cons e es2 ih =>
      intro monovars env n out n' hann henv h
      simp only [annOkL, Bool.and_eq_true] at hann
      cases hie : infer e monovars env n with
      | none => simp [inferMany, hie] at h
      | some p =>
      obtain ⟨ie, n1⟩ := p
      cases hrest : inferMany es2 monovars env n1 with
      | none => simp [inferMany, hie, hrest] at h
      | some q =>
      obtain ⟨rest, n2⟩ := q
      simp [inferMany, hie, hrest] at h
      obtain ⟨h1, h2⟩ := h
      subst h1; subst h2
      obtain ⟨hle1, hb1⟩ := infer_fresh_aux e monovars env n ie n1 hann.1
        henv hie
      obtain ⟨hle2, hb2⟩ := ih monovars env n1 rest n2 hann.2
        (varsBelow_mono hle1 henv) hrest
      obtain ⟨hb1r, hb1c, hb1a⟩ := outGenVars_split hb1
      obtain ⟨hb2r, hb2c, hb2a⟩ := outGenVarsL_split hb2
      refine ⟨Nat.le_trans hle1 hle2, ?_⟩
      simp only [outGenVarsL, texprGenVarsL, flatMap_append, List.append_assoc,
        varsBelow_append]
      repeat' apply And.intro
      all_goals first
        | exact varsBelow_mono hle2 hb1r
        | exact varsBelow_mono hle2 hb1c
        | exact varsBelow_mono hle2 hb1a
        | exact hb2r
        | exact hb2c
        | exact hb2a

/-- C5: the effect assigned to a lambda node itself is a freshly generated
type variable occurring in none of the constraints the lambda emits: the
body's constraints only mention variables generated strictly earlier, and
the argument-type and body-effect constraints use variables generated
before the outer effect, so constructing the closure is effect-free in the
caller's context. -/
theorem c5_fn_outer_effect_fresh (args : List String) (body : List Expr)
    (monovars : List String) (env : ITEnv) (n n' : Nat) (out : InferRes TExpr)
    (hann : annOk (.fn args body) = true)
    (henv : VarsBelow n (envGenVars env))
    (h : infer (.fn args body) monovars env n = some (out, n')) :
    ∃ N : Nat, out.result.infoOf.effect = generateUniqueTVar N ∧
      ∀ nm ∈ flatMap cGenVars out.constraints, nm ≠ genName N := by
  simp only [annOk] at hann
  cases hib : inferMany body
      (monovars ++ (List.range args.length).map (fun i => genName (n + i)))
      env (n + args.length) with
  | none => simp [infer, hib] at h
  | some p =>
  obtain ⟨ib, n1⟩ := p
  cases hlastF : ib.result.getLast? with
  | none => simp [infer, hib, hlastF] at h
  | some lastF =>
  simp [infer, hib, hlastF] at h
  obtain ⟨h1, h2⟩ := h
  obtain ⟨hle1, hbL⟩ := inferMany_fresh body _ env (n + args.length) ib n1
    hann (varsBelow_mono (Nat.le_add_right n args.length) henv) hib
  obtain ⟨hbr, hbc, hba⟩ := outGenVarsL_split hbL
  refine ⟨n1 + 1, ?_, ?_⟩
  · rw [← h1]
    rfl
  · intro nm hnm
    suffices hb : ∃ k, k < n1 + 1 ∧ nm = genName k by
      obtain ⟨k, hk, hkeq⟩ := hb
      subst hkeq
      intro heq
      have hik := genName_inj _ _ heq
      omega
    revert nm hnm
    show VarsBelow (n1 + 1) _
    rw [← h1]
    simp only [flatMap_append, flatMap_cons, flatMap_nil, cGenVars_equal,
      cGenVars_effect, toTExpr_genVars, List.append_assoc, varsBelow_append]
    repeat' apply And.intro
    any_goals first
      | exact varsBelow_nil _
      | (refine varsBelow_gen ?_; omega)
      | (refine varsBelow_mono ?_ hbc; omega)
      | (refine varsBelow_effectMap (varsBelow_mono ?_ hbr)
          (varsBelow_gen ?_) <;> omega)
      | skip
    · rw [varsBelow_flatMap]
      intro x hx
      obtain ⟨v, hv, rfl⟩ := List.mem_map.mp hx
      simp only [cGenVars_equal, toTExpr_genVars]
      rw [varsBelow_append]
      constructor
      · exact (varsBelow_flatMap _ _ _).mp (varsBelow_mono (by omega) hba) v
          (List.mem_of_mem_filter hv)
      · cases hidx : (List.range args.length)[List.indexOf v.name args]? with
        | none =>
            simp only [hidx, Option.map_none', Option.getD_none]
            intro nm hnm
            simp [tVoid, tyGenVars] at hnm
        | some i =>
            have hi : i < args.length := by
              have hmem := List.getElem?_mem hidx
              simpa using hmem
            simp only [hidx, Option.map_some', Option.getD_some]
            exact varsBelow_gen (by omega)

/-- Witness for C5: the identity-like lambda `(lambda (x) x)` from a fresh
counter; the outer effect is a fresh variable absent from both emitted
constraints. -/
theorem c5_fn_outer_effect_fresh_witness :
    annOk (.fn ["x"] [.varRef "x"]) = true ∧
    ∃ out n', infer (.fn ["x"] [.varRef "x"]) [] [] 0 = some (out, n') ∧
      ∃ N : Nat, out.result.infoOf.effect = generateUniqueTVar N ∧
        ∀ nm ∈ flatMap cGenVars out.constraints, nm ≠ genName N :=
  ⟨rfl, _, _, rfl,
    c5_fn_outer_effect_fresh ["x"] [.varRef "x"] [] [] 0 _ _ rfl
      (fun nm hnm => absurd hnm (by simp [envGenVars, flatMap])) rfl⟩
